import Mathlib

/-!
Verification development for the seastore onode-tree node layer
(src/crimson/os/seastore/onode_manager/staged-fltree/node.cc).

The node layer is embedded shallowly: nodes, cursors and the tracking graph
live in an explicit `World` state, and each function of node.cc becomes a
pure Lean function on `World`.  The node-implementation layer (node_impl.h,
the staged extent layout) is not part of the translated source; where its
behavior matters it is modelled from the spec's node-implementation
contract (section 6 of the design document), and such definitions carry a
doc comment starting with "Modelled from the spec".
-/

/-- Stage constant STAGE_LEFT of the staged composite key (stages.h). -/
def STAGE_LEFT : Nat := 2

/-- Stage constant STAGE_STRING of the staged composite key. -/
def STAGE_STRING : Nat := 1

/-- Stage constant STAGE_RIGHT of the staged composite key (the lowest stage). -/
def STAGE_RIGHT : Nat := 0

/-- INDEX_END sentinel: the maximal index value (numeric_limits of the
32-bit index type), used both as the end marker of a position and as the
upper bound marker inside track_insert. -/
def INDEX_END : Nat := 4294967295

/-- Modelled from the spec: `search_position_t`, the three-stage position
type of staged_types (stages LEFT=2, STRING=1, RIGHT=0), ordered
lexicographically from the top stage down.  node.cc manipulates it only
through `is_end`, `index_by_stage`, comparison and stage-wise
subtraction. -/
structure search_position_t where
  i2 : Nat
  i1 : Nat
  i0 : Nat
deriving DecidableEq, Repr

/-- The distinguished end position (all stages at INDEX_END). -/
def spEnd : search_position_t := ⟨INDEX_END, INDEX_END, INDEX_END⟩

/-- The begin position (all stages at zero). -/
def spBegin : search_position_t := ⟨0, 0, 0⟩

/-- `is_end`: the top-stage index equals INDEX_END. -/
def spIsEnd (p : search_position_t) : Bool := p.i2 == INDEX_END

/-- `index_by_stage`: read the index at a given stage. -/
def spIndex (p : search_position_t) (s : Nat) : Nat :=
  if s == 2 then p.i2 else if s == 1 then p.i1 else p.i0

/-- Write the index at a given stage (used for INDEX_END upper bounds and
for zeroing the STAGE_RIGHT index of the invalidation floor). -/
def spSetIndex (p : search_position_t) (s : Nat) (v : Nat) : search_position_t :=
  if s == 2 then ⟨v, p.i1, p.i0⟩ else if s == 1 then ⟨p.i2, v, p.i0⟩ else ⟨p.i2, p.i1, v⟩

/-- Increment the index at a given stage (the `++_pos.index_by_stage(stage)`
of track_insert). -/
def spInc (p : search_position_t) (s : Nat) : search_position_t :=
  spSetIndex p s (spIndex p s + 1)

/-- Lexicographic less-or-equal on positions (top stage first). -/
def spLeb (a b : search_position_t) : Bool :=
  if a.i2 != b.i2 then decide (a.i2 < b.i2)
  else if a.i1 != b.i1 then decide (a.i1 < b.i1)
  else decide (a.i0 ≤ b.i0)

/-- Lexicographic strict order on positions. -/
def spLtb (a b : search_position_t) : Bool :=
  if a.i2 != b.i2 then decide (a.i2 < b.i2)
  else if a.i1 != b.i1 then decide (a.i1 < b.i1)
  else decide (a.i0 < b.i0)

/-- Modelled from the spec: stage-wise subtraction (`operator-=` of
staged_position_t): subtract the top index; only when the result is zero
recurse into the next stage. -/
def spSub (a b : search_position_t) : search_position_t :=
  let j2 := a.i2 - b.i2
  if j2 = 0 then
    let j1 := a.i1 - b.i1
    if j1 = 0 then ⟨0, 0, a.i0 - b.i0⟩ else ⟨0, j1, a.i0⟩
  else ⟨j2, a.i1, a.i0⟩

/-- Node field types (field_type_t of the extent layout). -/
inductive field_type_t where
  | N0 | N1 | N2 | N3
deriving DecidableEq, Repr

/-- Match kind of a lower-bound search at a leaf (MatchKindBS). -/
inductive MatchKindBS where
  | NE | EQ
deriving DecidableEq, Repr

/-- The onode value record: only its size is inspected by node.cc
(`p_value->size == value.size`); a payload field keeps distinct values
distinguishable in the model. -/
structure onode_t where
  size : Nat
  payload : Nat
deriving DecidableEq, Repr

/-- Association-list lookup by Nat key (first match). -/
def alGet {α : Type} (l : List (Nat × α)) (k : Nat) : Option α :=
  match l.find? (fun e => e.1 == k) with
  | some e => some e.2
  | none => none

/-- Association-list pointwise modification at a Nat key. -/
def alMod {α : Type} (l : List (Nat × α)) (k : Nat) (f : α → α) : List (Nat × α) :=
  l.map (fun e => if e.1 == k then (e.1, f e.2) else e)

/-- Position-keyed map lookup (std::map find). -/
def pmGet {α : Type} (l : List (search_position_t × α)) (k : search_position_t) : Option α :=
  match l.find? (fun e => e.1 == k) with
  | some e => some e.2
  | none => none

/-- Position-keyed map erase of one key. -/
def pmErase {α : Type} (l : List (search_position_t × α)) (k : search_position_t) :
    List (search_position_t × α) :=
  l.filter (fun e => e.1 != k)

/-- Position-keyed map insert / overwrite at one key. -/
def pmInsert {α : Type} (l : List (search_position_t × α)) (k : search_position_t) (v : α) :
    List (search_position_t × α) :=
  (k, v) :: pmErase l k

/-- Minimal entry with key strictly greater than `p`: the `++iter` successor
used by the nxt_child assertion of InternalNode::track_insert.  The map is
unordered in the model, so the successor is computed as the least greater
key. -/
def pmMinGreater {α : Type} (l : List (search_position_t × α)) (p : search_position_t) :
    Option (search_position_t × α) :=
  (l.filter (fun e => spLtb p e.1)).foldl
    (fun acc e =>
      match acc with
      | none => some e
      | some a => if spLtb e.1 a.1 then some e else some a)
    none

/-- Modelled from the spec: the leaf node-implementation state visible to
the node layer (section 6 contract): extent address, field type,
level-tail flag, free size, and the logical position-to-onode mapping
backing `get_p_value`. -/
structure LeafImplModel where
  addr : Nat
  ft : field_type_t
  levelTail : Bool
  free : Nat
  entries : List (search_position_t × onode_t)
deriving DecidableEq, Repr

/-- Modelled from the spec: the internal node-implementation state: extent
address, field type, level-tail flag, level, free size, and the logical
position-to-child-address mapping. -/
structure InternalImplModel where
  addr : Nat
  ft : field_type_t
  levelTail : Bool
  level : Nat
  free : Nat
  entries : List (search_position_t × Nat)
deriving DecidableEq, Repr

/-- tree_cursor_t (node.cc lines 25-69): a leaf back-reference, a position
within it, and a cached value pointer (modelled as the cached onode, none
when invalidated). -/
structure tree_cursor_t where
  leaf_node : Nat
  position : search_position_t
  p_value : Option onode_t
deriving DecidableEq, Repr

/-- A live leaf node: its implementation state, its parent linkage
(position in parent, parent id; none for the root), and its
tracked_cursors map. -/
structure LeafState where
  impl : LeafImplModel
  parent : Option (search_position_t × Nat)
  tracked_cursors : List (search_position_t × Nat)
deriving DecidableEq, Repr

/-- A live internal node: its implementation state, its parent linkage,
and its tracked_child_nodes map. -/
structure InternalState where
  impl : InternalImplModel
  parent : Option (search_position_t × Nat)
  tracked_child_nodes : List (search_position_t × Nat)
deriving DecidableEq, Repr

/-- The world state: all live leaf and internal nodes and cursors keyed by
id, the super linkage (tracked root id and root extent address), and
fresh-id/fresh-address counters. -/
structure World where
  leaves : List (Nat × LeafState)
  internals : List (Nat × InternalState)
  cursors : List (Nat × tree_cursor_t)
  superRoot : Option Nat
  rootLaddr : Nat
  nextNode : Nat
  nextCursor : Nat
  nextAddr : Nat
deriving DecidableEq, Repr

/-- Free size of a leaf node's implementation. -/
def leafFree (w : World) (n : Nat) : Option Nat :=
  (alGet w.leaves n).map (fun ls => ls.impl.free)

/-- Free size of an internal node's implementation. -/
def internalFree (w : World) (n : Nat) : Option Nat :=
  (alGet w.internals n).map (fun s => s.impl.free)

/-- Tracked cursors of a leaf (empty when the leaf does not exist). -/
def trackedCursorsOf (w : World) (n : Nat) : List (search_position_t × Nat) :=
  match alGet w.leaves n with
  | some ls => ls.tracked_cursors
  | none => []

/-- Tracked children of an internal node. -/
def trackedChildrenOf (w : World) (n : Nat) : List (search_position_t × Nat) :=
  match alGet w.internals n with
  | some s => s.tracked_child_nodes
  | none => []

/-- Extent entries of an internal node (position to child address). -/
def internalEntriesOf (w : World) (n : Nat) : List (search_position_t × Nat) :=
  match alGet w.internals n with
  | some s => s.impl.entries
  | none => []

/-- `impl->laddr()` of a node of either kind. -/
def nodeAddr (w : World) (n : Nat) : Nat :=
  match alGet w.leaves n with
  | some ls => ls.impl.addr
  | none =>
    match alGet w.internals n with
    | some s => s.impl.addr
    | none => 0

/-- `impl->level()` of a node: 0 for leaves. -/
def nodeLevel (w : World) (n : Nat) : Nat :=
  match alGet w.leaves n with
  | some _ => 0
  | none =>
    match alGet w.internals n with
    | some s => s.impl.level
    | none => 0

/-- parent_info of a node of either kind. -/
def nodeParent (w : World) (n : Nat) : Option (search_position_t × Nat) :=
  match alGet w.leaves n with
  | some ls => ls.parent
  | none =>
    match alGet w.internals n with
    | some s => s.parent
    | none => none

/-- `is_root`: the super currently tracks this node. -/
def isRoot (w : World) (n : Nat) : Bool := w.superRoot == some n

/-- Field type of a leaf (N0 default for a missing id). -/
def leafFt (w : World) (n : Nat) : field_type_t :=
  match alGet w.leaves n with
  | some ls => ls.impl.ft
  | none => field_type_t.N0

/-- Level-tail flag of a leaf. -/
def leafTail (w : World) (n : Nat) : Bool :=
  match alGet w.leaves n with
  | some ls => ls.impl.levelTail
  | none => false

/-- Field type of an internal node. -/
def internalFt (w : World) (n : Nat) : field_type_t :=
  match alGet w.internals n with
  | some s => s.impl.ft
  | none => field_type_t.N0

/-- Level-tail flag of an internal node. -/
def internalTail (w : World) (n : Nat) : Bool :=
  match alGet w.internals n with
  | some s => s.impl.levelTail
  | none => false

/-- Level of an internal node. -/
def internalLevel (w : World) (n : Nat) : Nat :=
  match alGet w.internals n with
  | some s => s.impl.level
  | none => 0

/-- Replace the whole state of one cursor. -/
def setCursor (w : World) (cid : Nat) (st : tree_cursor_t) : World :=
  { w with cursors := alMod w.cursors cid (fun _ => st) }

/-- `do_track_cursor`: register a cursor in a leaf's tracked_cursors map. -/
def leafDoTrackCursor (w : World) (lid : Nat) (pos : search_position_t) (cid : Nat) : World :=
  { w with leaves := (alMod w.leaves lid
      (fun ls => { ls with tracked_cursors := pmInsert ls.tracked_cursors pos cid })) }

/-- `do_untrack_cursor`: remove a cursor's entry from its leaf's map
(tree_cursor_t destructor, node.cc lines 35-39). -/
def leafDoUntrackCursor (w : World) (lid : Nat) (pos : search_position_t) : World :=
  { w with leaves := (alMod w.leaves lid
      (fun ls => { ls with tracked_cursors := pmErase ls.tracked_cursors pos })) }

/-- Overwrite a leaf's tracked_cursors map. -/
def setLeafTracked (w : World) (lid : Nat) (m : List (search_position_t × Nat)) : World :=
  { w with leaves := alMod w.leaves lid (fun ls => { ls with tracked_cursors := m }) }

/-- Overwrite an internal node's tracked_child_nodes map. -/
def setInternalTracked (w : World) (iid : Nat) (m : List (search_position_t × Nat)) : World :=
  { w with internals := alMod w.internals iid (fun s => { s with tracked_child_nodes := m }) }

/-- Set the parent linkage field of a node (whichever store holds it). -/
def setNodeParent (w : World) (n : Nat) (pi : Option (search_position_t × Nat)) : World :=
  { w with
    leaves := alMod w.leaves n (fun ls => { ls with parent := pi }),
    internals := alMod w.internals n (fun s => { s with parent := pi }) }

/-- `Node::as_child` (node.cc lines 181-188): store the parent_info in the
child and register the child in the parent's tracked_child_nodes
(`do_track_child`). -/
def Node_as_child (w : World) (child : Nat) (pos : search_position_t) (parent : Nat) : World :=
  let w := setNodeParent w child (some (pos, parent))
  { w with internals := (alMod w.internals parent
      (fun s => { s with tracked_child_nodes := pmInsert s.tracked_child_nodes pos child })) }

/-- tree_cursor_t constructor (node.cc lines 25-33): allocate a fresh
cursor over (leaf, pos, p_value); when the position is not end, register it
in the leaf's tracked_cursors (`do_track_cursor`); an end cursor is never
registered. -/
def tree_cursor_ctor (w : World) (lid : Nat) (pos : search_position_t)
    (pv : Option onode_t) : World × Nat :=
  let cid := w.nextCursor
  let w1 := { w with
    cursors := (cid, ⟨lid, pos, pv⟩) :: w.cursors,
    nextCursor := cid + 1 }
  if spIsEnd pos then (w1, cid) else (leafDoTrackCursor w1 lid pos cid, cid)

/-- `LeafNode::get_p_value` (node.cc lines 483-485): delegates to the
implementation's position-to-value lookup. -/
def LeafNode_get_p_value (w : World) (lid : Nat) (pos : search_position_t) : Option onode_t :=
  match alGet w.leaves lid with
  | some ls => pmGet ls.impl.entries pos
  | none => none

/-- `tree_cursor_t::get_p_value` (node.cc lines 41-49): return the cached
value pointer; when the cache is nil, re-resolve from the leaf and cache
the result. -/
def tree_cursor_get_p_value (w : World) (cid : Nat) : World × Option onode_t :=
  match alGet w.cursors cid with
  | none => (w, none)
  | some st =>
    match st.p_value with
    | some v => (w, some v)
    | none =>
      let v := LeafNode_get_p_value w st.leaf_node st.position
      (setCursor w cid ⟨st.leaf_node, st.position, v⟩, v)

/-- `tree_cursor_t::update_track` (node.cc lines 51-61): move the cursor to
a new leaf and position (the caller already removed its old map entry; the
cache is already invalidated) and register it there. -/
def tree_cursor_update_track (w : World) (cid : Nat) (lid : Nat)
    (pos : search_position_t) : World :=
  match alGet w.cursors cid with
  | none => w
  | some st =>
    let w1 := setCursor w cid ⟨lid, pos, st.p_value⟩
    leafDoTrackCursor w1 lid pos cid

/-- `tree_cursor_t::set_p_value` (node.cc lines 63-69): fill the cache when
empty; an already-set cache is left unchanged (the code asserts
equality). -/
def tree_cursor_set_p_value (w : World) (cid : Nat) (v : onode_t) : World :=
  { w with cursors := (alMod w.cursors cid
      (fun st => if st.p_value = none then ⟨st.leaf_node, st.position, some v⟩ else st)) }

/-- `tree_cursor_t::invalidate_p_value`: clear the cached value of every
cursor whose id belongs to `ids` (the std::for_each of track_insert /
track_split). -/
def invalidateCursors (w : World) (ids : List Nat) : World :=
  { w with cursors := (w.cursors.map
      (fun e => if e.1 ∈ ids then (e.1, ⟨e.2.leaf_node, e.2.position, none⟩) else e)) }

/-- `LeafNode::get_or_track_cursor` (node.cc lines 616-636): an end
position always yields a fresh unregistered cursor; otherwise reuse the
tracked cursor at that position (filling its cache) or construct and
register a new one. -/
def LeafNode_get_or_track_cursor (w : World) (lid : Nat) (pos : search_position_t)
    (pv : Option onode_t) : World × Nat :=
  if spIsEnd pos then tree_cursor_ctor w lid pos pv
  else
    match pmGet (trackedCursorsOf w lid) pos with
    | none => tree_cursor_ctor w lid pos pv
    | some cid =>
      match pv with
      | some v => (tree_cursor_set_p_value w cid v, cid)
      | none => (w, cid)

/-- The invalidation floor of track_insert / track_split (node.cc lines
643-644 and 674-675): the insert / split position with the index at
STAGE_RIGHT set to zero. -/
def invalidateFloor (p : search_position_t) : search_position_t :=
  spSetIndex p STAGE_RIGHT 0

/-- The stage window upper bound of track_insert (node.cc lines 651-652):
the insert position with the index at the insert stage set to
INDEX_END. -/
def stageUpper (p : search_position_t) (stage : Nat) : search_position_t :=
  spSetIndex p stage INDEX_END

/-- `LeafNode::track_insert` (node.cc lines 638-668): invalidate the cached
value of every tracked cursor at a position at or above the invalidation
floor; shift every tracked cursor with position in
[insert_pos, insert_pos with INDEX_END at the insert stage) by
incrementing its index at the insert stage and re-registering it; then
construct and register the new cursor at insert_pos with the inserted
value. -/
def LeafNode_track_insert (w : World) (lid : Nat) (ipos : search_position_t)
    (stage : Nat) (pv : Option onode_t) : World × Nat :=
  let tracked := trackedCursorsOf w lid
  let invIds := (tracked.filter (fun e => spLeb (invalidateFloor ipos) e.1)).map (fun e => e.2)
  let w1 := invalidateCursors w invIds
  let upper := stageUpper ipos stage
  let inWindow := fun (e : search_position_t × Nat) => spLeb ipos e.1 && spLtb e.1 upper
  let moved := tracked.filter inWindow
  let kept := tracked.filter (fun e => !(inWindow e))
  let w2 := setLeafTracked w1 lid kept
  let w3 := moved.foldl (fun w e => tree_cursor_update_track w e.2 lid (spInc e.1 stage)) w2
  tree_cursor_ctor w3 lid ipos pv

/-- `LeafNode::track_split` (node.cc lines 670-691): invalidate cached
values at or above the invalidation floor; move every tracked cursor at a
position at or above split_pos onto the right sibling at the stage-wise
difference position; erase all of those from the left leaf's map. -/
def LeafNode_track_split (w : World) (lid : Nat) (spos : search_position_t)
    (rid : Nat) : World :=
  let tracked := trackedCursorsOf w lid
  let invIds := (tracked.filter (fun e => spLeb (invalidateFloor spos) e.1)).map (fun e => e.2)
  let w1 := invalidateCursors w invIds
  let moved := tracked.filter (fun e => spLeb spos e.1)
  let kept := tracked.filter (fun e => !(spLeb spos e.1))
  let w2 := moved.foldl (fun w e => tree_cursor_update_track w e.2 rid (spSub e.1 spos)) w1
  setLeafTracked w2 lid kept

/-- `InternalNode::track_insert` (node.cc lines 395-425): shift every
tracked child with position in the stage window of the insert by
incrementing its index at the insert stage (re-registering it via
as_child), then register the inserted child at insert_pos. -/
def InternalNode_track_insert (w : World) (iid : Nat) (ipos : search_position_t)
    (stage : Nat) (insert_child : Nat) : World :=
  let tracked := trackedChildrenOf w iid
  let upper := stageUpper ipos stage
  let inWindow := fun (e : search_position_t × Nat) => spLeb ipos e.1 && spLtb e.1 upper
  let moved := tracked.filter inWindow
  let kept := tracked.filter (fun e => !(inWindow e))
  let w1 := setInternalTracked w iid kept
  let w2 := moved.foldl (fun w e => Node_as_child w e.2 (spInc e.1 stage) iid) w1
  Node_as_child w2 insert_child ipos iid

/-- `InternalNode::replace_track` (node.cc lines 427-433): drop the old
child's registration at the position and register the new child there. -/
def InternalNode_replace_track (w : World) (iid : Nat) (pos : search_position_t)
    (new_child : Nat) : World :=
  let w1 := setInternalTracked w iid (pmErase (trackedChildrenOf w iid) pos)
  Node_as_child w1 new_child pos iid

/-- `InternalNode::track_split` (node.cc lines 435-446): re-home every
tracked child at a position at or above split_pos onto the right sibling
at the stage-wise difference position, then erase those entries from this
node's map. -/
def InternalNode_track_split (w : World) (iid : Nat) (spos : search_position_t)
    (rid : Nat) : World :=
  let tracked := trackedChildrenOf w iid
  let moved := tracked.filter (fun e => spLeb spos e.1)
  let kept := tracked.filter (fun e => !(spLeb spos e.1))
  let w1 := moved.foldl (fun w e => Node_as_child w e.2 (spSub e.1 spos) rid) w
  setInternalTracked w1 iid kept

/-- The evaluate_insert result triple (insert position, insert stage,
insert size) returned by the node implementation. -/
structure EvalResult where
  pos : search_position_t
  stage : Nat
  size : Nat
deriving DecidableEq, Repr

/-- Oracle data standing for the node-implementation decisions and the
extent manager along one insert chain: the set of node ids whose
allocation fails, and per internal node the evaluate_insert plan and the
split position chosen by split_insert. -/
structure Oracles where
  allocFails : List Nat
  evalI : Nat → search_position_t → EvalResult
  splitI : Nat → search_position_t

/-- Modelled from the spec: the staged-layout effect of the
implementation's `insert(key, value, pos, stage, size)` on the logical
position-to-value mapping: entries inside the stage window
[pos, pos with INDEX_END at stage) move up by one index at the insert
stage, and the new entry appears at pos.  This is the extent-side move
that track_insert mirrors on the tracking map. -/
def stagedShiftInsert {α : Type} (es : List (search_position_t × α))
    (ipos : search_position_t) (stage : Nat) (v : α) : List (search_position_t × α) :=
  let upper := stageUpper ipos stage
  (ipos, v) :: es.map (fun e =>
    if spLeb ipos e.1 && spLtb e.1 upper then (spInc e.1 stage, e.2) else e)

/-- Modelled from the spec: `impl->insert` on a leaf consumes the
evaluated insert size from the free space and installs the value at the
insert position (shifting the stage window). -/
def leafImplInsert (w : World) (lid : Nat) (value : onode_t) (ev : EvalResult) : World :=
  { w with leaves := (alMod w.leaves lid (fun ls =>
      { ls with impl := { ls.impl with
          free := ls.impl.free - ev.size,
          entries := stagedShiftInsert ls.impl.entries ev.pos ev.stage value } })) }

/-- Modelled from the spec: `impl->insert` on an internal node installs
the separator's child address at the insert position. -/
def internalImplInsert (w : World) (iid : Nat) (addr : Nat) (ev : EvalResult) : World :=
  { w with internals := (alMod w.internals iid (fun s =>
      { s with impl := { s.impl with
          free := s.impl.free - ev.size,
          entries := stagedShiftInsert s.impl.entries ev.pos ev.stage addr } })) }

/-- `impl->replace_child_addr(pos, new, old)` (used by apply_child_split):
overwrite the child address stored at the position. -/
def internalReplaceChildAddr (w : World) (iid : Nat) (pos : search_position_t)
    (newAddr : Nat) : World :=
  { w with internals := (alMod w.internals iid (fun s =>
      { s with impl := { s.impl with
          entries := s.impl.entries.map
            (fun e => if e.1 == pos then (e.1, newAddr) else e) } })) }

/-- Write a child address into an internal extent slot (the
copy_in_absolute of allocate_root targeting the level-tail slot). -/
def internalCopyIn (w : World) (iid : Nat) (pos : search_position_t) (addr : Nat) : World :=
  { w with internals := (alMod w.internals iid (fun s =>
      { s with impl := { s.impl with entries := pmInsert s.impl.entries pos addr } })) }

/-- Free capacity of a freshly allocated node extent (NODE_BLOCK_SIZE
minus fixed headers; the exact figure never matters to the claims). -/
def NODE_CAP : Nat := 4096

/-- `LeafNode::allocate` (node.cc lines 693-701): reserve a fresh extent
and wrap it in a new LeafNode with the requested field type and level-tail
flag; allocation can fail (extent manager), in which case nothing
changes. -/
def LeafNode_allocate (w : World) (ft : field_type_t) (tail : Bool)
    (orc : Oracles) : World × Option Nat :=
  if w.nextNode ∈ orc.allocFails then (w, none)
  else
    let nid := w.nextNode
    let ad := w.nextAddr
    ({ w with
        leaves := (nid, ⟨⟨ad, ft, tail, NODE_CAP, []⟩, none, []⟩) :: w.leaves,
        nextNode := nid + 1, nextAddr := ad + 1 }, some nid)

/-- `InternalNode::allocate` (node.cc lines 466-474): reserve a fresh
extent and wrap it in a new InternalNode with the requested field type,
level-tail flag and level. -/
def InternalNode_allocate (w : World) (ft : field_type_t) (tail : Bool) (level : Nat)
    (orc : Oracles) : World × Option Nat :=
  if w.nextNode ∈ orc.allocFails then (w, none)
  else
    let nid := w.nextNode
    let ad := w.nextAddr
    ({ w with
        internals := (nid, ⟨⟨ad, ft, tail, level, NODE_CAP, []⟩, none, []⟩) :: w.internals,
        nextNode := nid + 1, nextAddr := ad + 1 }, some nid)

/-- `Node::make_root` (node.cc lines 157-168): write this node's extent
address as the super's root address and let the super track it
(`as_root` / `do_track_root`).  `make_root_from` of allocate_root is
modelled from the spec as transferring the super linkage this way. -/
def Node_make_root (w : World) (nid : Nat) : World :=
  { w with rootLaddr := nodeAddr w nid, superRoot := some nid }

/-- `InternalNode::allocate_root` (node.cc lines 297-310): allocate an N0
level-tail internal node one level above the old root, write the old
root's address into its level-tail (end) slot, and make it the tracked
root. -/
def InternalNode_allocate_root (w : World) (old_level : Nat) (old_addr : Nat)
    (orc : Oracles) : World × Option Nat :=
  match InternalNode_allocate w field_type_t.N0 true (old_level + 1) orc with
  | (w1, none) => (w1, none)
  | (w1, some root) =>
    let w2 := internalCopyIn w1 root spEnd old_addr
    let w3 := Node_make_root w2 root
    (w3, some root)

/-- `Node::upgrade_root` (node.cc lines 170-179): deregister this root
from the super, allocate a new internal root over it, and re-bind this
node as the new root's child at the end position.  The deregistration
happens before the allocation suspension; a failed allocation therefore
leaves the super deregistered and propagates the error. -/
def Node_upgrade_root (w : World) (nid : Nat) (orc : Oracles) : World × Bool :=
  let w1 := { w with superRoot := none }
  match InternalNode_allocate_root w1 (nodeLevel w nid) (nodeAddr w nid) orc with
  | (w2, some newRoot) => (Node_as_child w2 nid spEnd newRoot, true)
  | (w2, none) => (w2, false)

/-- Modelled from the spec: the implementation's `split_insert` on an
internal node: move the entries at or above the split position onto the
fresh right extent at stage-wise difference positions; insert the
separator address on the left side when the insert position is below the
split position, else on the right side at the right-relative position
(per the design note, split_insert returns the right-relative insert
position in that case).  Returns (is_insert_left, adjusted insert
position). -/
def internalSplitInsert (w : World) (iid : Nat) (rid : Nat) (addr : Nat)
    (ev : EvalResult) (spos : search_position_t) : World × Bool × search_position_t :=
  let es := internalEntriesOf w iid
  let leftEs := es.filter (fun e => !(spLeb spos e.1))
  let rightEs := (es.filter (fun e => spLeb spos e.1)).map (fun e => (spSub e.1 spos, e.2))
  let isLeft := spLtb ev.pos spos
  if isLeft then
    let w1 := { w with internals := (alMod w.internals iid (fun s =>
        { s with impl := { s.impl with
            entries := stagedShiftInsert leftEs ev.pos ev.stage addr } })) }
    let w2 := { w1 with internals := (alMod w1.internals rid (fun s =>
        { s with impl := { s.impl with entries := rightEs } })) }
    (w2, true, ev.pos)
  else
    let rpos := spSub ev.pos spos
    let w1 := { w with internals := (alMod w.internals iid (fun s =>
        { s with impl := { s.impl with entries := leftEs } })) }
    let w2 := { w1 with internals := (alMod w1.internals rid (fun s =>
        { s with impl := { s.impl with
            entries := stagedShiftInsert rightEs rpos ev.stage addr } })) }
    (w2, false, rpos)

/-- Modelled from the spec: the implementation's `split_insert` on a leaf,
with the same splitting and insert-side convention as the internal
version. -/
def leafSplitInsert (w : World) (lid : Nat) (rid : Nat) (value : onode_t)
    (ev : EvalResult) (spos : search_position_t) : World × Bool × search_position_t :=
  let es := match alGet w.leaves lid with
    | some ls => ls.impl.entries
    | none => []
  let leftEs := es.filter (fun e => !(spLeb spos e.1))
  let rightEs := (es.filter (fun e => spLeb spos e.1)).map (fun e => (spSub e.1 spos, e.2))
  let isLeft := spLtb ev.pos spos
  if isLeft then
    let w1 := { w with leaves := (alMod w.leaves lid (fun ls =>
        { ls with impl := { ls.impl with
            entries := stagedShiftInsert leftEs ev.pos ev.stage value } })) }
    let w2 := { w1 with leaves := (alMod w1.leaves rid (fun ls =>
        { ls with impl := { ls.impl with entries := rightEs } })) }
    (w2, true, ev.pos)
  else
    let rpos := spSub ev.pos spos
    let w1 := { w with leaves := (alMod w.leaves lid (fun ls =>
        { ls with impl := { ls.impl with entries := leftEs } })) }
    let w2 := { w1 with leaves := (alMod w1.leaves rid (fun ls =>
        { ls with impl := { ls.impl with
            entries := stagedShiftInsert rightEs rpos ev.stage value } })) }
    (w2, false, rpos)


/-- Steps 1-2 of `InternalNode::apply_child_split` (node.cc lines 238-244):
replace the on-extent child address and the tracked child at `pos` with
the right child. -/
def acsReplace (w : World) (iid : Nat) (pos : search_position_t) (rightId : Nat) : World :=
  InternalNode_replace_track
    (internalReplaceChildAddr w iid pos (nodeAddr w rightId)) iid pos rightId

/-- The in-place branch of `InternalNode::apply_child_split` (node.cc
lines 251-261): implementation insert of the separator followed by
track_insert of the left child. -/
def acsInPlace (w : World) (iid : Nat) (leftAddr leftId : Nat) (ev : EvalResult) : World :=
  InternalNode_track_insert (internalImplInsert w iid leftAddr ev) iid ev.pos ev.stage leftId

/-- The split-and-insert core of `InternalNode::apply_child_split`
(node.cc lines 277-288): split_insert into the fresh right sibling,
track_split, then track_insert of the left child on the side that
received the separator. -/
def acsSplitCore (w : World) (iid rid : Nat) (leftAddr leftId : Nat) (ev : EvalResult)
    (spos : search_position_t) : World :=
  let s := internalSplitInsert w iid rid leftAddr ev spos
  let w6 := InternalNode_track_split s.1 iid spos rid
  if s.2.1 then InternalNode_track_insert w6 iid s.2.2 ev.stage leftId
  else InternalNode_track_insert w6 rid s.2.2 ev.stage leftId

/-- `InternalNode::apply_child_split` (node.cc lines 230-295): replace the
on-extent child address and the tracked child at `pos` from the left
child to the right child; evaluate the separator insert (the left child's
largest key mapping to its address) at hint `pos`; insert in place when
the free size suffices, else split this node (promoting the root first
when needed), distribute the tracked children, and recursively propagate
to the parent (`insert_parent`).  The recursion along the parent chain is
bounded by fuel; exhausted fuel and failed allocations report failure
with the state reached so far (the error propagation of the future
chain). -/
def InternalNode_apply_child_split :
    Nat → World → Nat → search_position_t → Nat → Nat → Oracles → World × Bool
  | 0, w, _, _, _, _, _ => (w, false)
  | Nat.succ fuel, w, iid, pos, leftId, rightId, orc =>
    let leftAddr := nodeAddr w leftId
    let w2 := acsReplace w iid pos rightId
    let ev := orc.evalI iid pos
    match internalFree w2 iid with
    | none => (w2, false)
    | some free =>
      if ev.size ≤ free then (acsInPlace w2 iid leftAddr leftId ev, true)
      else
        let u := if isRoot w2 iid then Node_upgrade_root w2 iid orc else (w2, true)
        if u.2 then
          let a := InternalNode_allocate u.1 (internalFt u.1 iid) (internalTail u.1 iid)
            (internalLevel u.1 iid) orc
          match a.2 with
          | none => (a.1, false)
          | some rid =>
            let w7 := acsSplitCore a.1 iid rid leftAddr leftId ev (orc.splitI iid)
            match nodeParent w7 iid with
            | some pp => InternalNode_apply_child_split fuel w7 pp.2 pp.1 iid rid orc
            | none => (w7, false)
        else (u.1, false)

/-- `Node::insert_parent` (node.cc lines 190-195): invoke the parent's
apply_child_split at this node's parent position. -/
def Node_insert_parent (fuel : Nat) (w : World) (nid : Nat) (rid : Nat)
    (orc : Oracles) : World × Bool :=
  match nodeParent w nid with
  | some pp => InternalNode_apply_child_split fuel w pp.2 pp.1 nid rid orc
  | none => (w, false)

/-- The in-place branch of `LeafNode::insert_value` (node.cc lines
558-567): implementation insert followed by track_insert, returning the
new cursor. -/
def livInPlace (w : World) (lid : Nat) (value : onode_t) (ev : EvalResult) : World × Nat :=
  LeafNode_track_insert (leafImplInsert w lid value ev) lid ev.pos ev.stage (some value)

/-- The split-and-insert core of `LeafNode::insert_value` (node.cc lines
579-592): split_insert into the fresh right leaf, track_split, then
track_insert of the new cursor on the side that received the value. -/
def livSplitCore (w : World) (lid rid : Nat) (value : onode_t) (ev : EvalResult)
    (spos : search_position_t) : World × Nat :=
  let s := leafSplitInsert w lid rid value ev spos
  let w4 := LeafNode_track_split s.1 lid spos rid
  if s.2.1 then LeafNode_track_insert w4 lid s.2.2 ev.stage (some value)
  else LeafNode_track_insert w4 rid s.2.2 ev.stage (some value)

/-- `LeafNode::insert_value` (node.cc lines 544-601): evaluate the insert
(the result `ev` stands for the implementation's answer at hint `pos`);
insert in place and track the new cursor when the free size suffices;
otherwise promote the root if needed, allocate a fresh right leaf with
this node's field type and level-tail flag at that moment, split-insert,
re-home the cursors at or above the split position, create the new cursor
on the side that received the insert, and propagate the split to the
parent.  Returns the new cursor on success. -/
def LeafNode_insert_value (fuel : Nat) (w : World) (lid : Nat) (value : onode_t)
    (pos : search_position_t) (ev : EvalResult) (spos : search_position_t)
    (orc : Oracles) : World × Option Nat :=
  match leafFree w lid with
  | none => (w, none)
  | some free =>
    if ev.size ≤ free then
      let r := livInPlace w lid value ev
      (r.1, some r.2)
    else
      let u := if isRoot w lid then Node_upgrade_root w lid orc else (w, true)
      if u.2 then
        let a := LeafNode_allocate u.1 (leafFt u.1 lid) (leafTail u.1 lid) orc
        match a.2 with
        | none => (a.1, none)
        | some rid =>
          let r := livSplitCore a.1 lid rid value ev spos
          let p := Node_insert_parent fuel r.1 lid rid orc
          if p.2 then (p.1, some r.2) else (p.1, none)
      else (u.1, none)

/-- `Node::insert` (node.cc lines 99-120) composed with
`LeafNode::lower_bound_tracked` (lines 518-525): the descent has landed on
leaf `lbLeaf` with the implementation's lower-bound result
(`lbPos`, `lbVal`, match kind `m`); the leaf materializes the cursor via
get_or_track_cursor; an EQ match returns that cursor with inserted=false,
otherwise insert_value runs at the cursor's position and the new cursor is
returned with inserted=true. -/
def Node_insert (fuel : Nat) (w : World) (lbLeaf : Nat) (lbPos : search_position_t)
    (lbVal : Option onode_t) (m : MatchKindBS) (value : onode_t) (ev : EvalResult)
    (spos : search_position_t) (orc : Oracles) : World × Option (Nat × Bool) :=
  let wc := LeafNode_get_or_track_cursor w lbLeaf lbPos lbVal
  match m with
  | MatchKindBS.EQ => (wc.1, some (wc.2, false))
  | MatchKindBS.NE =>
    let r := LeafNode_insert_value fuel wc.1 lbLeaf value lbPos ev spos orc
    match r.2 with
    | some c2 => (r.1, some (c2, true))
    | none => (r.1, none)

theorem alGet_cons_self {α : Type} (k : Nat) (v : α) (l : List (Nat × α)) :
    alGet ((k, v) :: l) k = some v := by
  simp [alGet, List.find?]

@[simp] theorem setNodeParent_cursors (w : World) (n : Nat)
    (pi : Option (search_position_t × Nat)) :
    (setNodeParent w n pi).cursors = w.cursors := rfl

@[simp] theorem Node_as_child_cursors (w : World) (c : Nat) (p : search_position_t)
    (par : Nat) : (Node_as_child w c p par).cursors = w.cursors := rfl

@[simp] theorem setInternalTracked_cursors (w : World) (iid : Nat)
    (m : List (search_position_t × Nat)) :
    (setInternalTracked w iid m).cursors = w.cursors := rfl

theorem foldl_world_cursors {α : Type} (f : World → α → World)
    (h : ∀ w x, (f w x).cursors = w.cursors) :
    ∀ (l : List α) (w : World), (l.foldl f w).cursors = w.cursors := by
  intro l
  induction l with
  | nil => intro w; rfl
  | cons x xs ih =>
    intro w
    simp only [List.foldl_cons]
    rw [ih, h]

@[simp] theorem InternalNode_track_insert_cursors (w : World) (iid : Nat)
    (p : search_position_t) (stage : Nat) (c : Nat) :
    (InternalNode_track_insert w iid p stage c).cursors = w.cursors := by
  unfold InternalNode_track_insert
  rw [Node_as_child_cursors]
  rw [foldl_world_cursors
    (fun (w : World) (e : search_position_t × Nat) => Node_as_child w e.2 (spInc e.1 stage) iid)
    (fun _ _ => rfl)]
  rw [setInternalTracked_cursors]

@[simp] theorem InternalNode_replace_track_cursors (w : World) (iid : Nat)
    (p : search_position_t) (c : Nat) :
    (InternalNode_replace_track w iid p c).cursors = w.cursors := rfl

@[simp] theorem InternalNode_track_split_cursors (w : World) (iid : Nat)
    (p : search_position_t) (rid : Nat) :
    (InternalNode_track_split w iid p rid).cursors = w.cursors := by
  unfold InternalNode_track_split
  rw [setInternalTracked_cursors]
  rw [foldl_world_cursors
    (fun (w : World) (e : search_position_t × Nat) => Node_as_child w e.2 (spSub e.1 p) rid)
    (fun _ _ => rfl)]

@[simp] theorem internalReplaceChildAddr_cursors (w : World) (iid : Nat)
    (p : search_position_t) (a : Nat) :
    (internalReplaceChildAddr w iid p a).cursors = w.cursors := rfl

@[simp] theorem internalImplInsert_cursors (w : World) (iid : Nat) (a : Nat)
    (ev : EvalResult) : (internalImplInsert w iid a ev).cursors = w.cursors := rfl

@[simp] theorem internalCopyIn_cursors (w : World) (iid : Nat) (p : search_position_t)
    (a : Nat) : (internalCopyIn w iid p a).cursors = w.cursors := rfl

@[simp] theorem Node_make_root_cursors (w : World) (nid : Nat) :
    (Node_make_root w nid).cursors = w.cursors := rfl

@[simp] theorem acsReplace_cursors (w : World) (iid : Nat) (pos : search_position_t)
    (rightId : Nat) : (acsReplace w iid pos rightId).cursors = w.cursors := rfl

@[simp] theorem acsInPlace_cursors (w : World) (iid : Nat) (la li : Nat)
    (ev : EvalResult) : (acsInPlace w iid la li ev).cursors = w.cursors := by
  unfold acsInPlace
  rw [InternalNode_track_insert_cursors, internalImplInsert_cursors]

@[simp] theorem InternalNode_allocate_cursors (w : World) (ft : field_type_t)
    (tail : Bool) (level : Nat) (orc : Oracles) :
    ((InternalNode_allocate w ft tail level orc).1).cursors = w.cursors := by
  unfold InternalNode_allocate
  split <;> rfl

@[simp] theorem InternalNode_allocate_root_cursors (w : World) (lv : Nat) (ad : Nat)
    (orc : Oracles) :
    ((InternalNode_allocate_root w lv ad orc).1).cursors = w.cursors := by
  unfold InternalNode_allocate_root
  split
  · rename_i w1 hm
    have h2 := InternalNode_allocate_cursors w field_type_t.N0 true (lv + 1) orc
    rw [hm] at h2
    exact h2
  · rename_i w1 root hm
    have h2 := InternalNode_allocate_cursors w field_type_t.N0 true (lv + 1) orc
    rw [hm] at h2
    simpa using h2

@[simp] theorem Node_upgrade_root_cursors (w : World) (nid : Nat) (orc : Oracles) :
    ((Node_upgrade_root w nid orc).1).cursors = w.cursors := by
  unfold Node_upgrade_root
  simp only []
  split
  · rename_i w2 newRoot hm
    have h2 := InternalNode_allocate_root_cursors { w with superRoot := none }
      (nodeLevel w nid) (nodeAddr w nid) orc
    rw [hm] at h2
    simpa using h2
  · rename_i w2 hm
    have h2 := InternalNode_allocate_root_cursors { w with superRoot := none }
      (nodeLevel w nid) (nodeAddr w nid) orc
    rw [hm] at h2
    exact h2

@[simp] theorem internalSplitInsert_cursors (w : World) (iid rid a : Nat)
    (ev : EvalResult) (spos : search_position_t) :
    ((internalSplitInsert w iid rid a ev spos).1).cursors = w.cursors := by
  unfold internalSplitInsert
  by_cases h : spLtb ev.pos spos = true <;> simp [h]

@[simp] theorem acsSplitCore_cursors (w : World) (iid rid la li : Nat) (ev : EvalResult)
    (spos : search_position_t) :
    (acsSplitCore w iid rid la li ev spos).cursors = w.cursors := by
  unfold acsSplitCore
  simp only []
  split <;> simp

theorem InternalNode_apply_child_split_cursors :
    ∀ (fuel : Nat) (w : World) (iid : Nat) (pos : search_position_t) (l r : Nat)
      (orc : Oracles),
      ((InternalNode_apply_child_split fuel w iid pos l r orc).1).cursors = w.cursors := by
  intro fuel
  induction fuel with
  | zero => intro w iid pos l r orc; rfl
  | succ n ih =>
    intro w iid pos l r orc
    unfold InternalNode_apply_child_split
    simp only []
    split
    · simp
    · split
      · simp
      · split
        · split
          · split
            · simp
            · split
              · simp [ih]
              · simp
          · simp
        · split
          · split
            · simp
            · split
              · simp [ih]
              · simp
          · simp

theorem Node_insert_parent_cursors (fuel : Nat) (w : World) (nid rid : Nat)
    (orc : Oracles) :
    ((Node_insert_parent fuel w nid rid orc).1).cursors = w.cursors := by
  unfold Node_insert_parent
  split
  · rw [InternalNode_apply_child_split_cursors]
  · rfl

@[simp] theorem leafDoTrackCursor_cursors (w : World) (lid : Nat)
    (p : search_position_t) (cid : Nat) :
    (leafDoTrackCursor w lid p cid).cursors = w.cursors := rfl

theorem tree_cursor_ctor_alGet (w : World) (lid : Nat) (p : search_position_t)
    (pv : Option onode_t) :
    alGet ((tree_cursor_ctor w lid p pv).1).cursors (tree_cursor_ctor w lid p pv).2
      = some ⟨lid, p, pv⟩ := by
  unfold tree_cursor_ctor
  by_cases h : spIsEnd p = true
  · simp only [h, if_true]
    exact alGet_cons_self _ _ _
  · simp only [h, if_false, Bool.false_eq_true, leafDoTrackCursor_cursors]
    exact alGet_cons_self _ _ _

theorem LeafNode_track_insert_alGet (w : World) (lid : Nat) (p : search_position_t)
    (stage : Nat) (pv : Option onode_t) :
    alGet ((LeafNode_track_insert w lid p stage pv).1).cursors
      (LeafNode_track_insert w lid p stage pv).2 = some ⟨lid, p, pv⟩ := by
  unfold LeafNode_track_insert
  simp only []
  exact tree_cursor_ctor_alGet _ _ _ _

theorem livInPlace_alGet (w : World) (lid : Nat) (value : onode_t) (ev : EvalResult) :
    alGet ((livInPlace w lid value ev).1).cursors (livInPlace w lid value ev).2
      = some ⟨lid, ev.pos, some value⟩ := by
  unfold livInPlace
  exact LeafNode_track_insert_alGet _ _ _ _ _

theorem livSplitCore_alGet (w : World) (lid rid : Nat) (value : onode_t)
    (ev : EvalResult) (spos : search_position_t) :
    ∃ l p, alGet ((livSplitCore w lid rid value ev spos).1).cursors
      (livSplitCore w lid rid value ev spos).2 = some ⟨l, p, some value⟩ := by
  unfold livSplitCore
  simp only []
  split
  · exact ⟨lid, _, LeafNode_track_insert_alGet _ _ _ _ _⟩
  · exact ⟨rid, _, LeafNode_track_insert_alGet _ _ _ _ _⟩

theorem get_p_value_of_cached (w : World) (cid : Nat) (st : tree_cursor_t) (v : onode_t)
    (h1 : alGet w.cursors cid = some st) (h2 : st.p_value = some v) :
    (tree_cursor_get_p_value w cid).2 = some v := by
  unfold tree_cursor_get_p_value
  rw [h1]
  simp only []
  rw [h2]

theorem LeafNode_insert_value_cursor_value (fuel : Nat) (w : World) (lid : Nat)
    (value : onode_t) (pos : search_position_t) (ev : EvalResult)
    (spos : search_position_t) (orc : Oracles) (w' : World) (c : Nat)
    (h : LeafNode_insert_value fuel w lid value pos ev spos orc = (w', some c)) :
    (tree_cursor_get_p_value w' c).2 = some value := by
  unfold LeafNode_insert_value at h
  split at h
  · exact absurd (congrArg Prod.snd h) (by simp)
  · split at h
    · have hw : w' = (livInPlace w lid value ev).1 := (congrArg Prod.fst h).symm
      have hc2 : (livInPlace w lid value ev).2 = c :=
        Option.some.inj (congrArg Prod.snd h)
      subst hw
      exact get_p_value_of_cached _ _ _ _ (hc2 ▸ livInPlace_alGet w lid value ev) rfl
    · simp only [] at h
      split at h
      · split at h
        · split at h
          · exact absurd (congrArg Prod.snd h) (by simp)
          · rename_i rid hrid
            split at h
            · have hw : w' = _ := (congrArg Prod.fst h).symm
              have hc2 := Option.some.inj (congrArg Prod.snd h)
              subst hw
              obtain ⟨l, p, hget⟩ := livSplitCore_alGet _ lid rid value ev spos
              refine get_p_value_of_cached _ _ ⟨l, p, some value⟩ value ?_ rfl
              rw [Node_insert_parent_cursors]
              rw [← hc2]
              exact hget
            · exact absurd (congrArg Prod.snd h) (by simp)
        · exact absurd (congrArg Prod.snd h) (by simp)
      · split at h
        · split at h
          · exact absurd (congrArg Prod.snd h) (by simp)
          · rename_i rid hrid
            split at h
            · have hw : w' = _ := (congrArg Prod.fst h).symm
              have hc2 := Option.some.inj (congrArg Prod.snd h)
              subst hw
              obtain ⟨l, p, hget⟩ := livSplitCore_alGet _ lid rid value ev spos
              refine get_p_value_of_cached _ _ ⟨l, p, some value⟩ value ?_ rfl
              rw [Node_insert_parent_cursors]
              rw [← hc2]
              exact hget
            · exact absurd (congrArg Prod.snd h) (by simp)
        · exact absurd (congrArg Prod.snd h) (by simp)

/-- C1: for every key k and value v, performing lower_bound(k) and then
insert(k, v) on the tree (via Node::insert, which delegates to
LeafNode::insert_value when the lower-bound match is not EQ) returns a
cursor c with inserted = true such that c.value() equals v. -/
theorem claim_C1 (fuel : Nat) (w : World) (lbLeaf : Nat) (lbPos : search_position_t)
    (lbVal : Option onode_t) (value : onode_t) (ev : EvalResult)
    (spos : search_position_t) (orc : Oracles) (w' : World) (c : Nat) (ins : Bool)
    (h : Node_insert fuel w lbLeaf lbPos lbVal MatchKindBS.NE value ev spos orc
          = (w', some (c, ins))) :
    ins = true ∧ (tree_cursor_get_p_value w' c).2 = some value := by
  unfold Node_insert at h
  simp only [] at h
  split at h
  · rename_i c2 heq
    have hp : (c2, true) = (c, ins) := Option.some.inj (congrArg Prod.snd h)
    have hc : c2 = c := congrArg Prod.fst hp
    have hi : true = ins := congrArg Prod.snd hp
    have hw : w' = (LeafNode_insert_value fuel
        (LeafNode_get_or_track_cursor w lbLeaf lbPos lbVal).1 lbLeaf value lbPos ev spos orc).1 :=
      (congrArg Prod.fst h).symm
    refine ⟨hi.symm, ?_⟩
    subst hw
    subst hc
    exact LeafNode_insert_value_cursor_value fuel
      (LeafNode_get_or_track_cursor w lbLeaf lbPos lbVal).1 lbLeaf value lbPos ev spos orc
      _ c2 (by rw [← heq])
  · exact absurd (congrArg Prod.snd h) (by simp)

/-- A trivial oracle assignment for concrete runs: no allocation failures,
evaluate_insert answers the hint itself at stage 0 with size 10, split
positions at begin. -/
def trivOracles : Oracles := ⟨[], fun _ p => ⟨p, 0, 10⟩, fun _ => spBegin⟩

/-- A world holding a single empty root leaf (the state after mkfs). -/
def w0Leaf : World :=
  ⟨[(0, ⟨⟨0, field_type_t.N0, true, 100, []⟩, none, []⟩)], [], [], some 0, 0, 1, 0, 1⟩

theorem claim_C1_witness :
    true = true ∧ (tree_cursor_get_p_value
      (Node_insert 1 w0Leaf 0 spBegin none MatchKindBS.NE ⟨5, 7⟩ ⟨spBegin, 0, 10⟩
        spBegin trivOracles).1 1).2 = some ⟨5, 7⟩ :=
  claim_C1 1 w0Leaf 0 spBegin none ⟨5, 7⟩ ⟨spBegin, 0, 10⟩ spBegin trivOracles
    (Node_insert 1 w0Leaf 0 spBegin none MatchKindBS.NE ⟨5, 7⟩ ⟨spBegin, 0, 10⟩
      spBegin trivOracles).1 1 true (by decide)

theorem alGet_mem {α : Type} (l : List (Nat × α)) (k : Nat) (v : α)
    (h : alGet l k = some v) : (k, v) ∈ l := by
  unfold alGet at h
  rcases hf : l.find? (fun e => e.1 == k) with _ | e0
  · rw [hf] at h
    simp at h
  · rw [hf] at h
    simp only [] at h
    have h2 : e0.2 = v := Option.some.inj h
    have hm := List.mem_of_find?_eq_some hf
    have hp := List.find?_some hf
    have hk : e0.1 = k := by simpa using hp
    have he : e0 = (k, v) := by
      rcases e0 with ⟨a, b⟩
      simp at hk h2
      rw [hk, h2]
    rw [← he]
    exact hm

theorem alGet_cons_ne {α : Type} (k k' : Nat) (v : α) (l : List (Nat × α))
    (h : k' ≠ k) : alGet ((k, v) :: l) k' = alGet l k' := by
  have hb : (k == k') = false := by
    simp only [beq_eq_false_iff_ne]
    exact fun he => h he.symm
  simp [alGet, List.find?, hb]

theorem alGet_alMod {α : Type} (l : List (Nat × α)) (k : Nat) (f : α → α) (n : Nat) :
    alGet (alMod l k f) n = if n = k then (alGet l n).map f else alGet l n := by
  induction l with
  | nil => simp [alGet, alMod]
  | cons e es ih =>
    rcases e with ⟨a, b⟩
    by_cases h1 : a = k <;> by_cases h2 : a = n
    · have hnk : n = k := by rw [← h2, h1]
      simp [alGet, alMod, List.find?, h1, h2, hnk]
    · have hnk : ¬ n = k := by
        intro hx
        exact h2 (by rw [h1, ← hx])
      have hkn : (k == n) = false := by
        simp only [beq_eq_false_iff_ne]
        intro he
        exact h2 (by rw [h1, he])
      simp only [alMod, List.map_cons] at ih ⊢
      simp [alGet, List.find?, h1, hkn, hnk] at ih ⊢
      simpa [hnk] using ih
    · have hnk : ¬ n = k := by
        intro hx
        exact h1 (by rw [h2, hx])
      have hak : (a == k) = false := by
        simp only [beq_eq_false_iff_ne]
        exact h1
      simp [alGet, alMod, List.find?, hak, h2, hnk]
    · have hak : (a == k) = false := by
        simp only [beq_eq_false_iff_ne]
        exact h1
      have han : (a == n) = false := by
        simp only [beq_eq_false_iff_ne]
        exact h2
      simp only [alMod, List.map_cons] at ih ⊢
      simp [alGet, List.find?, hak, han] at ih ⊢
      simpa using ih
theorem leafFree_doTrack (w : World) (l : Nat) (p : search_position_t) (c n : Nat) :
    leafFree (leafDoTrackCursor w l p c) n = leafFree w n := by
  unfold leafFree leafDoTrackCursor
  simp only []
  rw [alGet_alMod]
  by_cases h : n = l
  · rw [if_pos h]
    cases alGet w.leaves n <;> rfl
  · rw [if_neg h]

theorem leafFree_ctor (w : World) (l : Nat) (p : search_position_t)
    (pv : Option onode_t) (n : Nat) :
    leafFree ((tree_cursor_ctor w l p pv).1) n = leafFree w n := by
  unfold tree_cursor_ctor
  by_cases h : spIsEnd p = true
  · simp only [h, if_true]
    rfl
  · simp only [h, if_false, Bool.false_eq_true]
    rw [leafFree_doTrack]
    rfl

theorem internalFree_ctor (w : World) (l : Nat) (p : search_position_t)
    (pv : Option onode_t) (n : Nat) :
    internalFree ((tree_cursor_ctor w l p pv).1) n = internalFree w n := by
  unfold tree_cursor_ctor
  by_cases h : spIsEnd p = true
  · simp only [h, if_true]
    rfl
  · simp only [h, if_false, Bool.false_eq_true]
    rfl

theorem leafFree_set_p_value (w : World) (cid : Nat) (v : onode_t) (n : Nat) :
    leafFree (tree_cursor_set_p_value w cid v) n = leafFree w n := rfl

theorem got_leafFree (w : World) (lid : Nat) (pos : search_position_t)
    (pv : Option onode_t) (n : Nat) :
    leafFree ((LeafNode_get_or_track_cursor w lid pos pv).1) n = leafFree w n := by
  unfold LeafNode_get_or_track_cursor
  split
  · rw [leafFree_ctor]
  · split
    · rw [leafFree_ctor]
    · split
      · rw [leafFree_set_p_value]
      · rfl

theorem got_internalFree (w : World) (lid : Nat) (pos : search_position_t)
    (pv : Option onode_t) (n : Nat) :
    internalFree ((LeafNode_get_or_track_cursor w lid pos pv).1) n = internalFree w n := by
  unfold LeafNode_get_or_track_cursor
  split
  · rw [internalFree_ctor]
  · split
    · rw [internalFree_ctor]
    · split
      · rfl
      · rfl

theorem got_found_id (w : World) (lid : Nat) (pos : search_position_t)
    (pv : Option onode_t) (c0 : Nat) (hend : spIsEnd pos = false)
    (hf : pmGet (trackedCursorsOf w lid) pos = some c0) :
    (LeafNode_get_or_track_cursor w lid pos pv).2 = c0 := by
  unfold LeafNode_get_or_track_cursor
  simp only [hend, Bool.false_eq_true, if_false]
  rw [hf]
  cases pv <;> rfl

theorem got_cursor_preserved (w : World) (lid : Nat) (pos : search_position_t)
    (pv : Option onode_t) (cid : Nat) (st : tree_cursor_t)
    (hW : ∀ e ∈ w.cursors, e.1 < w.nextCursor)
    (hget : alGet w.cursors cid = some st) :
    ∃ st', alGet ((LeafNode_get_or_track_cursor w lid pos pv).1).cursors cid = some st'
      ∧ st'.leaf_node = st.leaf_node ∧ st'.position = st.position := by
  have hlt : cid < w.nextCursor := hW (cid, st) (alGet_mem _ _ _ hget)
  have hne : cid ≠ w.nextCursor := Nat.ne_of_lt hlt
  unfold LeafNode_get_or_track_cursor
  split
  · refine ⟨st, ?_, rfl, rfl⟩
    unfold tree_cursor_ctor
    split
    · simpa [alGet_cons_ne _ _ _ _ hne] using hget
    · simpa [alGet_cons_ne _ _ _ _ hne] using hget
  · split
    · refine ⟨st, ?_, rfl, rfl⟩
      unfold tree_cursor_ctor
      split
      · simpa [alGet_cons_ne _ _ _ _ hne] using hget
      · simpa [alGet_cons_ne _ _ _ _ hne] using hget
    · split
      · rename_i x1 c0 hfound x2 v
        unfold tree_cursor_set_p_value
        change ∃ st', alGet (alMod w.cursors c0
          (fun st => if st.p_value = none
            then ⟨st.leaf_node, st.position, some v⟩ else st)) cid = some st'
          ∧ st'.leaf_node = st.leaf_node ∧ st'.position = st.position
        rw [alGet_alMod]
        split
        · rw [hget]
          by_cases hpv : st.p_value = none
          · exact ⟨_, rfl, by simp [hpv], by simp [hpv]⟩
          · exact ⟨st, by simp [hpv], rfl, rfl⟩
        · exact ⟨st, hget, rfl, rfl⟩
      · exact ⟨st, hget, rfl, rfl⟩

/-- C2: for every key already present in the tree (lower-bound match kind
EQ), Node::insert returns the pair (existing cursor, inserted = false) and
leaves the tree unmutated: no node's free size changes and no tracked
cursor's leaf or position changes. -/
theorem claim_C2 (fuel : Nat) (w : World) (lbLeaf : Nat) (lbPos : search_position_t)
    (lbVal : Option onode_t) (value : onode_t) (ev : EvalResult)
    (spos : search_position_t) (orc : Oracles) (w' : World) (r : Option (Nat × Bool))
    (hW : ∀ e ∈ w.cursors, e.1 < w.nextCursor)
    (h : Node_insert fuel w lbLeaf lbPos lbVal MatchKindBS.EQ value ev spos orc = (w', r)) :
    (∃ c, r = some (c, false)
      ∧ (∀ c0, spIsEnd lbPos = false →
          pmGet (trackedCursorsOf w lbLeaf) lbPos = some c0 → c = c0))
    ∧ (∀ n, leafFree w' n = leafFree w n)
    ∧ (∀ n, internalFree w' n = internalFree w n)
    ∧ (∀ cid st, alGet w.cursors cid = some st →
        ∃ st', alGet w'.cursors cid = some st'
          ∧ st'.leaf_node = st.leaf_node ∧ st'.position = st.position) := by
  unfold Node_insert at h
  simp only [] at h
  have hw : w' = (LeafNode_get_or_track_cursor w lbLeaf lbPos lbVal).1 :=
    (congrArg Prod.fst h).symm
  have hr : r = some ((LeafNode_get_or_track_cursor w lbLeaf lbPos lbVal).2, false) :=
    (congrArg Prod.snd h).symm
  subst hw
  refine ⟨⟨(LeafNode_get_or_track_cursor w lbLeaf lbPos lbVal).2, hr, ?_⟩, ?_, ?_, ?_⟩
  · intro c0 hend hf
    exact got_found_id w lbLeaf lbPos lbVal c0 hend hf
  · intro n
    exact got_leafFree w lbLeaf lbPos lbVal n
  · intro n
    exact got_internalFree w lbLeaf lbPos lbVal n
  · intro cid st hget
    exact got_cursor_preserved w lbLeaf lbPos lbVal cid st hW hget

/-- A world with one root leaf holding one entry at the begin position and
one tracked cursor (id 5) on it. -/
def w1Leaf : World :=
  ⟨[(0, ⟨⟨0, field_type_t.N0, true, 90, [(spBegin, ⟨3, 3⟩)]⟩, none, [(spBegin, 5)]⟩)],
    [], [(5, ⟨0, spBegin, some ⟨3, 3⟩⟩)], some 0, 0, 1, 6, 1⟩

theorem claim_C2_witness :
    (∃ c, (Node_insert 1 w1Leaf 0 spBegin (some ⟨3, 3⟩) MatchKindBS.EQ ⟨3, 3⟩
        ⟨spBegin, 0, 10⟩ spBegin trivOracles).2 = some (c, false)
      ∧ (∀ c0, spIsEnd spBegin = false →
          pmGet (trackedCursorsOf w1Leaf 0) spBegin = some c0 → c = c0))
    ∧ (∀ n, leafFree (Node_insert 1 w1Leaf 0 spBegin (some ⟨3, 3⟩) MatchKindBS.EQ ⟨3, 3⟩
        ⟨spBegin, 0, 10⟩ spBegin trivOracles).1 n = leafFree w1Leaf n)
    ∧ (∀ n, internalFree (Node_insert 1 w1Leaf 0 spBegin (some ⟨3, 3⟩) MatchKindBS.EQ ⟨3, 3⟩
        ⟨spBegin, 0, 10⟩ spBegin trivOracles).1 n = internalFree w1Leaf n)
    ∧ (∀ cid st, alGet w1Leaf.cursors cid = some st →
        ∃ st', alGet (Node_insert 1 w1Leaf 0 spBegin (some ⟨3, 3⟩) MatchKindBS.EQ ⟨3, 3⟩
            ⟨spBegin, 0, 10⟩ spBegin trivOracles).1.cursors cid = some st'
          ∧ st'.leaf_node = st.leaf_node ∧ st'.position = st.position) :=
  claim_C2 1 w1Leaf 0 spBegin (some ⟨3, 3⟩) ⟨3, 3⟩ ⟨spBegin, 0, 10⟩ spBegin trivOracles
    _ _ (by decide) rfl
theorem alGet_none_of_lt {α : Type} (l : List (Nat × α)) (N : Nat)
    (h : ∀ e ∈ l, e.1 < N) : alGet l N = none := by
  induction l with
  | nil => rfl
  | cons e es ih =>
    have h1 : e.1 < N := h e (List.mem_cons_self e es)
    have hb : (e.1 == N) = false := by
      simp only [beq_eq_false_iff_ne]
      exact Nat.ne_of_lt h1
    simp only [alGet, List.find?, hb]
    exact ih (fun x hx => h x (List.mem_cons_of_mem e hx))

theorem alMod_bound {α : Type} (l : List (Nat × α)) (k : Nat) (f : α → α) (N : Nat)
    (h : ∀ e ∈ l, e.1 < N) : ∀ e ∈ alMod l k f, e.1 < N := by
  intro e he
  rcases List.mem_map.mp he with ⟨x, hx, hfx⟩
  rcases hxk : (x.1 == k) with _ | _
  · rw [← hfx]
    simp only [hxk, if_false, Bool.false_eq_true]
    exact h x hx
  · rw [← hfx]
    simp only [hxk, if_true]
    exact h x hx

/-- The world produced by a successful upgrade_root of root `R`: the super
is first cleared, the fresh internal root `N` (level one higher, N0,
level-tail, old root's address in its end slot) is made the tracked root,
and `R` is re-bound as its child at the end position. -/
def upgradedWorld (w : World) (R : Nat) : World :=
  Node_as_child
    (Node_make_root
      (internalCopyIn
        { w with
            superRoot := none,
            internals := (w.nextNode,
              ⟨⟨w.nextAddr, field_type_t.N0, true, nodeLevel w R + 1, NODE_CAP, []⟩,
                none, []⟩) :: w.internals,
            nextNode := w.nextNode + 1,
            nextAddr := w.nextAddr + 1 }
        w.nextNode spEnd (nodeAddr w R))
      w.nextNode)
    R spEnd w.nextNode

theorem upgrade_root_run (w : World) (R : Nat) (orc : Oracles)
    (hok : ¬ w.nextNode ∈ orc.allocFails) :
    Node_upgrade_root w R orc = (upgradedWorld w R, true) := by
  unfold Node_upgrade_root InternalNode_allocate_root InternalNode_allocate upgradedWorld
  simp only []
  rw [if_neg hok]

theorem pmGet_cons_self {α : Type} (k : search_position_t) (v : α)
    (l : List (search_position_t × α)) : pmGet ((k, v) :: l) k = some v := by
  simp [pmGet, List.find?]

theorem claim_C3 (w : World) (R : Nat) (orc : Oracles)
    (hroot : w.superRoot = some R)
    (hL : ∀ e ∈ w.leaves, e.1 < w.nextNode)
    (hI : ∀ e ∈ w.internals, e.1 < w.nextNode)
    (hR : (alGet w.leaves R).isSome ∨ (alGet w.internals R).isSome)
    (hok : ¬ w.nextNode ∈ orc.allocFails) :
    (Node_upgrade_root w R orc).2 = true
    ∧ ((Node_upgrade_root w R orc).1).superRoot = some w.nextNode
    ∧ R ≠ w.nextNode
    ∧ internalLevel (Node_upgrade_root w R orc).1 w.nextNode = nodeLevel w R + 1
    ∧ pmGet (internalEntriesOf (Node_upgrade_root w R orc).1 w.nextNode) spEnd
        = some (nodeAddr w R)
    ∧ ((Node_upgrade_root w R orc).1).rootLaddr
        = nodeAddr (Node_upgrade_root w R orc).1 w.nextNode
    ∧ pmGet (trackedChildrenOf (Node_upgrade_root w R orc).1 w.nextNode) spEnd = some R
    ∧ nodeParent (Node_upgrade_root w R orc).1 R = some (spEnd, w.nextNode) := by
  have hRlt : R < w.nextNode := by
    rcases hR with h1 | h2
    · rcases Option.isSome_iff_exists.mp h1 with ⟨ls, hls⟩
      exact hL (R, ls) (alGet_mem _ _ _ hls)
    · rcases Option.isSome_iff_exists.mp h2 with ⟨s, hs⟩
      exact hI (R, s) (alGet_mem _ _ _ hs)
  have hNR : ¬ (w.nextNode = R) := fun hx =>
    absurd (hx ▸ hRlt) (Nat.lt_irrefl _)
  have hRN : R ≠ w.nextNode := Nat.ne_of_lt hRlt
  rw [upgrade_root_run w R orc hok]
  have hN : alGet (upgradedWorld w R).internals w.nextNode
      = some ⟨⟨w.nextAddr, field_type_t.N0, true, nodeLevel w R + 1, NODE_CAP,
          [(spEnd, nodeAddr w R)]⟩, none, [(spEnd, R)]⟩ := by
    unfold upgradedWorld Node_as_child setNodeParent Node_make_root internalCopyIn
    simp only []
    rw [alGet_alMod]
    rw [if_pos rfl]
    rw [alGet_alMod]
    rw [if_neg hNR]
    rw [alGet_alMod]
    rw [if_pos rfl]
    rw [alGet_cons_self]
    rfl
  have hLN : alGet (upgradedWorld w R).leaves w.nextNode = none := by
    unfold upgradedWorld Node_as_child setNodeParent Node_make_root internalCopyIn
    simp only []
    exact alGet_none_of_lt _ _ (alMod_bound _ _ _ _ hL)
  refine ⟨rfl, rfl, hRN, ?_, ?_, ?_, ?_, ?_⟩
  · unfold internalLevel
    rw [hN]
  · unfold internalEntriesOf
    rw [hN]
    exact pmGet_cons_self _ _ _
  · have hlhs : (upgradedWorld w R).rootLaddr = w.nextAddr := by
      unfold upgradedWorld Node_as_child setNodeParent Node_make_root internalCopyIn nodeAddr
      simp only []
      rw [alGet_none_of_lt w.leaves _ hL]
      rw [alGet_alMod]
      rw [if_pos rfl]
      rw [alGet_cons_self]
      simp
    have hrhs : nodeAddr (upgradedWorld w R) w.nextNode = w.nextAddr := by
      unfold nodeAddr
      rw [hLN, hN]
    rw [hlhs, hrhs]
  · unfold trackedChildrenOf
    rw [hN]
    exact pmGet_cons_self _ _ _
  · have hlR : alGet (upgradedWorld w R).leaves R
        = (alGet w.leaves R).map
            (fun ls => { ls with parent := some (spEnd, w.nextNode) }) := by
      unfold upgradedWorld Node_as_child setNodeParent Node_make_root internalCopyIn
      simp only []
      rw [alGet_alMod]
      rw [if_pos rfl]
    unfold nodeParent
    rcases hcase : alGet w.leaves R with _ | ls
    · rw [hlR, hcase]
      simp only [Option.map_none]
      have hiR : alGet (upgradedWorld w R).internals R
          = (alGet w.internals R).map
              (fun s => { s with parent := some (spEnd, w.nextNode) }) := by
        unfold upgradedWorld Node_as_child setNodeParent Node_make_root internalCopyIn
        simp only []
        rw [alGet_alMod]
        rw [if_neg hRN]
        rw [alGet_alMod]
        rw [if_pos rfl]
        rw [alGet_alMod]
        rw [if_neg hRN]
        rw [alGet_cons_ne _ _ _ _ hRN]
      rcases hcase2 : alGet w.internals R with _ | s
      · exfalso
        rcases hR with h1 | h2
        · rw [hcase] at h1
          simp at h1
        · rw [hcase2] at h2
          simp at h2
      · rw [hiR, hcase2]
        rfl
    · rw [hlR, hcase]
      rfl

theorem claim_C3_witness :
    (Node_upgrade_root w0Leaf 0 trivOracles).2 = true
    ∧ ((Node_upgrade_root w0Leaf 0 trivOracles).1).superRoot = some w0Leaf.nextNode
    ∧ 0 ≠ w0Leaf.nextNode
    ∧ internalLevel (Node_upgrade_root w0Leaf 0 trivOracles).1 w0Leaf.nextNode
        = nodeLevel w0Leaf 0 + 1
    ∧ pmGet (internalEntriesOf (Node_upgrade_root w0Leaf 0 trivOracles).1 w0Leaf.nextNode)
        spEnd = some (nodeAddr w0Leaf 0)
    ∧ ((Node_upgrade_root w0Leaf 0 trivOracles).1).rootLaddr
        = nodeAddr (Node_upgrade_root w0Leaf 0 trivOracles).1 w0Leaf.nextNode
    ∧ pmGet (trackedChildrenOf (Node_upgrade_root w0Leaf 0 trivOracles).1 w0Leaf.nextNode)
        spEnd = some 0
    ∧ nodeParent (Node_upgrade_root w0Leaf 0 trivOracles).1 0
        = some (spEnd, w0Leaf.nextNode) :=
  claim_C3 w0Leaf 0 trivOracles (by decide) (by decide) (by decide) (by decide) (by decide)

/-- Oracles whose first allocation (node id 1) fails. -/
def failOracles : Oracles := ⟨[1], fun _ p => ⟨p, 0, 10⟩, fun _ => spBegin⟩

/-- C7 counterexample: on the single-root-leaf world, upgrade_root with a
failing allocation propagates the error, yet the super registration has
already been cleared, contradicting the claim that the tracking graph is
unchanged from its pre-operation state. -/
theorem claim_C7_counterexample :
    (Node_upgrade_root w0Leaf 0 failOracles).2 = false
    ∧ ((Node_upgrade_root w0Leaf 0 failOracles).1).superRoot ≠ w0Leaf.superRoot := by
  decide

/-- C7 (amended): an operation that fails at an allocation propagates the
error to the caller, but the in-memory tracking mutations performed before
the failed suspension persist: a failing upgrade_root leaves exactly the
pre-state with the root deregistered from the super, and a failing
allocation in the split path of apply_child_split leaves exactly the state
in which the on-extent child address and the tracked child at pos have
already been replaced by the right child. -/
theorem claim_C7 :
    (∀ (w : World) (nid : Nat) (orc : Oracles), w.nextNode ∈ orc.allocFails →
      Node_upgrade_root w nid orc = ({ w with superRoot := none }, false))
    ∧ (∀ (fuel : Nat) (w : World) (iid : Nat) (pos : search_position_t) (l r : Nat)
        (orc : Oracles) (free : Nat),
        internalFree (acsReplace w iid pos r) iid = some free →
        ¬ (orc.evalI iid pos).size ≤ free →
        ¬ isRoot (acsReplace w iid pos r) iid = true →
        (acsReplace w iid pos r).nextNode ∈ orc.allocFails →
        InternalNode_apply_child_split (fuel + 1) w iid pos l r orc
          = (acsReplace w iid pos r, false)) := by
  constructor
  · intro w nid orc hfail
    unfold Node_upgrade_root InternalNode_allocate_root InternalNode_allocate
    simp only []
    rw [if_pos hfail]
  · intro fuel w iid pos l r orc free hfree hgt hroot hfail
    unfold InternalNode_apply_child_split
    simp only []
    rw [hfree]
    simp only []
    rw [if_neg hgt]
    rw [if_neg hroot]
    simp only []
    unfold InternalNode_allocate
    rw [if_pos hfail]
    simp

/-- A world with a non-root internal node 1 (low free space) holding the
left child leaf 0 at the begin position, and a detached right child leaf
2 (fresh sibling of a split); next allocation id is 3. -/
def wACS : World :=
  ⟨[(0, ⟨⟨1, field_type_t.N0, false, 50, [(spBegin, ⟨3, 3⟩)]⟩, some (spBegin, 1), []⟩),
    (2, ⟨⟨2, field_type_t.N0, false, 50, []⟩, none, []⟩)],
   [(1, ⟨⟨10, field_type_t.N0, false, 1, 5, [(spBegin, 1)]⟩, none, [(spBegin, 0)]⟩)],
   [], none, 0, 3, 0, 20⟩

/-- Oracles whose allocation of node id 3 fails. -/
def failOracles3 : Oracles := ⟨[3], fun _ p => ⟨p, 0, 10⟩, fun _ => spBegin⟩

theorem claim_C7_witness :
    Node_upgrade_root w0Leaf 0 failOracles = ({ w0Leaf with superRoot := none }, false)
    ∧ InternalNode_apply_child_split 1 wACS 1 spBegin 0 2 failOracles3
        = (acsReplace wACS 1 spBegin 2, false) :=
  ⟨claim_C7.1 w0Leaf 0 failOracles (by decide),
   claim_C7.2 0 wACS 1 spBegin 0 2 failOracles3 5 (by decide) (by decide) (by decide)
     (by decide)⟩

theorem spSub_inj (a b s : search_position_t) (ha : spLeb s a = true)
    (hb : spLeb s b = true) (h : spSub a s = spSub b s) : a = b := by
  rcases a with ⟨a2, a1, a0⟩
  rcases b with ⟨b2, b1, b0⟩
  rcases s with ⟨s2, s1, s0⟩
  simp only [spLeb, spSub, bne_iff_ne, ne_eq, decide_eq_true_eq] at ha hb h
  split_ifs at ha hb h <;>
    simp_all [search_position_t.mk.injEq] <;> omega

theorem pmInsert_mem_self {α : Type} (m : List (search_position_t × α))
    (k : search_position_t) (v : α) : (k, v) ∈ pmInsert m k v :=
  List.mem_cons_self _ _

theorem pmInsert_mem_of_ne {α : Type} (m : List (search_position_t × α))
    (k k0 : search_position_t) (v v0 : α) (hm : (k0, v0) ∈ m) (hne : k0 ≠ k) :
    (k0, v0) ∈ pmInsert m k v := by
  refine List.mem_cons_of_mem _ ?_
  refine List.mem_filter.mpr ⟨hm, ?_⟩
  simp [hne]

theorem utrack_cursor_isSome (w : World) (cid0 lid : Nat) (p : search_position_t)
    (cid : Nat) (h : (alGet w.cursors cid).isSome) :
    (alGet ((tree_cursor_update_track w cid0 lid p)).cursors cid).isSome := by
  unfold tree_cursor_update_track
  split
  · exact h
  · unfold setCursor leafDoTrackCursor
    simp only []
    rw [alGet_alMod]
    split
    · rcases Option.isSome_iff_exists.mp h with ⟨st, hst⟩
      rw [hst]
      rfl
    · exact h

theorem utrack_cursor_other (w : World) (cid0 lid : Nat) (p : search_position_t)
    (cid : Nat) (hne : cid ≠ cid0) :
    alGet ((tree_cursor_update_track w cid0 lid p)).cursors cid = alGet w.cursors cid := by
  unfold tree_cursor_update_track
  split
  · rfl
  · unfold setCursor leafDoTrackCursor
    simp only []
    rw [alGet_alMod]
    rw [if_neg hne]

theorem utrack_cursor_self (w : World) (cid0 lid : Nat) (p : search_position_t)
    (st : tree_cursor_t) (h : alGet w.cursors cid0 = some st) :
    alGet ((tree_cursor_update_track w cid0 lid p)).cursors cid0
      = some ⟨lid, p, st.p_value⟩ := by
  unfold tree_cursor_update_track
  split
  · rename_i hnone
    rw [h] at hnone
    cases hnone
  · rename_i st0 hst0
    rw [h] at hst0
    have : st0 = st := (Option.some.inj hst0).symm
    subst this
    unfold setCursor leafDoTrackCursor
    simp only []
    rw [alGet_alMod]
    rw [if_pos rfl]
    rw [h]
    rfl

theorem utrack_leaves_isSome (w : World) (cid0 lid : Nat) (p : search_position_t)
    (n : Nat) (h : (alGet w.leaves n).isSome) :
    (alGet ((tree_cursor_update_track w cid0 lid p)).leaves n).isSome := by
  unfold tree_cursor_update_track
  split
  · exact h
  · unfold setCursor leafDoTrackCursor
    simp only []
    rw [alGet_alMod]
    split
    · rcases Option.isSome_iff_exists.mp h with ⟨ls, hls⟩
      rw [hls]
      rfl
    · exact h

theorem utrack_tracked_other (w : World) (cid0 lid : Nat) (p : search_position_t)
    (n : Nat) (hne : n ≠ lid) :
    trackedCursorsOf (tree_cursor_update_track w cid0 lid p) n = trackedCursorsOf w n := by
  unfold tree_cursor_update_track
  split
  · rfl
  · unfold trackedCursorsOf setCursor leafDoTrackCursor
    simp only []
    rw [alGet_alMod]
    rw [if_neg hne]

theorem utrack_tracked_self (w : World) (cid0 lid : Nat) (p : search_position_t)
    (st : tree_cursor_t) (hc : alGet w.cursors cid0 = some st)
    (hl : (alGet w.leaves lid).isSome) :
    trackedCursorsOf (tree_cursor_update_track w cid0 lid p) lid
      = pmInsert (trackedCursorsOf w lid) p cid0 := by
  unfold tree_cursor_update_track
  split
  · rename_i hnone
    rw [hc] at hnone
    cases hnone
  · unfold trackedCursorsOf setCursor leafDoTrackCursor
    simp only []
    rw [alGet_alMod]
    rw [if_pos rfl]
    rcases Option.isSome_iff_exists.mp hl with ⟨ls, hls⟩
    rw [hls]
    rfl

theorem utrack_tracked_mem (w : World) (cid0 lid : Nat) (p : search_position_t)
    (n : Nat) (k : search_position_t) (c : Nat)
    (hmem : (k, c) ∈ trackedCursorsOf w n) (hne : k ≠ p) :
    (k, c) ∈ trackedCursorsOf (tree_cursor_update_track w cid0 lid p) n := by
  by_cases hn : n = lid
  · subst hn
    unfold tree_cursor_update_track
    split
    · exact hmem
    · unfold trackedCursorsOf setCursor leafDoTrackCursor
      simp only []
      rw [alGet_alMod]
      rw [if_pos rfl]
      unfold trackedCursorsOf at hmem
      rcases hget : alGet w.leaves n with _ | ls
      · rw [hget] at hmem
        cases hmem
      · rw [hget] at hmem
        exact pmInsert_mem_of_ne _ _ _ _ _ hmem hne
  · rw [utrack_tracked_other w cid0 lid p n hn]
    exact hmem

theorem tsFold_preserves_cursor (spos : search_position_t) (rid : Nat) :
    ∀ (ms : List (search_position_t × Nat)) (w : World) (c : Nat) (st : tree_cursor_t),
      (∀ e ∈ ms, e.2 ≠ c) → alGet w.cursors c = some st →
      alGet ((ms.foldl
        (fun w e => tree_cursor_update_track w e.2 rid (spSub e.1 spos)) w)).cursors c
        = some st := by
  intro ms
  induction ms with
  | nil => intro w c st _ h; exact h
  | cons x xs ih =>
    intro w c st hne h
    simp only [List.foldl_cons]
    refine ih _ _ _ (fun e he => hne e (List.mem_cons_of_mem _ he)) ?_
    rw [utrack_cursor_other _ _ _ _ _ (Ne.symm (hne x (List.mem_cons_self _ _)))]
    exact h

theorem tsFold_preserves_tracked (spos : search_position_t) (rid : Nat) :
    ∀ (ms : List (search_position_t × Nat)) (w : World) (k : search_position_t) (c : Nat),
      (∀ e ∈ ms, spSub e.1 spos ≠ k) → (k, c) ∈ trackedCursorsOf w rid →
      (k, c) ∈ trackedCursorsOf
        (ms.foldl (fun w e => tree_cursor_update_track w e.2 rid (spSub e.1 spos)) w) rid := by
  intro ms
  induction ms with
  | nil => intro w k c _ h; exact h
  | cons x xs ih =>
    intro w k c hne h
    simp only [List.foldl_cons]
    refine ih _ _ _ (fun e he => hne e (List.mem_cons_of_mem _ he)) ?_
    exact utrack_tracked_mem _ _ _ _ _ _ _ h (Ne.symm (hne x (List.mem_cons_self _ _)))

theorem tsFold_leaves_isSome (spos : search_position_t) (rid : Nat) :
    ∀ (ms : List (search_position_t × Nat)) (w : World) (n : Nat),
      (alGet w.leaves n).isSome →
      (alGet ((ms.foldl
        (fun w e => tree_cursor_update_track w e.2 rid (spSub e.1 spos)) w)).leaves n).isSome := by
  intro ms
  induction ms with
  | nil => intro w n h; exact h
  | cons x xs ih =>
    intro w n h
    simp only [List.foldl_cons]
    exact ih _ _ (utrack_leaves_isSome _ _ _ _ _ h)

theorem tsFold_spec (spos : search_position_t) (rid : Nat) :
    ∀ (ms : List (search_position_t × Nat)) (w : World),
      (alGet w.leaves rid).isSome →
      (∀ e ∈ ms, (alGet w.cursors e.2).isSome) →
      List.Pairwise (fun a b => spSub a.1 spos ≠ spSub b.1 spos) ms →
      ((ms.map (fun e => e.2)).Nodup) →
      ∀ e ∈ ms,
        ((spSub e.1 spos, e.2) ∈ trackedCursorsOf
          (ms.foldl (fun w e => tree_cursor_update_track w e.2 rid (spSub e.1 spos)) w) rid)
        ∧ ∃ st', alGet ((ms.foldl
            (fun w e => tree_cursor_update_track w e.2 rid (spSub e.1 spos)) w)).cursors e.2
            = some st' ∧ st'.leaf_node = rid ∧ st'.position = spSub e.1 spos := by
  intro ms
  induction ms with
  | nil => intro w _ _ _ _ e he; cases he
  | cons x xs ih =>
    intro w hl hcur hpw hnd e he
    have hpw' := List.pairwise_cons.mp hpw
    have hnd0 : (x.2 :: xs.map (fun e => e.2)).Nodup := by
      simpa only [List.map_cons] using hnd
    have hnd' := List.nodup_cons.mp hnd0
    rcases List.mem_cons.mp he with he | he
    · subst he
      rcases Option.isSome_iff_exists.mp (hcur e (List.mem_cons_self _ _)) with ⟨st, hst⟩
      simp only [List.foldl_cons]
      constructor
      · refine tsFold_preserves_tracked spos rid xs _ _ _
          (fun e' he' => (hpw'.1 e' he').symm) ?_
        rw [utrack_tracked_self _ _ _ _ st hst hl]
        exact pmInsert_mem_self _ _ _
      · refine ⟨⟨rid, spSub e.1 spos, st.p_value⟩, ?_, rfl, rfl⟩
        refine tsFold_preserves_cursor spos rid xs _ _ _ ?_ ?_
        · intro e' he' hx
          exact hnd'.1 (List.mem_map.mpr ⟨e', he', hx⟩)
        · exact utrack_cursor_self _ _ _ _ st hst
    · simp only [List.foldl_cons]
      exact ih _ (utrack_leaves_isSome _ _ _ _ _ hl)
        (fun e' he' => utrack_cursor_isSome _ _ _ _ _ (hcur e' (List.mem_cons_of_mem _ he')))
        hpw'.2 hnd'.2 e he

@[simp] theorem invalidateCursors_leaves (w : World) (ids : List Nat) :
    (invalidateCursors w ids).leaves = w.leaves := rfl

theorem alGet_keyfun_map {α : Type} (l : List (Nat × α)) (g : Nat → α → α) (k : Nat) :
    alGet (l.map (fun e => (e.1, g e.1 e.2))) k = (alGet l k).map (g k) := by
  induction l with
  | nil => rfl
  | cons e es ih =>
    by_cases h : e.1 == k
    · have hk : e.1 = k := by simpa using h
      simp [alGet, List.find?, h, hk]
    · have hb : (e.1 == k) = false := by simpa using h
      simp only [List.map_cons, alGet, List.find?, hb]
      simpa [alGet] using ih

theorem alGet_invalidate (w : World) (ids : List Nat) (c : Nat) :
    alGet (invalidateCursors w ids).cursors c
      = (alGet w.cursors c).map
          (fun st => if c ∈ ids then ⟨st.leaf_node, st.position, none⟩ else st) := by
  unfold invalidateCursors
  simp only []
  have hmap : (w.cursors.map
      (fun e => if e.1 ∈ ids then (e.1, (⟨e.2.leaf_node, e.2.position, none⟩ : tree_cursor_t)) else e))
      = w.cursors.map (fun e => (e.1,
          if e.1 ∈ ids then (⟨e.2.leaf_node, e.2.position, none⟩ : tree_cursor_t) else e.2)) := by
    refine List.map_congr_left ?_
    intro e _
    by_cases h : e.1 ∈ ids
    · simp [h]
    · simp [h]
  rw [hmap]
  exact alGet_keyfun_map w.cursors
    (fun k st => if k ∈ ids then ⟨st.leaf_node, st.position, none⟩ else st) c

theorem setLeafTracked_tracked_other (w : World) (lid n : Nat)
    (m : List (search_position_t × Nat)) (hne : n ≠ lid) :
    trackedCursorsOf (setLeafTracked w lid m) n = trackedCursorsOf w n := by
  unfold trackedCursorsOf setLeafTracked
  simp only []
  rw [alGet_alMod]
  rw [if_neg hne]

theorem setLeafTracked_tracked_self (w : World) (lid : Nat)
    (m : List (search_position_t × Nat)) (hl : (alGet w.leaves lid).isSome) :
    trackedCursorsOf (setLeafTracked w lid m) lid = m := by
  unfold trackedCursorsOf setLeafTracked
  simp only []
  rw [alGet_alMod]
  rw [if_pos rfl]
  rcases Option.isSome_iff_exists.mp hl with ⟨ls, hls⟩
  rw [hls]
  rfl

@[simp] theorem setLeafTracked_cursors (w : World) (lid : Nat)
    (m : List (search_position_t × Nat)) :
    (setLeafTracked w lid m).cursors = w.cursors := rfl

/-- C5: for every leaf split at split_pos with right sibling rid, every
tracked cursor at a position at or above split_pos is re-registered on the
right sibling at the stage-wise difference position (and its state points
there), and afterwards no cursor at a position at or above split_pos
remains tracked by the left leaf. -/
theorem claim_C5 (w : World) (lid rid : Nat) (spos : search_position_t)
    (hne : rid ≠ lid)
    (hl : (alGet w.leaves lid).isSome)
    (hr : (alGet w.leaves rid).isSome)
    (hcur : ∀ e ∈ trackedCursorsOf w lid, (alGet w.cursors e.2).isSome)
    (hkeys : ((trackedCursorsOf w lid).map (fun e => e.1)).Nodup)
    (hids : ((trackedCursorsOf w lid).map (fun e => e.2)).Nodup) :
    (∀ e ∈ trackedCursorsOf w lid, spLeb spos e.1 = true →
      ((spSub e.1 spos, e.2) ∈ trackedCursorsOf (LeafNode_track_split w lid spos rid) rid
       ∧ ∃ st', alGet (LeafNode_track_split w lid spos rid).cursors e.2 = some st'
           ∧ st'.leaf_node = rid ∧ st'.position = spSub e.1 spos))
    ∧ (∀ e ∈ trackedCursorsOf (LeafNode_track_split w lid spos rid) lid,
        spLeb spos e.1 = false) := by
  unfold LeafNode_track_split
  simp only []
  have hpwk : List.Pairwise (fun (a b : search_position_t × Nat) => a.1 ≠ b.1)
      (trackedCursorsOf w lid) := (List.pairwise_map.mp hkeys)
  have hmovedsub : List.Sublist ((trackedCursorsOf w lid).filter (fun e => spLeb spos e.1))
      (trackedCursorsOf w lid) := List.filter_sublist _
  have hpw : List.Pairwise (fun (a b : search_position_t × Nat) =>
      spSub a.1 spos ≠ spSub b.1 spos)
      ((trackedCursorsOf w lid).filter (fun e => spLeb spos e.1)) := by
    have hpwf := hpwk.sublist hmovedsub
    refine List.Pairwise.imp_of_mem ?_ hpwf
    intro a b ha hb hab
    intro hsub
    have ha' := (List.mem_filter.mp ha).2
    have hb' := (List.mem_filter.mp hb).2
    exact hab (spSub_inj a.1 b.1 spos ha' hb' hsub)
  have hnd : (((trackedCursorsOf w lid).filter (fun e => spLeb spos e.1)).map
      (fun e => e.2)).Nodup := hids.sublist (hmovedsub.map _)
  have hl1 : (alGet (invalidateCursors w ((List.filter
        (fun e => spLeb (invalidateFloor spos) e.1) (trackedCursorsOf w lid)).map
        (fun e => e.2))).leaves rid).isSome := by
    rw [invalidateCursors_leaves]
    exact hr
  have hcur1 : ∀ e ∈ (trackedCursorsOf w lid).filter (fun e => spLeb spos e.1),
      (alGet (invalidateCursors w ((List.filter
        (fun e => spLeb (invalidateFloor spos) e.1) (trackedCursorsOf w lid)).map
        (fun e => e.2))).cursors e.2).isSome := by
    intro e he
    rw [alGet_invalidate]
    have := hcur e (List.mem_of_mem_filter he)
    rcases Option.isSome_iff_exists.mp this with ⟨st, hst⟩
    rw [hst]
    rfl
  have hspec := tsFold_spec spos rid
    ((trackedCursorsOf w lid).filter (fun e => spLeb spos e.1))
    (invalidateCursors w ((List.filter
      (fun e => spLeb (invalidateFloor spos) e.1) (trackedCursorsOf w lid)).map
      (fun e => e.2)))
    hl1 hcur1 hpw hnd
  constructor
  · intro e he hcond
    have hem : e ∈ (trackedCursorsOf w lid).filter (fun e => spLeb spos e.1) :=
      List.mem_filter.mpr ⟨he, hcond⟩
    have hres := hspec e hem
    constructor
    · rw [setLeafTracked_tracked_other _ _ _ _ hne]
      exact hres.1
    · rw [setLeafTracked_cursors]
      exact hres.2
  · intro e he
    have hl2 := tsFold_leaves_isSome spos rid
      ((trackedCursorsOf w lid).filter (fun e => spLeb spos e.1))
      (invalidateCursors w ((List.filter
        (fun e => spLeb (invalidateFloor spos) e.1) (trackedCursorsOf w lid)).map
        (fun e => e.2)))
      lid (by rw [invalidateCursors_leaves]; exact hl)
    rw [setLeafTracked_tracked_self _ _ _ hl2] at he
    have := (List.mem_filter.mp he).2
    simpa using this

/-- A world with a root leaf 0 tracking cursors 5 and 6 on its two
entries, plus a fresh sibling leaf 2. -/
def wTS : World :=
  ⟨[(0, ⟨⟨0, field_type_t.N0, true, 50,
        [(⟨0, 0, 0⟩, ⟨1, 1⟩), (⟨0, 0, 1⟩, ⟨1, 2⟩)]⟩, none,
        [(⟨0, 0, 0⟩, 5), (⟨0, 0, 1⟩, 6)]⟩),
    (2, ⟨⟨2, field_type_t.N0, true, 100, []⟩, none, []⟩)],
   [], [(5, ⟨0, ⟨0, 0, 0⟩, some ⟨1, 1⟩⟩), (6, ⟨0, ⟨0, 0, 1⟩, some ⟨1, 2⟩⟩)],
   some 0, 0, 3, 7, 3⟩

theorem claim_C5_witness :
    (spSub ⟨0, 0, 1⟩ ⟨0, 0, 1⟩, 6) ∈ trackedCursorsOf
        (LeafNode_track_split wTS 0 ⟨0, 0, 1⟩ 2) 2
    ∧ ∃ st', alGet (LeafNode_track_split wTS 0 ⟨0, 0, 1⟩ 2).cursors 6 = some st'
        ∧ st'.leaf_node = 2 ∧ st'.position = spSub ⟨0, 0, 1⟩ ⟨0, 0, 1⟩ :=
  (claim_C5 wTS 0 2 ⟨0, 0, 1⟩ (by decide) (by decide) (by decide) (by decide)
    (by decide) (by decide)).1 (⟨0, 0, 1⟩, 6) (by decide) (by decide)

/-- The invalidation floor exactly as claim C6 words it: the insert (or
split) position with the indices at all stages ≥ STAGE_RIGHT — that is,
every stage, since STAGE_RIGHT is the lowest — set to zero. -/
def claimInvalidateFloor (p : search_position_t) : search_position_t :=
  spSetIndex (spSetIndex (spSetIndex p STAGE_RIGHT 0) STAGE_STRING 0) STAGE_LEFT 0

/-- A world with a root leaf 0 tracking cursor 5 (cached value) at the
begin position, with room for an in-place insert at ⟨1,0,1⟩. -/
def wC6 : World :=
  ⟨[(0, ⟨⟨0, field_type_t.N0, true, 50, [(⟨0, 0, 0⟩, ⟨1, 1⟩)]⟩, none,
      [(⟨0, 0, 0⟩, 5)]⟩)],
   [], [(5, ⟨0, ⟨0, 0, 0⟩, some ⟨1, 1⟩⟩)], some 0, 0, 1, 6, 1⟩

/-- C6 counterexample: inserting at ⟨1,0,1⟩, the claim's floor (all stages
zeroed) is ⟨0,0,0⟩, so the claim demands that cursor 5 at ⟨0,0,0⟩ be
invalidated; the code's floor is ⟨1,0,0⟩ and cursor 5 keeps its cached
value through track_insert. -/
theorem claim_C6_counterexample :
    spLeb (claimInvalidateFloor ⟨1, 0, 1⟩) ⟨0, 0, 0⟩ = true
    ∧ (⟨0, 0, 0⟩, 5) ∈ trackedCursorsOf wC6 0
    ∧ alGet ((LeafNode_track_insert wC6 0 ⟨1, 0, 1⟩ 0 (some ⟨2, 9⟩)).1).cursors 5
        = some ⟨0, ⟨0, 0, 0⟩, some ⟨1, 1⟩⟩ := by
  decide

theorem utrack_cacheNone (w : World) (cid0 l : Nat) (p : search_position_t) (c : Nat)
    (h : ∃ st, alGet w.cursors c = some st ∧ st.p_value = none) :
    ∃ st, alGet ((tree_cursor_update_track w cid0 l p)).cursors c = some st
      ∧ st.p_value = none := by
  rcases h with ⟨st, hst, hn⟩
  by_cases hc : c = cid0
  · subst hc
    rw [utrack_cursor_self _ _ _ _ st hst]
    exact ⟨_, rfl, hn⟩
  · rw [utrack_cursor_other _ _ _ _ _ hc]
    exact ⟨st, hst, hn⟩

theorem foldl_cacheNone {α : Type} (f : World → α → World) (c : Nat)
    (hf : ∀ (w : World) (x : α),
      (∃ st, alGet w.cursors c = some st ∧ st.p_value = none) →
      ∃ st, alGet ((f w x)).cursors c = some st ∧ st.p_value = none) :
    ∀ (l : List α) (w : World),
      (∃ st, alGet w.cursors c = some st ∧ st.p_value = none) →
      ∃ st, alGet ((l.foldl f w)).cursors c = some st ∧ st.p_value = none := by
  intro l
  induction l with
  | nil => intro w h; exact h
  | cons x xs ih =>
    intro w h
    simp only [List.foldl_cons]
    exact ih _ (hf w x h)

theorem foldl_nextCursor {α : Type} (f : World → α → World)
    (hf : ∀ (w : World) (x : α), ((f w x)).nextCursor = w.nextCursor) :
    ∀ (l : List α) (w : World), ((l.foldl f w)).nextCursor = w.nextCursor := by
  intro l
  induction l with
  | nil => intro w; rfl
  | cons x xs ih =>
    intro w
    simp only [List.foldl_cons]
    rw [ih, hf]

theorem utrack_nextCursor (w : World) (cid0 l : Nat) (p : search_position_t) :
    ((tree_cursor_update_track w cid0 l p)).nextCursor = w.nextCursor := by
  unfold tree_cursor_update_track
  split
  · rfl
  · rfl

/-- C6 (amended): in LeafNode::track_insert and LeafNode::track_split,
every tracked cursor whose position is at or above the code's
invalidation floor — the insert (or split) position with the index at
STAGE_RIGHT set to zero — has its cached value pointer invalidated, and a
cursor with an empty cache re-resolves its next value() from the leaf. -/
theorem claim_C6 :
    (∀ (w : World) (lid : Nat) (ipos : search_position_t) (stage : Nat)
       (pv : Option onode_t) (e : search_position_t × Nat),
       (∀ e' ∈ w.cursors, e'.1 < w.nextCursor) →
       e ∈ trackedCursorsOf w lid →
       (alGet w.cursors e.2).isSome →
       spLeb (invalidateFloor ipos) e.1 = true →
       ∃ st', alGet ((LeafNode_track_insert w lid ipos stage pv).1).cursors e.2 = some st'
         ∧ st'.p_value = none)
    ∧ (∀ (w : World) (lid rid : Nat) (spos : search_position_t)
        (e : search_position_t × Nat),
        e ∈ trackedCursorsOf w lid →
        (alGet w.cursors e.2).isSome →
        spLeb (invalidateFloor spos) e.1 = true →
        ∃ st', alGet ((LeafNode_track_split w lid spos rid)).cursors e.2 = some st'
          ∧ st'.p_value = none)
    ∧ (∀ (w : World) (cid : Nat) (st : tree_cursor_t),
        alGet w.cursors cid = some st → st.p_value = none →
        (tree_cursor_get_p_value w cid).2
          = LeafNode_get_p_value w st.leaf_node st.position) := by
  refine ⟨?_, ?_, ?_⟩
  · intro w lid ipos stage pv e hW he hsome hfl
    rcases Option.isSome_iff_exists.mp hsome with ⟨st, hst⟩
    have hclt : e.2 < w.nextCursor := hW (e.2, st) (alGet_mem _ _ _ hst)
    have hinv : ∃ st', alGet (invalidateCursors w
        ((List.filter (fun x => spLeb (invalidateFloor ipos) x.1)
          (trackedCursorsOf w lid)).map (fun x => x.2))).cursors e.2 = some st'
        ∧ st'.p_value = none := by
      rw [alGet_invalidate, hst]
      have hmem : e.2 ∈ (List.filter (fun x => spLeb (invalidateFloor ipos) x.1)
          (trackedCursorsOf w lid)).map (fun x => x.2) :=
        List.mem_map.mpr ⟨e, List.mem_filter.mpr ⟨he, hfl⟩, rfl⟩
      simp only [hmem, if_true]
      exact ⟨_, rfl, rfl⟩
    unfold LeafNode_track_insert
    simp only []
    have hfold := foldl_cacheNone
      (fun (w : World) (x : search_position_t × Nat) =>
        tree_cursor_update_track w x.2 lid (spInc x.1 stage)) e.2
      (fun w x => utrack_cacheNone w x.2 lid (spInc x.1 stage) e.2)
      ((trackedCursorsOf w lid).filter
        (fun x => spLeb ipos x.1 && spLtb x.1 (stageUpper ipos stage)))
      (setLeafTracked (invalidateCursors w
        ((List.filter (fun x => spLeb (invalidateFloor ipos) x.1)
          (trackedCursorsOf w lid)).map (fun x => x.2))) lid
        ((trackedCursorsOf w lid).filter
          (fun x => !(spLeb ipos x.1 && spLtb x.1 (stageUpper ipos stage)))))
      (by rw [setLeafTracked_cursors]; exact hinv)
    rcases hfold with ⟨st', hst', hnone⟩
    unfold tree_cursor_ctor
    have hnc : e.2 ≠ (((trackedCursorsOf w lid).filter
        (fun x => spLeb ipos x.1 && spLtb x.1 (stageUpper ipos stage))).foldl
        (fun w x => tree_cursor_update_track w x.2 lid (spInc x.1 stage))
        (setLeafTracked (invalidateCursors w
          ((List.filter (fun x => spLeb (invalidateFloor ipos) x.1)
            (trackedCursorsOf w lid)).map (fun x => x.2))) lid
          ((trackedCursorsOf w lid).filter
            (fun x => !(spLeb ipos x.1 && spLtb x.1 (stageUpper ipos stage)))))).nextCursor := by
      rw [foldl_nextCursor
        (fun (w : World) (x : search_position_t × Nat) =>
          tree_cursor_update_track w x.2 lid (spInc x.1 stage))
        (fun w x => utrack_nextCursor w x.2 lid (spInc x.1 stage))]
      exact Nat.ne_of_lt hclt
    split
    · exact ⟨st', by rw [alGet_cons_ne _ _ _ _ hnc]; exact hst', hnone⟩
    · exact ⟨st', by
        rw [show ∀ (ww : World) (l0 p0 c0), (leafDoTrackCursor ww l0 p0 c0).cursors = ww.cursors
          from fun _ _ _ _ => rfl]
        rw [alGet_cons_ne _ _ _ _ hnc]
        exact hst', hnone⟩
  · intro w lid rid spos e he hsome hfl
    rcases Option.isSome_iff_exists.mp hsome with ⟨st, hst⟩
    have hinv : ∃ st', alGet (invalidateCursors w
        ((List.filter (fun x => spLeb (invalidateFloor spos) x.1)
          (trackedCursorsOf w lid)).map (fun x => x.2))).cursors e.2 = some st'
        ∧ st'.p_value = none := by
      rw [alGet_invalidate, hst]
      have hmem : e.2 ∈ (List.filter (fun x => spLeb (invalidateFloor spos) x.1)
          (trackedCursorsOf w lid)).map (fun x => x.2) :=
        List.mem_map.mpr ⟨e, List.mem_filter.mpr ⟨he, hfl⟩, rfl⟩
      simp only [hmem, if_true]
      exact ⟨_, rfl, rfl⟩
    unfold LeafNode_track_split
    simp only []
    rw [setLeafTracked_cursors]
    exact foldl_cacheNone
      (fun (w : World) (x : search_position_t × Nat) =>
        tree_cursor_update_track w x.2 rid (spSub x.1 spos)) e.2
      (fun w x => utrack_cacheNone w x.2 rid (spSub x.1 spos) e.2)
      _ _ hinv
  · intro w cid st h hn
    unfold tree_cursor_get_p_value
    rw [h]
    simp only []
    rw [hn]

theorem claim_C6_witness :
    ∃ st', alGet ((LeafNode_track_insert wC6 0 ⟨0, 0, 1⟩ 0 (some ⟨2, 9⟩)).1).cursors 5
      = some st' ∧ st'.p_value = none :=
  claim_C6.1 wC6 0 ⟨0, 0, 1⟩ 0 (some ⟨2, 9⟩) (⟨0, 0, 0⟩, 5) (by decide) (by decide)
    (by decide) (by decide)

theorem liv_inplace_run (fuel : Nat) (w : World) (lid : Nat) (value : onode_t)
    (pos : search_position_t) (ev : EvalResult) (spos : search_position_t)
    (orc : Oracles) (free : Nat)
    (hfree : leafFree w lid = some free) (hle : ev.size ≤ free) :
    LeafNode_insert_value fuel w lid value pos ev spos orc
      = ((livInPlace w lid value ev).1, some (livInPlace w lid value ev).2) := by
  unfold LeafNode_insert_value
  rw [hfree]
  simp only []
  rw [if_pos hle]

theorem acs_inplace_run (fuel : Nat) (w : World) (iid : Nat) (pos : search_position_t)
    (l r : Nat) (orc : Oracles) (free : Nat)
    (hfree : internalFree (acsReplace w iid pos r) iid = some free)
    (hle : (orc.evalI iid pos).size ≤ free) :
    InternalNode_apply_child_split (fuel + 1) w iid pos l r orc
      = (acsInPlace (acsReplace w iid pos r) iid (nodeAddr w l) l (orc.evalI iid pos),
          true) := by
  unfold InternalNode_apply_child_split
  simp only []
  rw [hfree]
  simp only []
  rw [if_pos hle]

theorem alGet_alMod_isSome {α : Type} (l : List (Nat × α)) (k : Nat) (f : α → α)
    (n : Nat) : (alGet (alMod l k f) n).isSome = (alGet l n).isSome := by
  rw [alGet_alMod]
  split
  · cases alGet l n <;> rfl
  · rfl

theorem leafFree_setLeafTracked (w : World) (lid : Nat)
    (m : List (search_position_t × Nat)) (n : Nat) :
    leafFree (setLeafTracked w lid m) n = leafFree w n := by
  unfold leafFree setLeafTracked
  simp only []
  rw [alGet_alMod]
  split
  · cases alGet w.leaves n <;> rfl
  · rfl

theorem leafFree_utrack (w : World) (cid0 l0 : Nat) (p : search_position_t) (n : Nat) :
    leafFree (tree_cursor_update_track w cid0 l0 p) n = leafFree w n := by
  unfold tree_cursor_update_track
  split
  · rfl
  · simp only []
    rw [leafFree_doTrack]
    rfl

theorem leafFree_invalidate (w : World) (ids : List Nat) (n : Nat) :
    leafFree (invalidateCursors w ids) n = leafFree w n := rfl

theorem leafFree_track_insert (w : World) (lid : Nat) (p : search_position_t)
    (stage : Nat) (pv : Option onode_t) (n : Nat) :
    leafFree ((LeafNode_track_insert w lid p stage pv).1) n = leafFree w n := by
  unfold LeafNode_track_insert
  simp only []
  rw [leafFree_ctor]
  have hfold : ∀ (ms : List (search_position_t × Nat)) (ww : World),
      leafFree (ms.foldl
        (fun w e => tree_cursor_update_track w e.2 lid (spInc e.1 stage)) ww) n
        = leafFree ww n := by
    intro ms
    induction ms with
    | nil => intro ww; rfl
    | cons x xs ih =>
      intro ww
      simp only [List.foldl_cons]
      rw [ih, leafFree_utrack]
  rw [hfold, leafFree_setLeafTracked, leafFree_invalidate]

theorem leafFree_implInsert (w : World) (lid : Nat) (value : onode_t) (ev : EvalResult)
    (free : Nat) (hfree : leafFree w lid = some free) :
    leafFree (leafImplInsert w lid value ev) lid = some (free - ev.size) := by
  unfold leafFree leafImplInsert at *
  simp only [] at *
  rw [alGet_alMod, if_pos rfl]
  rcases hget : alGet w.leaves lid with _ | ls
  · rw [hget] at hfree
    cases hfree
  · rw [hget] at hfree
    simp only [Option.map, Option.some.injEq] at hfree
    simp only [Option.map]
    rw [hfree]

theorem internalFree_setInternalTracked (w : World) (iid : Nat)
    (m : List (search_position_t × Nat)) (n : Nat) :
    internalFree (setInternalTracked w iid m) n = internalFree w n := by
  unfold internalFree setInternalTracked
  simp only []
  rw [alGet_alMod]
  split
  · cases alGet w.internals n <;> rfl
  · rfl

theorem internalFree_as_child (w : World) (c : Nat) (p : search_position_t)
    (par n : Nat) : internalFree (Node_as_child w c p par) n = internalFree w n := by
  unfold internalFree Node_as_child setNodeParent
  simp only []
  rw [alGet_alMod]
  split
  · rw [alGet_alMod]
    split
    · cases alGet w.internals n <;> rfl
    · cases alGet w.internals n <;> rfl
  · rw [alGet_alMod]
    split
    · cases alGet w.internals n <;> rfl
    · rfl

theorem internalFree_track_insert (w : World) (iid : Nat) (p : search_position_t)
    (stage : Nat) (c n : Nat) :
    internalFree (InternalNode_track_insert w iid p stage c) n = internalFree w n := by
  unfold InternalNode_track_insert
  simp only []
  rw [internalFree_as_child]
  have hfold : ∀ (ms : List (search_position_t × Nat)) (ww : World),
      internalFree (ms.foldl
        (fun w e => Node_as_child w e.2 (spInc e.1 stage) iid) ww) n
        = internalFree ww n := by
    intro ms
    induction ms with
    | nil => intro ww; rfl
    | cons x xs ih =>
      intro ww
      simp only [List.foldl_cons]
      rw [ih, internalFree_as_child]
  rw [hfold, internalFree_setInternalTracked]

theorem internalFree_implInsert (w : World) (iid : Nat) (a : Nat) (ev : EvalResult)
    (free : Nat) (hfree : internalFree w iid = some free) :
    internalFree (internalImplInsert w iid a ev) iid = some (free - ev.size) := by
  unfold internalFree internalImplInsert at *
  simp only [] at *
  rw [alGet_alMod, if_pos rfl]
  rcases hget : alGet w.internals iid with _ | s
  · rw [hget] at hfree
    cases hfree
  · rw [hget] at hfree
    simp only [Option.map, Option.some.injEq] at hfree
    simp only [Option.map]
    rw [hfree]

theorem setNodeParent_tracked (w : World) (n : Nat)
    (pi : Option (search_position_t × Nat)) (m : Nat) :
    trackedChildrenOf (setNodeParent w n pi) m = trackedChildrenOf w m := by
  unfold trackedChildrenOf setNodeParent
  simp only []
  rw [alGet_alMod]
  by_cases hmn : m = n
  · rw [if_pos hmn]
    cases alGet w.internals m <;> rfl
  · rw [if_neg hmn]

theorem as_child_tracked_parent (w : World) (c : Nat) (p : search_position_t) (par : Nat)
    (h : (alGet w.internals par).isSome) :
    trackedChildrenOf (Node_as_child w c p par) par
      = pmInsert (trackedChildrenOf w par) p c := by
  unfold Node_as_child
  simp only []
  rw [show trackedChildrenOf { setNodeParent w c (some (p, par)) with
      internals := (alMod (setNodeParent w c (some (p, par))).internals par
        (fun s => { s with tracked_child_nodes := pmInsert s.tracked_child_nodes p c })) } par
    = (match alGet (alMod (setNodeParent w c (some (p, par))).internals par
        (fun s => { s with tracked_child_nodes := pmInsert s.tracked_child_nodes p c })) par with
      | some s => s.tracked_child_nodes
      | none => [] : List (search_position_t × Nat)) from rfl]
  rw [alGet_alMod, if_pos rfl]
  have h2 : (alGet (setNodeParent w c (some (p, par))).internals par).isSome := by
    unfold setNodeParent
    simp only []
    rw [alGet_alMod_isSome]
    exact h
  rcases Option.isSome_iff_exists.mp h2 with ⟨s, hs⟩
  rw [hs]
  simp only [Option.map]
  have : trackedChildrenOf w par = s.tracked_child_nodes := by
    unfold trackedChildrenOf setNodeParent at *
    simp only [] at hs
    rw [alGet_alMod] at hs
    by_cases hpc : par = c
    · rw [if_pos hpc] at hs
      rcases hget : alGet w.internals par with _ | s0
      · rw [hget] at hs
        cases hs
      · rw [hget] at hs
        simp only [Option.map, Option.some.injEq] at hs
        rw [← hs]
    · rw [if_neg hpc] at hs
      rw [hs]
  rw [this]

theorem internals_isSome_as_child (w : World) (c : Nat) (p : search_position_t)
    (par n : Nat) :
    (alGet (Node_as_child w c p par).internals n).isSome
      = (alGet w.internals n).isSome := by
  unfold Node_as_child setNodeParent
  simp only []
  rw [alGet_alMod_isSome, alGet_alMod_isSome]

theorem internals_isSome_acsReplace (w : World) (iid : Nat) (pos : search_position_t)
    (r n : Nat) :
    (alGet (acsReplace w iid pos r).internals n).isSome
      = (alGet w.internals n).isSome := by
  unfold acsReplace InternalNode_replace_track internalReplaceChildAddr setInternalTracked
  simp only []
  rw [internals_isSome_as_child]
  simp only []
  rw [alGet_alMod_isSome, alGet_alMod_isSome]

theorem acsInPlace_tracked (w : World) (iid : Nat) (la l : Nat) (ev : EvalResult)
    (h : (alGet w.internals iid).isSome) :
    pmGet (trackedChildrenOf (acsInPlace w iid la l ev) iid) ev.pos = some l := by
  unfold acsInPlace InternalNode_track_insert
  simp only []
  have hfold : ∀ (ms : List (search_position_t × Nat)) (ww : World),
      (alGet ww.internals iid).isSome →
      (alGet ((ms.foldl
        (fun w e => Node_as_child w e.2 (spInc e.1 ev.stage) iid) ww)).internals iid).isSome := by
    intro ms
    induction ms with
    | nil => intro ww hw; exact hw
    | cons x xs ih =>
      intro ww hw
      simp only [List.foldl_cons]
      refine ih _ ?_
      rw [internals_isSome_as_child]
      exact hw
  have hX : (alGet ((((trackedChildrenOf (internalImplInsert w iid la ev) iid).filter
      (fun e => spLeb ev.pos e.1 && spLtb e.1 (stageUpper ev.pos ev.stage))).foldl
      (fun w e => Node_as_child w e.2 (spInc e.1 ev.stage) iid)
      (setInternalTracked (internalImplInsert w iid la ev) iid
        ((trackedChildrenOf (internalImplInsert w iid la ev) iid).filter
          (fun e => !(spLeb ev.pos e.1 && spLtb e.1 (stageUpper ev.pos ev.stage)))))).internals)
      iid).isSome := by
    refine hfold _ _ ?_
    unfold setInternalTracked internalImplInsert
    simp only []
    rw [alGet_alMod_isSome, alGet_alMod_isSome]
    exact h
  rw [as_child_tracked_parent _ _ _ _ hX]
  exact pmGet_cons_self _ _ _

/-- C9: whenever the in-place (non-split) insert path is taken — in
LeafNode::insert_value or in InternalNode::apply_child_split — the node's
free size after the implementation insert equals the free size measured
before the insert minus the insert size returned by evaluate_insert, and
the final insert position (where the new cursor or the separator's child
is registered) is at or below the hint position passed in. -/
theorem claim_C9 :
    (∀ (fuel : Nat) (w : World) (lid : Nat) (value : onode_t) (pos : search_position_t)
       (ev : EvalResult) (spos : search_position_t) (orc : Oracles) (free : Nat),
       leafFree w lid = some free → ev.size ≤ free → spLeb ev.pos pos = true →
       leafFree (LeafNode_insert_value fuel w lid value pos ev spos orc).1 lid
         = some (free - ev.size)
       ∧ ∃ c st, (LeafNode_insert_value fuel w lid value pos ev spos orc).2 = some c
           ∧ alGet (LeafNode_insert_value fuel w lid value pos ev spos orc).1.cursors c
               = some st
           ∧ st.position = ev.pos ∧ spLeb st.position pos = true)
    ∧ (∀ (fuel : Nat) (w : World) (iid : Nat) (pos : search_position_t) (l r : Nat)
        (orc : Oracles) (free : Nat),
        (alGet w.internals iid).isSome →
        internalFree (acsReplace w iid pos r) iid = some free →
        (orc.evalI iid pos).size ≤ free →
        spLeb (orc.evalI iid pos).pos pos = true →
        internalFree (InternalNode_apply_child_split (fuel + 1) w iid pos l r orc).1 iid
          = some (free - (orc.evalI iid pos).size)
        ∧ pmGet (trackedChildrenOf
            (InternalNode_apply_child_split (fuel + 1) w iid pos l r orc).1 iid)
            (orc.evalI iid pos).pos = some l
        ∧ spLeb (orc.evalI iid pos).pos pos = true) := by
  constructor
  · intro fuel w lid value pos ev spos orc free hfree hle hpos
    rw [liv_inplace_run fuel w lid value pos ev spos orc free hfree hle]
    constructor
    · unfold livInPlace
      rw [leafFree_track_insert]
      exact leafFree_implInsert w lid value ev free hfree
    · refine ⟨(livInPlace w lid value ev).2, ⟨lid, ev.pos, some value⟩, rfl, ?_, rfl, hpos⟩
      exact livInPlace_alGet w lid value ev
  · intro fuel w iid pos l r orc free hsome hfree hle hpos
    rw [acs_inplace_run fuel w iid pos l r orc free hfree hle]
    refine ⟨?_, ?_, hpos⟩
    · unfold acsInPlace
      rw [internalFree_track_insert]
      exact internalFree_implInsert _ iid (nodeAddr w l) (orc.evalI iid pos) free hfree
    · refine acsInPlace_tracked _ iid (nodeAddr w l) l (orc.evalI iid pos) ?_
      rw [internals_isSome_acsReplace]
      exact hsome

/-- Like wACS but with enough internal free space for an in-place
separator insert. -/
def wACS2 : World :=
  ⟨[(0, ⟨⟨1, field_type_t.N0, false, 50, [(spBegin, ⟨3, 3⟩)]⟩, some (spBegin, 1), []⟩),
    (2, ⟨⟨2, field_type_t.N0, false, 50, []⟩, none, []⟩)],
   [(1, ⟨⟨10, field_type_t.N0, false, 1, 50, [(spBegin, 1)]⟩, none, [(spBegin, 0)]⟩)],
   [], none, 0, 3, 0, 20⟩

theorem claim_C9_witness :
    (leafFree (LeafNode_insert_value 1 w0Leaf 0 ⟨5, 7⟩ spBegin ⟨spBegin, 0, 10⟩
        spBegin trivOracles).1 0 = some (100 - 10)
     ∧ ∃ c st, (LeafNode_insert_value 1 w0Leaf 0 ⟨5, 7⟩ spBegin ⟨spBegin, 0, 10⟩
          spBegin trivOracles).2 = some c
        ∧ alGet (LeafNode_insert_value 1 w0Leaf 0 ⟨5, 7⟩ spBegin ⟨spBegin, 0, 10⟩
            spBegin trivOracles).1.cursors c = some st
        ∧ st.position = (⟨spBegin, 0, 10⟩ : EvalResult).pos
        ∧ spLeb st.position spBegin = true)
    ∧ (internalFree (InternalNode_apply_child_split (0 + 1) wACS2 1 spBegin 0 2
          trivOracles).1 1 = some (50 - (trivOracles.evalI 1 spBegin).size)
       ∧ pmGet (trackedChildrenOf (InternalNode_apply_child_split (0 + 1) wACS2 1 spBegin
            0 2 trivOracles).1 1) (trivOracles.evalI 1 spBegin).pos = some 0
       ∧ spLeb (trivOracles.evalI 1 spBegin).pos spBegin = true) :=
  ⟨claim_C9.1 1 w0Leaf 0 ⟨5, 7⟩ spBegin ⟨spBegin, 0, 10⟩ spBegin trivOracles 100
      (by decide) (by decide) (by decide),
   claim_C9.2 0 wACS2 1 spBegin 0 2 trivOracles 50 (by decide) (by decide) (by decide)
      (by decide)⟩

/-- The allocation-time metadata of a leaf node: field type and level-tail
flag. -/
def leafMeta (w : World) (n : Nat) : Option (field_type_t × Bool) :=
  (alGet w.leaves n).map (fun ls => (ls.impl.ft, ls.impl.levelTail))

/-- The allocation-time metadata of an internal node: field type,
level-tail flag and level. -/
def internalMeta (w : World) (n : Nat) : Option (field_type_t × Bool × Nat) :=
  (alGet w.internals n).map (fun s => (s.impl.ft, s.impl.levelTail, s.impl.level))

theorem foldl_pres {α β : Type} (f : World → α → World) (g : World → β)
    (h : ∀ w x, g (f w x) = g w) :
    ∀ (l : List α) (w : World), g (l.foldl f w) = g w := by
  intro l
  induction l with
  | nil => intro w; rfl
  | cons x xs ih =>
    intro w
    simp only [List.foldl_cons]
    rw [ih, h]

theorem leafMeta_of_leaves {w w' : World} (n : Nat) (k : Nat) (f : LeafState → LeafState)
    (hl : w'.leaves = alMod w.leaves k f)
    (hf : ∀ ls, ((f ls).impl.ft, (f ls).impl.levelTail) = (ls.impl.ft, ls.impl.levelTail)) :
    leafMeta w' n = leafMeta w n := by
  unfold leafMeta
  rw [hl, alGet_alMod]
  split
  · cases alGet w.leaves n with
    | none => rfl
    | some ls =>
      simp only [Option.map]
      rw [hf]
  · rfl

theorem internalMeta_of_internals {w w' : World} (n : Nat) (k : Nat)
    (f : InternalState → InternalState)
    (hl : w'.internals = alMod w.internals k f)
    (hf : ∀ s, ((f s).impl.ft, (f s).impl.levelTail, (f s).impl.level)
      = (s.impl.ft, s.impl.levelTail, s.impl.level)) :
    internalMeta w' n = internalMeta w n := by
  unfold internalMeta
  rw [hl, alGet_alMod]
  split
  · cases alGet w.internals n with
    | none => rfl
    | some s =>
      simp only [Option.map]
      rw [hf]
  · rfl

theorem internalMeta_of_internals2 {w w' : World} (n : Nat) (k1 k2 : Nat)
    (f1 f2 : InternalState → InternalState)
    (hl : w'.internals = alMod (alMod w.internals k1 f1) k2 f2)
    (hf1 : ∀ s, ((f1 s).impl.ft, (f1 s).impl.levelTail, (f1 s).impl.level)
      = (s.impl.ft, s.impl.levelTail, s.impl.level))
    (hf2 : ∀ s, ((f2 s).impl.ft, (f2 s).impl.levelTail, (f2 s).impl.level)
      = (s.impl.ft, s.impl.levelTail, s.impl.level)) :
    internalMeta w' n = internalMeta w n := by
  unfold internalMeta
  rw [hl, alGet_alMod, alGet_alMod]
  split
  · split
    · cases alGet w.internals n with
      | none => rfl
      | some s =>
        simp only [Option.map]
        rw [hf2, hf1]
    · cases alGet w.internals n with
      | none => rfl
      | some s =>
        simp only [Option.map]
        rw [hf2]
  · split
    · cases alGet w.internals n with
      | none => rfl
      | some s =>
        simp only [Option.map]
        rw [hf1]
    · rfl

@[simp] theorem leafMeta_as_child (w : World) (c : Nat) (p : search_position_t)
    (par n : Nat) : leafMeta (Node_as_child w c p par) n = leafMeta w n :=
  leafMeta_of_leaves n c (fun ls => { ls with parent := some (p, par) }) rfl
    (fun _ => rfl)

@[simp] theorem internalMeta_as_child (w : World) (c : Nat) (p : search_position_t)
    (par n : Nat) : internalMeta (Node_as_child w c p par) n = internalMeta w n :=
  internalMeta_of_internals2 n c par
    (fun s => { s with parent := some (p, par) })
    (fun s => { s with tracked_child_nodes := pmInsert s.tracked_child_nodes p c })
    rfl (fun _ => rfl) (fun _ => rfl)

@[simp] theorem leafMeta_setInternalTracked (w : World) (iid : Nat)
    (m : List (search_position_t × Nat)) (n : Nat) :
    leafMeta (setInternalTracked w iid m) n = leafMeta w n := rfl

@[simp] theorem internalMeta_setInternalTracked (w : World) (iid : Nat)
    (m : List (search_position_t × Nat)) (n : Nat) :
    internalMeta (setInternalTracked w iid m) n = internalMeta w n :=
  internalMeta_of_internals n iid (fun s => { s with tracked_child_nodes := m }) rfl
    (fun _ => rfl)

@[simp] theorem leafMeta_replaceChildAddr (w : World) (iid : Nat)
    (p : search_position_t) (a n : Nat) :
    leafMeta (internalReplaceChildAddr w iid p a) n = leafMeta w n := rfl

@[simp] theorem internalMeta_replaceChildAddr (w : World) (iid : Nat)
    (p : search_position_t) (a n : Nat) :
    internalMeta (internalReplaceChildAddr w iid p a) n = internalMeta w n :=
  internalMeta_of_internals n iid
    (fun s => { s with impl := { s.impl with
        entries := s.impl.entries.map (fun e => if e.1 == p then (e.1, a) else e) } })
    rfl (fun _ => rfl)

@[simp] theorem leafMeta_implInsertI (w : World) (iid a : Nat) (ev : EvalResult)
    (n : Nat) : leafMeta (internalImplInsert w iid a ev) n = leafMeta w n := rfl

@[simp] theorem internalMeta_implInsertI (w : World) (iid a : Nat) (ev : EvalResult)
    (n : Nat) : internalMeta (internalImplInsert w iid a ev) n = internalMeta w n :=
  internalMeta_of_internals n iid
    (fun s => { s with impl := { s.impl with
        free := s.impl.free - ev.size,
        entries := stagedShiftInsert s.impl.entries ev.pos ev.stage a } })
    rfl (fun _ => rfl)

@[simp] theorem leafMeta_copyIn (w : World) (iid : Nat) (p : search_position_t)
    (a n : Nat) : leafMeta (internalCopyIn w iid p a) n = leafMeta w n := rfl

@[simp] theorem internalMeta_copyIn (w : World) (iid : Nat) (p : search_position_t)
    (a n : Nat) : internalMeta (internalCopyIn w iid p a) n = internalMeta w n :=
  internalMeta_of_internals n iid
    (fun s => { s with impl := { s.impl with entries := pmInsert s.impl.entries p a } })
    rfl (fun _ => rfl)

@[simp] theorem leafMeta_make_root (w : World) (nid n : Nat) :
    leafMeta (Node_make_root w nid) n = leafMeta w n := rfl

@[simp] theorem internalMeta_make_root (w : World) (nid n : Nat) :
    internalMeta (Node_make_root w nid) n = internalMeta w n := rfl

@[simp] theorem leafMeta_track_insertI (w : World) (iid : Nat) (p : search_position_t)
    (stage c n : Nat) :
    leafMeta (InternalNode_track_insert w iid p stage c) n = leafMeta w n := by
  unfold InternalNode_track_insert
  simp only []
  rw [leafMeta_as_child]
  rw [foldl_pres (fun (w : World) (e : search_position_t × Nat) =>
      Node_as_child w e.2 (spInc e.1 stage) iid) (fun w => leafMeta w n)
      (fun w x => leafMeta_as_child w x.2 (spInc x.1 stage) iid n)]
  rfl

@[simp] theorem internalMeta_track_insertI (w : World) (iid : Nat)
    (p : search_position_t) (stage c n : Nat) :
    internalMeta (InternalNode_track_insert w iid p stage c) n = internalMeta w n := by
  unfold InternalNode_track_insert
  simp only []
  rw [internalMeta_as_child]
  rw [foldl_pres (fun (w : World) (e : search_position_t × Nat) =>
      Node_as_child w e.2 (spInc e.1 stage) iid) (fun w => internalMeta w n)
      (fun w x => internalMeta_as_child w x.2 (spInc x.1 stage) iid n)]
  rw [internalMeta_setInternalTracked]

@[simp] theorem leafMeta_track_splitI (w : World) (iid : Nat) (p : search_position_t)
    (rid n : Nat) :
    leafMeta (InternalNode_track_split w iid p rid) n = leafMeta w n := by
  unfold InternalNode_track_split
  simp only []
  rw [show ∀ (ww : World) m, leafMeta (setInternalTracked ww iid m) n = leafMeta ww n
    from fun _ _ => rfl]
  rw [foldl_pres (fun (w : World) (e : search_position_t × Nat) =>
      Node_as_child w e.2 (spSub e.1 p) rid) (fun w => leafMeta w n)
      (fun w x => leafMeta_as_child w x.2 (spSub x.1 p) rid n)]

@[simp] theorem internalMeta_track_splitI (w : World) (iid : Nat)
    (p : search_position_t) (rid n : Nat) :
    internalMeta (InternalNode_track_split w iid p rid) n = internalMeta w n := by
  unfold InternalNode_track_split
  simp only []
  rw [internalMeta_setInternalTracked]
  rw [foldl_pres (fun (w : World) (e : search_position_t × Nat) =>
      Node_as_child w e.2 (spSub e.1 p) rid) (fun w => internalMeta w n)
      (fun w x => internalMeta_as_child w x.2 (spSub x.1 p) rid n)]

@[simp] theorem leafMeta_acsReplace (w : World) (iid : Nat) (pos : search_position_t)
    (r n : Nat) : leafMeta (acsReplace w iid pos r) n = leafMeta w n := by
  unfold acsReplace InternalNode_replace_track
  rw [leafMeta_as_child]
  rfl

@[simp] theorem internalMeta_acsReplace (w : World) (iid : Nat)
    (pos : search_position_t) (r n : Nat) :
    internalMeta (acsReplace w iid pos r) n = internalMeta w n := by
  unfold acsReplace InternalNode_replace_track
  rw [internalMeta_as_child, internalMeta_setInternalTracked,
    internalMeta_replaceChildAddr]

@[simp] theorem leafMeta_acsInPlace (w : World) (iid la li : Nat) (ev : EvalResult)
    (n : Nat) : leafMeta (acsInPlace w iid la li ev) n = leafMeta w n := by
  unfold acsInPlace
  rw [leafMeta_track_insertI]
  rfl

@[simp] theorem internalMeta_acsInPlace (w : World) (iid la li : Nat) (ev : EvalResult)
    (n : Nat) : internalMeta (acsInPlace w iid la li ev) n = internalMeta w n := by
  unfold acsInPlace
  rw [internalMeta_track_insertI, internalMeta_implInsertI]

@[simp] theorem leafMeta_splitInsertI (w : World) (iid rid a : Nat) (ev : EvalResult)
    (spos : search_position_t) (n : Nat) :
    leafMeta ((internalSplitInsert w iid rid a ev spos).1) n = leafMeta w n := by
  unfold internalSplitInsert
  by_cases h : spLtb ev.pos spos = true
  · simp only [h, if_true]
    rfl
  · simp only [h, if_false, Bool.false_eq_true]
    rfl

@[simp] theorem internalMeta_splitInsertI (w : World) (iid rid a : Nat)
    (ev : EvalResult) (spos : search_position_t) (n : Nat) :
    internalMeta ((internalSplitInsert w iid rid a ev spos).1) n = internalMeta w n := by
  unfold internalSplitInsert
  by_cases h : spLtb ev.pos spos = true
  · simp only [h, if_true]
    exact internalMeta_of_internals2 n iid rid
      (fun s => { s with impl := { s.impl with
          entries := stagedShiftInsert ((internalEntriesOf w iid).filter
            (fun e => !(spLeb spos e.1))) ev.pos ev.stage a } })
      (fun s => { s with impl := { s.impl with
          entries := ((internalEntriesOf w iid).filter (fun e => spLeb spos e.1)).map
            (fun e => (spSub e.1 spos, e.2)) } })
      rfl (fun _ => rfl) (fun _ => rfl)
  · simp only [h, if_false, Bool.false_eq_true]
    exact internalMeta_of_internals2 n iid rid
      (fun s => { s with impl := { s.impl with
          entries := (internalEntriesOf w iid).filter (fun e => !(spLeb spos e.1)) } })
      (fun s => { s with impl := { s.impl with
          entries := stagedShiftInsert (((internalEntriesOf w iid).filter
            (fun e => spLeb spos e.1)).map (fun e => (spSub e.1 spos, e.2)))
            (spSub ev.pos spos) ev.stage a } })
      rfl (fun _ => rfl) (fun _ => rfl)

@[simp] theorem leafMeta_acsSplitCore (w : World) (iid rid la li : Nat)
    (ev : EvalResult) (spos : search_position_t) (n : Nat) :
    leafMeta (acsSplitCore w iid rid la li ev spos) n = leafMeta w n := by
  unfold acsSplitCore
  simp only []
  split
  · rw [leafMeta_track_insertI, leafMeta_track_splitI, leafMeta_splitInsertI]
  · rw [leafMeta_track_insertI, leafMeta_track_splitI, leafMeta_splitInsertI]

@[simp] theorem internalMeta_acsSplitCore (w : World) (iid rid la li : Nat)
    (ev : EvalResult) (spos : search_position_t) (n : Nat) :
    internalMeta (acsSplitCore w iid rid la li ev spos) n = internalMeta w n := by
  unfold acsSplitCore
  simp only []
  split
  · rw [internalMeta_track_insertI, internalMeta_track_splitI, internalMeta_splitInsertI]
  · rw [internalMeta_track_insertI, internalMeta_track_splitI, internalMeta_splitInsertI]

theorem leafMeta_of_leaves2 {w w' : World} (n : Nat) (k1 k2 : Nat)
    (f1 f2 : LeafState → LeafState)
    (hl : w'.leaves = alMod (alMod w.leaves k1 f1) k2 f2)
    (hf1 : ∀ ls, ((f1 ls).impl.ft, (f1 ls).impl.levelTail)
      = (ls.impl.ft, ls.impl.levelTail))
    (hf2 : ∀ ls, ((f2 ls).impl.ft, (f2 ls).impl.levelTail)
      = (ls.impl.ft, ls.impl.levelTail)) :
    leafMeta w' n = leafMeta w n := by
  unfold leafMeta
  rw [hl, alGet_alMod, alGet_alMod]
  split
  · split
    · cases alGet w.leaves n with
      | none => rfl
      | some ls =>
        simp only [Option.map]
        rw [hf2, hf1]
    · cases alGet w.leaves n with
      | none => rfl
      | some ls =>
        simp only [Option.map]
        rw [hf2]
  · split
    · cases alGet w.leaves n with
      | none => rfl
      | some ls =>
        simp only [Option.map]
        rw [hf1]
    · rfl

@[simp] theorem internalMeta_allocateI (w : World) (ft : field_type_t) (tail : Bool)
    (level : Nat) (orc : Oracles) (n : Nat) (hn : n < w.nextNode) :
    internalMeta ((InternalNode_allocate w ft tail level orc).1) n
      = internalMeta w n := by
  unfold InternalNode_allocate
  split
  · rfl
  · unfold internalMeta
    simp only []
    rw [alGet_cons_ne _ _ _ _ (Nat.ne_of_lt hn)]

@[simp] theorem leafMeta_allocateI (w : World) (ft : field_type_t) (tail : Bool)
    (level : Nat) (orc : Oracles) (n : Nat) :
    leafMeta ((InternalNode_allocate w ft tail level orc).1) n = leafMeta w n := by
  unfold InternalNode_allocate
  split
  · rfl
  · rfl

theorem nextNode_allocateI (w : World) (ft : field_type_t) (tail : Bool)
    (level : Nat) (orc : Oracles) :
    w.nextNode ≤ ((InternalNode_allocate w ft tail level orc).1).nextNode := by
  unfold InternalNode_allocate
  split
  · exact Nat.le_refl _
  · exact Nat.le_succ _

theorem internalMeta_allocate_rootI (w : World) (lv ad : Nat) (orc : Oracles)
    (n : Nat) (hn : n < w.nextNode) :
    internalMeta ((InternalNode_allocate_root w lv ad orc).1) n = internalMeta w n := by
  unfold InternalNode_allocate_root
  split
  · rename_i w1 hm
    have := internalMeta_allocateI w field_type_t.N0 true (lv + 1) orc n hn
    rw [hm] at this
    exact this
  · rename_i w1 root hm
    have := internalMeta_allocateI w field_type_t.N0 true (lv + 1) orc n hn
    rw [hm] at this
    rw [internalMeta_make_root, internalMeta_copyIn]
    exact this

theorem leafMeta_allocate_rootI (w : World) (lv ad : Nat) (orc : Oracles) (n : Nat) :
    leafMeta ((InternalNode_allocate_root w lv ad orc).1) n = leafMeta w n := by
  unfold InternalNode_allocate_root
  split
  · rename_i w1 hm
    have := leafMeta_allocateI w field_type_t.N0 true (lv + 1) orc n
    rw [hm] at this
    exact this
  · rename_i w1 root hm
    have := leafMeta_allocateI w field_type_t.N0 true (lv + 1) orc n
    rw [hm] at this
    rw [leafMeta_make_root, leafMeta_copyIn]
    exact this

theorem nextNode_allocate_rootI (w : World) (lv ad : Nat) (orc : Oracles) :
    w.nextNode ≤ ((InternalNode_allocate_root w lv ad orc).1).nextNode := by
  unfold InternalNode_allocate_root
  split
  · rename_i w1 hm
    have := nextNode_allocateI w field_type_t.N0 true (lv + 1) orc
    rw [hm] at this
    exact this
  · rename_i w1 root hm
    have := nextNode_allocateI w field_type_t.N0 true (lv + 1) orc
    rw [hm] at this
    exact this

theorem internalMeta_upgrade (w : World) (nid : Nat) (orc : Oracles) (n : Nat)
    (hn : n < w.nextNode) :
    internalMeta ((Node_upgrade_root w nid orc).1) n = internalMeta w n := by
  unfold Node_upgrade_root
  simp only []
  split
  · rename_i w2 newRoot hm
    have := internalMeta_allocate_rootI { w with superRoot := none }
      (nodeLevel w nid) (nodeAddr w nid) orc n hn
    rw [hm] at this
    rw [internalMeta_as_child]
    exact this
  · rename_i w2 hm
    have := internalMeta_allocate_rootI { w with superRoot := none }
      (nodeLevel w nid) (nodeAddr w nid) orc n hn
    rw [hm] at this
    exact this

theorem leafMeta_upgrade (w : World) (nid : Nat) (orc : Oracles) (n : Nat) :
    leafMeta ((Node_upgrade_root w nid orc).1) n = leafMeta w n := by
  unfold Node_upgrade_root
  simp only []
  split
  · rename_i w2 newRoot hm
    have := leafMeta_allocate_rootI { w with superRoot := none }
      (nodeLevel w nid) (nodeAddr w nid) orc n
    rw [hm] at this
    rw [leafMeta_as_child]
    exact this
  · rename_i w2 hm
    have := leafMeta_allocate_rootI { w with superRoot := none }
      (nodeLevel w nid) (nodeAddr w nid) orc n
    rw [hm] at this
    exact this

theorem nextNode_upgrade (w : World) (nid : Nat) (orc : Oracles) :
    w.nextNode ≤ ((Node_upgrade_root w nid orc).1).nextNode := by
  unfold Node_upgrade_root
  simp only []
  split
  · rename_i w2 newRoot hm
    have := nextNode_allocate_rootI { w with superRoot := none }
      (nodeLevel w nid) (nodeAddr w nid) orc
    rw [hm] at this
    exact this
  · rename_i w2 hm
    have := nextNode_allocate_rootI { w with superRoot := none }
      (nodeLevel w nid) (nodeAddr w nid) orc
    rw [hm] at this
    exact this

theorem nextNode_as_child (w : World) (c : Nat) (p : search_position_t) (par : Nat) :
    (Node_as_child w c p par).nextNode = w.nextNode := rfl

theorem nextNode_acsReplace (w : World) (iid : Nat) (pos : search_position_t)
    (r : Nat) : (acsReplace w iid pos r).nextNode = w.nextNode := rfl

theorem nextNode_track_insertI (w : World) (iid : Nat) (p : search_position_t)
    (stage c : Nat) :
    (InternalNode_track_insert w iid p stage c).nextNode = w.nextNode := by
  unfold InternalNode_track_insert
  simp only []
  rw [nextNode_as_child]
  rw [foldl_pres (fun (w : World) (e : search_position_t × Nat) =>
      Node_as_child w e.2 (spInc e.1 stage) iid) (fun w => w.nextNode)
      (fun w x => rfl)]
  rfl

theorem nextNode_track_splitI (w : World) (iid : Nat) (p : search_position_t)
    (rid : Nat) :
    (InternalNode_track_split w iid p rid).nextNode = w.nextNode := by
  unfold InternalNode_track_split
  simp only []
  rw [show ∀ (ww : World) m, (setInternalTracked ww iid m).nextNode = ww.nextNode
    from fun _ _ => rfl]
  rw [foldl_pres (fun (w : World) (e : search_position_t × Nat) =>
      Node_as_child w e.2 (spSub e.1 p) rid) (fun w => w.nextNode)
      (fun w x => rfl)]

theorem nextNode_acsInPlace (w : World) (iid la li : Nat) (ev : EvalResult) :
    (acsInPlace w iid la li ev).nextNode = w.nextNode := by
  unfold acsInPlace
  rw [nextNode_track_insertI]
  rfl

theorem nextNode_splitInsertI (w : World) (iid rid a : Nat) (ev : EvalResult)
    (spos : search_position_t) :
    ((internalSplitInsert w iid rid a ev spos).1).nextNode = w.nextNode := by
  unfold internalSplitInsert
  by_cases h : spLtb ev.pos spos = true
  · simp only [h, if_true]
  · simp only [h, if_false, Bool.false_eq_true]

theorem nextNode_acsSplitCore (w : World) (iid rid la li : Nat) (ev : EvalResult)
    (spos : search_position_t) :
    (acsSplitCore w iid rid la li ev spos).nextNode = w.nextNode := by
  unfold acsSplitCore
  simp only []
  split
  · rw [nextNode_track_insertI, nextNode_track_splitI, nextNode_splitInsertI]
  · rw [nextNode_track_insertI, nextNode_track_splitI, nextNode_splitInsertI]

theorem nextNode_acs :
    ∀ (fuel : Nat) (w : World) (iid : Nat) (pos : search_position_t) (l r : Nat)
      (orc : Oracles),
      w.nextNode ≤ ((InternalNode_apply_child_split fuel w iid pos l r orc).1).nextNode := by
  intro fuel
  induction fuel with
  | zero => intro w iid pos l r orc; exact Nat.le_refl _
  | succ nn ih =>
    intro w iid pos l r orc
    unfold InternalNode_apply_child_split
    simp only []
    set A := acsReplace w iid pos r with hA
    split
    · exact Nat.le_refl _
    · split
      · rw [nextNode_acsInPlace]
        exact Nat.le_refl _
      · set U := if isRoot A iid = true then Node_upgrade_root A iid orc
          else (A, true) with hU
        have hUn : w.nextNode ≤ U.1.nextNode := by
          rw [hU]
          split
          · exact nextNode_upgrade A iid orc
          · exact Nat.le_refl _
        split
        · set B := InternalNode_allocate U.1 (internalFt U.1 iid) (internalTail U.1 iid)
            (internalLevel U.1 iid) orc with hB
          have hBn : U.1.nextNode ≤ B.1.nextNode := by
            rw [hB]
            exact nextNode_allocateI U.1 (internalFt U.1 iid) (internalTail U.1 iid)
              (internalLevel U.1 iid) orc
          split
          · exact Nat.le_trans hUn hBn
          · rename_i rid hrid
            set W7 := acsSplitCore B.1 iid rid (nodeAddr w l) l (orc.evalI iid pos)
              (orc.splitI iid) with hW7
            have hWn : W7.nextNode = B.1.nextNode := by
              rw [hW7]
              exact nextNode_acsSplitCore B.1 iid rid (nodeAddr w l) l
                (orc.evalI iid pos) (orc.splitI iid)
            split
            · rename_i pp hpp
              exact Nat.le_trans hUn (Nat.le_trans hBn (Nat.le_trans
                (Nat.le_of_eq hWn.symm) (ih W7 pp.2 pp.1 iid rid orc)))
            · exact Nat.le_trans hUn (Nat.le_trans hBn (Nat.le_of_eq hWn.symm))
        · exact hUn

theorem leafMeta_acs :
    ∀ (fuel : Nat) (w : World) (iid : Nat) (pos : search_position_t) (l r : Nat)
      (orc : Oracles) (n : Nat),
      leafMeta ((InternalNode_apply_child_split fuel w iid pos l r orc).1) n
        = leafMeta w n := by
  intro fuel
  induction fuel with
  | zero => intro w iid pos l r orc n; rfl
  | succ nn ih =>
    intro w iid pos l r orc n
    unfold InternalNode_apply_child_split
    simp only []
    set A := acsReplace w iid pos r with hA
    have hAm : leafMeta A n = leafMeta w n := by
      rw [hA]
      exact leafMeta_acsReplace w iid pos r n
    split
    · exact hAm
    · split
      · rw [show acsInPlace A iid (nodeAddr w l) l (orc.evalI iid pos)
            = acsInPlace A iid (nodeAddr w l) l (orc.evalI iid pos) from rfl]
        rw [leafMeta_acsInPlace]
        exact hAm
      · set U := if isRoot A iid = true then Node_upgrade_root A iid orc
          else (A, true) with hU
        have hUm : leafMeta U.1 n = leafMeta w n := by
          rw [hU]
          split
          · rw [leafMeta_upgrade]
            exact hAm
          · exact hAm
        split
        · set B := InternalNode_allocate U.1 (internalFt U.1 iid) (internalTail U.1 iid)
            (internalLevel U.1 iid) orc with hB
          have hBm : leafMeta B.1 n = leafMeta w n := by
            rw [hB]
            rw [leafMeta_allocateI]
            exact hUm
          split
          · exact hBm
          · rename_i rid hrid
            set W7 := acsSplitCore B.1 iid rid (nodeAddr w l) l (orc.evalI iid pos)
              (orc.splitI iid) with hW7
            have hWm : leafMeta W7 n = leafMeta w n := by
              rw [hW7]
              rw [leafMeta_acsSplitCore]
              exact hBm
            split
            · rename_i pp hpp
              rw [ih W7 pp.2 pp.1 iid rid orc n]
              exact hWm
            · exact hWm
        · exact hUm

theorem internalMeta_acs :
    ∀ (fuel : Nat) (w : World) (iid : Nat) (pos : search_position_t) (l r : Nat)
      (orc : Oracles) (n : Nat), n < w.nextNode →
      internalMeta ((InternalNode_apply_child_split fuel w iid pos l r orc).1) n
        = internalMeta w n := by
  intro fuel
  induction fuel with
  | zero => intro w iid pos l r orc n hn; rfl
  | succ nn ih =>
    intro w iid pos l r orc n hn
    unfold InternalNode_apply_child_split
    simp only []
    set A := acsReplace w iid pos r with hA
    have hAm : internalMeta A n = internalMeta w n := by
      rw [hA]
      exact internalMeta_acsReplace w iid pos r n
    have hAn : n < A.nextNode := hn
    split
    · exact hAm
    · split
      · rw [show acsInPlace A iid (nodeAddr w l) l (orc.evalI iid pos)
            = acsInPlace A iid (nodeAddr w l) l (orc.evalI iid pos) from rfl]
        rw [internalMeta_acsInPlace]
        exact hAm
      · set U := if isRoot A iid = true then Node_upgrade_root A iid orc
          else (A, true) with hU
        have hUm : internalMeta U.1 n = internalMeta w n := by
          rw [hU]
          split
          · rw [internalMeta_upgrade A iid orc n hAn]
            exact hAm
          · exact hAm
        have hUn : n < U.1.nextNode := by
          rw [hU]
          split
          · exact Nat.lt_of_lt_of_le hAn (nextNode_upgrade A iid orc)
          · exact hAn
        split
        · set B := InternalNode_allocate U.1 (internalFt U.1 iid) (internalTail U.1 iid)
            (internalLevel U.1 iid) orc with hB
          have hBm : internalMeta B.1 n = internalMeta w n := by
            rw [hB]
            rw [internalMeta_allocateI _ _ _ _ _ _ hUn]
            exact hUm
          have hBn : n < B.1.nextNode := by
            rw [hB]
            exact Nat.lt_of_lt_of_le hUn (nextNode_allocateI U.1 (internalFt U.1 iid)
              (internalTail U.1 iid) (internalLevel U.1 iid) orc)
          split
          · exact hBm
          · rename_i rid hrid
            set W7 := acsSplitCore B.1 iid rid (nodeAddr w l) l (orc.evalI iid pos)
              (orc.splitI iid) with hW7
            have hWm : internalMeta W7 n = internalMeta w n := by
              rw [hW7]
              rw [internalMeta_acsSplitCore]
              exact hBm
            have hWn : n < W7.nextNode := by
              rw [hW7]
              rw [nextNode_acsSplitCore]
              exact hBn
            split
            · rename_i pp hpp
              rw [ih W7 pp.2 pp.1 iid rid orc n hWn]
              exact hWm
            · exact hWm
        · exact hUm

@[simp] theorem leafMeta_doTrack (w : World) (lid : Nat) (p : search_position_t)
    (cid n : Nat) : leafMeta (leafDoTrackCursor w lid p cid) n = leafMeta w n :=
  leafMeta_of_leaves n lid
    (fun ls => { ls with tracked_cursors := (pmInsert ls.tracked_cursors p cid) })
    rfl (fun _ => rfl)

@[simp] theorem leafMeta_ctor (w : World) (lid : Nat) (p : search_position_t)
    (pv : Option onode_t) (n : Nat) :
    leafMeta ((tree_cursor_ctor w lid p pv).1) n = leafMeta w n := by
  unfold tree_cursor_ctor
  split
  · rfl
  · rw [leafMeta_doTrack]
    rfl

@[simp] theorem leafMeta_utrack (w : World) (cid0 lid : Nat) (p : search_position_t)
    (n : Nat) :
    leafMeta (tree_cursor_update_track w cid0 lid p) n = leafMeta w n := by
  unfold tree_cursor_update_track
  split
  · rfl
  · rw [leafMeta_doTrack]
    rfl

@[simp] theorem leafMeta_setLeafTracked (w : World) (lid : Nat)
    (m : List (search_position_t × Nat)) (n : Nat) :
    leafMeta (setLeafTracked w lid m) n = leafMeta w n :=
  leafMeta_of_leaves n lid (fun ls => { ls with tracked_cursors := m }) rfl
    (fun _ => rfl)

@[simp] theorem leafMeta_track_insertL (w : World) (lid : Nat) (p : search_position_t)
    (stage : Nat) (pv : Option onode_t) (n : Nat) :
    leafMeta ((LeafNode_track_insert w lid p stage pv).1) n = leafMeta w n := by
  unfold LeafNode_track_insert
  simp only []
  rw [leafMeta_ctor]
  rw [foldl_pres (fun (w : World) (e : search_position_t × Nat) =>
      tree_cursor_update_track w e.2 lid (spInc e.1 stage)) (fun w => leafMeta w n)
      (fun w x => leafMeta_utrack w x.2 lid (spInc x.1 stage) n)]
  rw [leafMeta_setLeafTracked]
  rfl

@[simp] theorem leafMeta_track_splitL (w : World) (lid : Nat) (p : search_position_t)
    (rid n : Nat) :
    leafMeta (LeafNode_track_split w lid p rid) n = leafMeta w n := by
  unfold LeafNode_track_split
  simp only []
  rw [leafMeta_setLeafTracked]
  rw [foldl_pres (fun (w : World) (e : search_position_t × Nat) =>
      tree_cursor_update_track w e.2 rid (spSub e.1 p)) (fun w => leafMeta w n)
      (fun w x => leafMeta_utrack w x.2 rid (spSub x.1 p) n)]
  rfl

@[simp] theorem leafMeta_splitInsertL (w : World) (lid rid : Nat) (value : onode_t)
    (ev : EvalResult) (spos : search_position_t) (n : Nat) :
    leafMeta ((leafSplitInsert w lid rid value ev spos).1) n = leafMeta w n := by
  unfold leafSplitInsert
  by_cases h : spLtb ev.pos spos = true
  · simp only [h, if_true]
    exact leafMeta_of_leaves2 n lid rid
      (fun ls => { ls with impl := { ls.impl with
          entries := stagedShiftInsert ((match alGet w.leaves lid with
            | some ls => ls.impl.entries
            | none => []).filter
              (fun (e : search_position_t × onode_t) => !(spLeb spos e.1)))
            ev.pos ev.stage value } })
      (fun ls => { ls with impl := { ls.impl with
          entries := ((match alGet w.leaves lid with
            | some ls => ls.impl.entries
            | none => []).filter
              (fun (e : search_position_t × onode_t) => spLeb spos e.1)).map
            (fun (e : search_position_t × onode_t) => (spSub e.1 spos, e.2)) } })
      rfl (fun _ => rfl) (fun _ => rfl)
  · simp only [h, if_false, Bool.false_eq_true]
    exact leafMeta_of_leaves2 n lid rid
      (fun ls => { ls with impl := { ls.impl with
          entries := (match alGet w.leaves lid with
            | some ls => ls.impl.entries
            | none => []).filter
              (fun (e : search_position_t × onode_t) => !(spLeb spos e.1)) } })
      (fun ls => { ls with impl := { ls.impl with
          entries := stagedShiftInsert (((match alGet w.leaves lid with
            | some ls => ls.impl.entries
            | none => []).filter
              (fun (e : search_position_t × onode_t) => spLeb spos e.1)).map
            (fun (e : search_position_t × onode_t) => (spSub e.1 spos, e.2)))
            (spSub ev.pos spos) ev.stage value } })
      rfl (fun _ => rfl) (fun _ => rfl)

@[simp] theorem leafMeta_livSplitCore (w : World) (lid rid : Nat) (value : onode_t)
    (ev : EvalResult) (spos : search_position_t) (n : Nat) :
    leafMeta ((livSplitCore w lid rid value ev spos).1) n = leafMeta w n := by
  unfold livSplitCore
  simp only []
  split
  · rw [leafMeta_track_insertL, leafMeta_track_splitL, leafMeta_splitInsertL]
  · rw [leafMeta_track_insertL, leafMeta_track_splitL, leafMeta_splitInsertL]

theorem leafMeta_insert_parent (fuel : Nat) (w : World) (nid rid : Nat)
    (orc : Oracles) (n : Nat) :
    leafMeta ((Node_insert_parent fuel w nid rid orc).1) n = leafMeta w n := by
  unfold Node_insert_parent
  split
  · rw [leafMeta_acs]
  · rfl

/-- C10: a node on the split-and-insert path allocates its fresh right
sibling with the field type and level-tail flag the split node carries at
the moment of allocation (after any root upgrade), and for internal nodes
also the same level: the right sibling's stored metadata equals the split
node's metadata read just before the allocation, so splitting a
level-tail node yields a level-tail right sibling. -/
theorem claim_C10
    (fuelL fuelI : Nat) (w v : World) (lid iid : Nat) (value : onode_t)
    (pos : search_position_t) (ev : EvalResult) (spos posI : search_position_t) (orc : Oracles)
    (freeL freeI : Nat) (wL wI : World) (l r : Nat)
    (hfL : leafFree w lid = some freeL) (hgL : ¬ ev.size ≤ freeL)
    (huL : (if isRoot w lid = true then Node_upgrade_root w lid orc
        else (w, true)) = (wL, true))
    (haL : wL.nextNode ∉ orc.allocFails)
    (hfI : internalFree (acsReplace v iid posI r) iid = some freeI)
    (hgI : ¬ (orc.evalI iid posI).size ≤ freeI)
    (huI : (if isRoot (acsReplace v iid posI r) iid = true
        then Node_upgrade_root (acsReplace v iid posI r) iid orc
        else (acsReplace v iid posI r, true)) = (wI, true))
    (haI : wI.nextNode ∉ orc.allocFails) :
    leafMeta ((LeafNode_insert_value fuelL w lid value pos ev spos orc).1) wL.nextNode
      = some (leafFt wL lid, leafTail wL lid)
    ∧ internalMeta ((InternalNode_apply_child_split (fuelI + 1) v iid posI l r orc).1)
        wI.nextNode
      = some (internalFt wI iid, internalTail wI iid, internalLevel wI iid) := by
  constructor
  · unfold LeafNode_insert_value
    rw [hfL]
    simp only []
    rw [if_neg hgL, huL]
    simp only []
    simp only [if_true]
    unfold LeafNode_allocate
    rw [if_neg haL]
    simp only []
    split
    · rw [leafMeta_insert_parent, leafMeta_livSplitCore]
      unfold leafMeta
      rw [alGet_cons_self]
      rfl
    · rw [leafMeta_insert_parent, leafMeta_livSplitCore]
      unfold leafMeta
      rw [alGet_cons_self]
      rfl
  · unfold InternalNode_apply_child_split
    simp only []
    rw [hfI]
    simp only []
    rw [if_neg hgI, huI]
    simp only []
    simp only [if_true]
    unfold InternalNode_allocate
    rw [if_neg haI]
    simp only []
    split
    · rename_i pp hpp
      rw [internalMeta_acs fuelI _ pp.2 pp.1 iid wI.nextNode orc wI.nextNode
        (by rw [nextNode_acsSplitCore]; exact Nat.lt_succ_self _)]
      rw [internalMeta_acsSplitCore]
      unfold internalMeta
      rw [alGet_cons_self]
      rfl
    · rw [internalMeta_acsSplitCore]
      unfold internalMeta
      rw [alGet_cons_self]
      rfl

def wSL : World :=
  ⟨[(0, ⟨⟨1, field_type_t.N0, true, 5, []⟩, some (spEnd, 1), []⟩)],
   [(1, ⟨⟨10, field_type_t.N0, false, 1, 50, [(spEnd, 1)]⟩, none, [(spEnd, 0)]⟩)],
   [], none, 0, 2, 0, 20⟩

def wSI : World :=
  ⟨[(0, ⟨⟨1, field_type_t.N0, false, 50, [(spBegin, ⟨3, 3⟩)]⟩, some (spBegin, 1), []⟩),
    (2, ⟨⟨2, field_type_t.N0, false, 50, []⟩, none, []⟩)],
   [(1, ⟨⟨10, field_type_t.N0, true, 1, 5, [(spBegin, 1)]⟩, none, [(spBegin, 0)]⟩)],
   [], none, 0, 3, 0, 20⟩

theorem claim_C10_witness :
    leafMeta ((LeafNode_insert_value 1 wSL 0 ⟨5, 7⟩ spBegin ⟨spBegin, 0, 10⟩ spBegin
        trivOracles).1) wSL.nextNode = some (leafFt wSL 0, leafTail wSL 0)
    ∧ internalMeta ((InternalNode_apply_child_split (0 + 1) wSI 1 spBegin 0 2
        trivOracles).1) (acsReplace wSI 1 spBegin 2).nextNode
      = some (internalFt (acsReplace wSI 1 spBegin 2) 1,
          internalTail (acsReplace wSI 1 spBegin 2) 1,
          internalLevel (acsReplace wSI 1 spBegin 2) 1) :=
  claim_C10 1 0 wSL wSI 0 1 ⟨5, 7⟩ spBegin ⟨spBegin, 0, 10⟩ spBegin spBegin trivOracles
    5 5 wSL (acsReplace wSI 1 spBegin 2) 0 2 rfl (by decide) rfl (by decide)
    rfl (by decide) rfl (by decide)

theorem mem_pmErase {α : Type} {m : List (search_position_t × α)}
    {k : search_position_t} {e : search_position_t × α}
    (h : e ∈ pmErase m k) : e ∈ m :=
  (List.mem_filter.mp h).1

theorem mem_pmInsert {α : Type} {m : List (search_position_t × α)}
    {k : search_position_t} {v : α} {e : search_position_t × α}
    (h : e ∈ pmInsert m k v) : e = (k, v) ∨ e ∈ m := by
  rcases List.mem_cons.mp h with h1 | h1
  · exact Or.inl h1
  · exact Or.inr (mem_pmErase h1)

/-- The C8 invariant: every entry of every leaf's tracked-cursor map sits
at a non-end position. -/
def TrackedNonEnd (w : World) : Prop :=
  ∀ lid ls, alGet w.leaves lid = some ls →
    ∀ e ∈ ls.tracked_cursors, spIsEnd e.1 = false

theorem TNE_of_leaves_eq {w w' : World} (h : w'.leaves = w.leaves)
    (hw : TrackedNonEnd w) : TrackedNonEnd w' := by
  intro lid ls hget e he
  exact hw lid ls (by rw [← h]; exact hget) e he

theorem TNE_doTrack {w : World} (hw : TrackedNonEnd w) (lid : Nat)
    {p : search_position_t} (hp : spIsEnd p = false) (cid : Nat) :
    TrackedNonEnd (leafDoTrackCursor w lid p cid) := by
  intro lid' ls' hget e he
  unfold leafDoTrackCursor at hget
  simp only [] at hget
  rw [alGet_alMod] at hget
  by_cases hl : lid' = lid
  · rw [if_pos hl] at hget
    cases hg : alGet w.leaves lid' with
    | none => rw [hg] at hget; exact absurd hget (by simp)
    | some ls =>
      rw [hg] at hget
      simp only [Option.map] at hget
      have hls' : ls' = { ls with tracked_cursors := pmInsert ls.tracked_cursors p cid } :=
        (Option.some.inj hget).symm
      rw [hls'] at he
      rcases mem_pmInsert he with h1 | h1
      · rw [h1]; exact hp
      · exact hw lid' ls hg e h1
  · rw [if_neg hl] at hget
    exact hw lid' ls' hget e he

theorem TNE_ctor {w : World} (hw : TrackedNonEnd w) (lid : Nat)
    (pos : search_position_t) (pv : Option onode_t) :
    TrackedNonEnd ((tree_cursor_ctor w lid pos pv).1) := by
  unfold tree_cursor_ctor
  by_cases hend : spIsEnd pos = true
  · simp only [hend, if_true]
    exact TNE_of_leaves_eq rfl hw
  · simp only [hend, if_false, Bool.false_eq_true]
    exact TNE_doTrack (TNE_of_leaves_eq rfl hw) lid
      (Bool.not_eq_true _ ▸ hend) w.nextCursor

theorem TNE_spv {w : World} (hw : TrackedNonEnd w) (cid : Nat) (v : onode_t) :
    TrackedNonEnd (tree_cursor_set_p_value w cid v) :=
  TNE_of_leaves_eq rfl hw

theorem TNE_utrack {w : World} (hw : TrackedNonEnd w) (cid lid : Nat)
    {p : search_position_t} (hp : spIsEnd p = false) :
    TrackedNonEnd (tree_cursor_update_track w cid lid p) := by
  unfold tree_cursor_update_track
  cases alGet w.cursors cid with
  | none => exact hw
  | some st => exact TNE_doTrack (TNE_of_leaves_eq rfl hw) lid hp cid

theorem TNE_trackedOf {w : World} (hw : TrackedNonEnd w) (lid : Nat) :
    ∀ e ∈ trackedCursorsOf w lid, spIsEnd e.1 = false := by
  intro e he
  unfold trackedCursorsOf at he
  cases hg : alGet w.leaves lid with
  | none => rw [hg] at he; exact absurd he (by simp)
  | some ls =>
    rw [hg] at he
    exact hw lid ls hg e he

theorem TNE_setLeafTracked {w : World} (hw : TrackedNonEnd w) (lid : Nat)
    {m : List (search_position_t × Nat)} (hm : ∀ e ∈ m, spIsEnd e.1 = false) :
    TrackedNonEnd (setLeafTracked w lid m) := by
  intro lid' ls' hget e he
  unfold setLeafTracked at hget
  simp only [] at hget
  rw [alGet_alMod] at hget
  by_cases hl : lid' = lid
  · rw [if_pos hl] at hget
    cases hg : alGet w.leaves lid' with
    | none => rw [hg] at hget; exact absurd hget (by simp)
    | some ls =>
      rw [hg] at hget
      simp only [Option.map] at hget
      have hls' : ls' = { ls with tracked_cursors := m } :=
        (Option.some.inj hget).symm
      rw [hls'] at he
      exact hm e he
  · rw [if_neg hl] at hget
    exact hw lid' ls' hget e he

theorem TNE_invalidate {w : World} (hw : TrackedNonEnd w) (ids : List Nat) :
    TrackedNonEnd (invalidateCursors w ids) :=
  TNE_of_leaves_eq rfl hw

theorem TNE_utrack_fold {tgt : Nat} {g : search_position_t × Nat → search_position_t} :
    ∀ (l : List (search_position_t × Nat)) (w : World), TrackedNonEnd w →
      (∀ e ∈ l, spIsEnd (g e) = false) →
      TrackedNonEnd (l.foldl (fun w e => tree_cursor_update_track w e.2 tgt (g e)) w) := by
  intro l
  induction l with
  | nil => intro w hw _; exact hw
  | cons a as ih =>
    intro w hw hl
    rw [List.foldl_cons]
    exact ih _ (TNE_utrack hw a.2 tgt (hl a (List.mem_cons_self a as)))
      (fun e he => hl e (List.mem_cons_of_mem a he))

theorem TNE_got {w : World} (hw : TrackedNonEnd w) (lid : Nat)
    (pos : search_position_t) (pv : Option onode_t) :
    TrackedNonEnd ((LeafNode_get_or_track_cursor w lid pos pv).1) := by
  unfold LeafNode_get_or_track_cursor
  by_cases hend : spIsEnd pos = true
  · simp only [hend, if_true]
    exact TNE_ctor hw lid pos pv
  · simp only [hend, if_false, Bool.false_eq_true]
    cases pmGet (trackedCursorsOf w lid) pos with
    | none => exact TNE_ctor hw lid pos pv
    | some cid =>
      cases pv with
      | some v => exact TNE_spv hw cid v
      | none => exact hw

theorem TNE_track_insert {w : World} (hw : TrackedNonEnd w) (lid : Nat)
    (ipos : search_position_t) (stage : Nat) (pv : Option onode_t)
    (hmoved : ∀ e ∈ (trackedCursorsOf w lid).filter
        (fun e => spLeb ipos e.1 && spLtb e.1 (stageUpper ipos stage)),
      spIsEnd (spInc e.1 stage) = false) :
    TrackedNonEnd ((LeafNode_track_insert w lid ipos stage pv).1) := by
  unfold LeafNode_track_insert
  simp only []
  apply TNE_ctor
  apply TNE_utrack_fold
  · apply TNE_setLeafTracked (TNE_invalidate hw _) lid
    intro e he
    exact TNE_trackedOf hw lid e (List.mem_filter.mp he).1
  · exact hmoved

theorem TNE_track_split {w : World} (hw : TrackedNonEnd w) (lid : Nat)
    (spos : search_position_t) (rid : Nat)
    (hmoved : ∀ e ∈ (trackedCursorsOf w lid).filter (fun e => spLeb spos e.1),
      spIsEnd (spSub e.1 spos) = false) :
    TrackedNonEnd (LeafNode_track_split w lid spos rid) := by
  unfold LeafNode_track_split
  simp only []
  apply TNE_setLeafTracked _ lid
  · intro e he
    exact TNE_trackedOf hw lid e (List.mem_filter.mp he).1
  · apply TNE_utrack_fold
    · exact TNE_invalidate hw _
    · exact hmoved

theorem TNE_untrack {w : World} (hw : TrackedNonEnd w) (lid : Nat)
    (pos : search_position_t) :
    TrackedNonEnd (leafDoUntrackCursor w lid pos) := by
  intro lid' ls' hget e he
  unfold leafDoUntrackCursor at hget
  simp only [] at hget
  rw [alGet_alMod] at hget
  by_cases hl : lid' = lid
  · rw [if_pos hl] at hget
    cases hg : alGet w.leaves lid' with
    | none => rw [hg] at hget; exact absurd hget (by simp)
    | some ls =>
      rw [hg] at hget
      simp only [Option.map] at hget
      have hls' : ls' = { ls with tracked_cursors := pmErase ls.tracked_cursors pos } :=
        (Option.some.inj hget).symm
      rw [hls'] at he
      exact hw lid' ls hg e (mem_pmErase he)
  · rw [if_neg hl] at hget
    exact hw lid' ls' hget e he

/-- One legal operation on the leaf cursor-tracking maps, as exposed by
node.cc: get_or_track_cursor, track_insert, track_split and the
destructor's do_untrack_cursor.  The `hmoved` preconditions are the
assertion `!pos.is_end()` of tree_cursor_t::update_track (node.cc line
56) at each re-registration the operation performs. -/
inductive LeafTrackStep : World → World → Prop
  | got (w : World) (lid : Nat) (pos : search_position_t) (pv : Option onode_t) :
      LeafTrackStep w (LeafNode_get_or_track_cursor w lid pos pv).1
  | tins (w : World) (lid : Nat) (ipos : search_position_t) (stage : Nat)
      (pv : Option onode_t)
      (hmoved : ∀ e ∈ (trackedCursorsOf w lid).filter
          (fun e => spLeb ipos e.1 && spLtb e.1 (stageUpper ipos stage)),
        spIsEnd (spInc e.1 stage) = false) :
      LeafTrackStep w (LeafNode_track_insert w lid ipos stage pv).1
  | tsplit (w : World) (lid : Nat) (spos : search_position_t) (rid : Nat)
      (hmoved : ∀ e ∈ (trackedCursorsOf w lid).filter (fun e => spLeb spos e.1),
        spIsEnd (spSub e.1 spos) = false) :
      LeafTrackStep w (LeafNode_track_split w lid spos rid)
  | untrack (w : World) (lid : Nat) (pos : search_position_t) :
      LeafTrackStep w (leafDoUntrackCursor w lid pos)

/-- States reachable from `w0` by legal tracking operations. -/
inductive ReachableW (w0 : World) : World → Prop
  | refl : ReachableW w0 w0
  | step {w w' : World} : ReachableW w0 w → LeafTrackStep w w' → ReachableW w0 w'

theorem trackedCursorsOf_doTrack_self {w : World} {lid : Nat} {ls : LeafState}
    (hg : alGet w.leaves lid = some ls) (p : search_position_t) (cid : Nat) :
    trackedCursorsOf (leafDoTrackCursor w lid p cid) lid
      = pmInsert ls.tracked_cursors p cid := by
  unfold trackedCursorsOf leafDoTrackCursor
  simp only []
  rw [alGet_alMod, if_pos rfl, hg]
  rfl

theorem pmGet_pmInsert_self {α : Type} (m : List (search_position_t × α))
    (k : search_position_t) (v : α) : pmGet (pmInsert m k v) k = some v := by
  simp [pmGet, pmInsert, List.find?]

/-- C8: in every state reachable by legal tracking operations from a state
whose tracking maps hold only non-end positions, every leaf's tracked
cursor map still holds only non-end positions; moreover the cursor
constructor never registers an end-position cursor (the map is unchanged)
and always registers a non-end-position cursor at its position. -/
theorem claim_C8 (w0 w : World) (h0 : TrackedNonEnd w0) (hr : ReachableW w0 w)
    (lid : Nat) (pos : search_position_t) (pv : Option onode_t) :
    TrackedNonEnd w
    ∧ (spIsEnd pos = true → ∀ lid', trackedCursorsOf (tree_cursor_ctor w lid pos pv).1 lid'
        = trackedCursorsOf w lid')
    ∧ (spIsEnd pos = false → ∀ ls, alGet w.leaves lid = some ls →
        pmGet (trackedCursorsOf (tree_cursor_ctor w lid pos pv).1 lid) pos
          = some (tree_cursor_ctor w lid pos pv).2) := by
  have hinv : TrackedNonEnd w := by
    induction hr with
    | refl => exact h0
    | step hr hs ih =>
      cases hs with
      | got lid pos pv => exact TNE_got ih lid pos pv
      | tins lid ipos stage pv hmoved => exact TNE_track_insert ih lid ipos stage pv hmoved
      | tsplit lid spos rid hmoved => exact TNE_track_split ih lid spos rid hmoved
      | untrack lid pos => exact TNE_untrack ih lid pos
  refine ⟨hinv, ?_, ?_⟩
  · intro hend lid'
    unfold tree_cursor_ctor
    simp only [hend, if_true]
    rfl
  · intro hend ls hg
    unfold tree_cursor_ctor
    simp only [hend, if_false, Bool.false_eq_true]
    rw [trackedCursorsOf_doTrack_self (by exact hg) pos w.nextCursor]
    exact pmGet_pmInsert_self _ pos _

def wC8 : World := (LeafNode_get_or_track_cursor wSL 0 spBegin (some ⟨3, 3⟩)).1

theorem claim_C8_witness :
    TrackedNonEnd wC8
    ∧ (spIsEnd spBegin = true → ∀ lid',
        trackedCursorsOf (tree_cursor_ctor wC8 0 spBegin (some ⟨3, 3⟩)).1 lid'
          = trackedCursorsOf wC8 lid')
    ∧ (spIsEnd spBegin = false → ∀ ls, alGet wC8.leaves 0 = some ls →
        pmGet (trackedCursorsOf (tree_cursor_ctor wC8 0 spBegin (some ⟨3, 3⟩)).1 0) spBegin
          = some (tree_cursor_ctor wC8 0 spBegin (some ⟨3, 3⟩)).2) :=
  claim_C8 wSL wC8
    (by
      intro lid ls h e he
      have hm := alGet_mem _ _ _ h
      rw [show wSL.leaves
          = [(0, ⟨⟨1, field_type_t.N0, true, 5, []⟩, some (spEnd, 1), []⟩)] from rfl] at hm
      have hb := congrArg Prod.snd (List.mem_singleton.mp hm)
      simp only [] at hb
      rw [hb] at he
      simp at he)
    (ReachableW.step ReachableW.refl (LeafTrackStep.got wSL 0 spBegin (some ⟨3, 3⟩)))
    0 spBegin (some ⟨3, 3⟩)

theorem spLeb_iff (a b : search_position_t) :
    spLeb a b = true ↔ (a.i2 < b.i2 ∨ (a.i2 = b.i2 ∧ (a.i1 < b.i1
      ∨ (a.i1 = b.i1 ∧ a.i0 ≤ b.i0)))) := by
  unfold spLeb
  by_cases h2 : a.i2 = b.i2 <;> by_cases h1 : a.i1 = b.i1 <;>
    simp [h2, h1, bne_iff_ne] <;> omega

theorem spLtb_iff (a b : search_position_t) :
    spLtb a b = true ↔ (a.i2 < b.i2 ∨ (a.i2 = b.i2 ∧ (a.i1 < b.i1
      ∨ (a.i1 = b.i1 ∧ a.i0 < b.i0)))) := by
  unfold spLtb
  by_cases h2 : a.i2 = b.i2 <;> by_cases h1 : a.i1 = b.i1 <;>
    simp [h2, h1, bne_iff_ne] <;> omega

theorem spLeb_refl (a : search_position_t) : spLeb a a = true := by
  rw [spLeb_iff]; omega

theorem spLeb_trans {a b c : search_position_t} (h1 : spLeb a b = true)
    (h2 : spLeb b c = true) : spLeb a c = true := by
  rw [spLeb_iff] at *; omega

theorem spLtb_spLeb_trans {a b c : search_position_t} (h1 : spLtb a b = true)
    (h2 : spLeb b c = true) : spLtb a c = true := by
  rw [spLtb_iff] at *; rw [spLeb_iff] at h2; omega

theorem spLeb_spLtb_trans {a b c : search_position_t} (h1 : spLeb a b = true)
    (h2 : spLtb b c = true) : spLtb a c = true := by
  rw [spLeb_iff] at h1; rw [spLtb_iff] at *; omega

theorem spLeb_of_spLtb {a b : search_position_t} (h : spLtb a b = true) :
    spLeb a b = true := by
  rw [spLtb_iff] at h; rw [spLeb_iff]; omega

theorem spLeb_of_not_spLtb {a b : search_position_t} (h : ¬ spLtb a b = true) :
    spLeb b a = true := by
  rw [spLtb_iff] at h; rw [spLeb_iff]; omega

theorem spLeb_antisymm {a b : search_position_t} (h1 : spLeb a b = true)
    (h2 : spLeb b a = true) : a = b := by
  rw [spLeb_iff] at h1 h2
  cases a; cases b
  simp only [search_position_t.mk.injEq]
  try dsimp only at h1 h2
  omega

theorem spLtb_of_spLeb_ne {a b : search_position_t} (h1 : spLeb a b = true)
    (h2 : a ≠ b) : spLtb a b = true := by
  by_cases hlt : spLtb a b = true
  · exact hlt
  · exact absurd (spLeb_antisymm h1 (spLeb_of_not_spLtb hlt)) h2

theorem spLtb_irrefl (a : search_position_t) : spLtb a a = false := by
  by_cases h : spLtb a a = true
  · rw [spLtb_iff] at h; omega
  · exact Bool.not_eq_true _ ▸ h

theorem spLtb_spInc_self (p : search_position_t) (s : Nat) :
    spLtb p (spInc p s) = true := by
  unfold spInc spSetIndex spIndex
  by_cases h2 : (s == 2) = true <;> by_cases h1 : (s == 1) = true <;>
    simp only [h2, h1, if_true, if_false, Bool.false_eq_true] <;>
    rw [spLtb_iff] <;> (try dsimp only) <;> omega

theorem spInc_mono {p q : search_position_t} (s : Nat) (h : spLtb p q = true) :
    spLtb (spInc p s) (spInc q s) = true := by
  unfold spInc spSetIndex spIndex
  rw [spLtb_iff] at h
  by_cases h2 : (s == 2) = true <;> by_cases h1 : (s == 1) = true <;>
    simp only [h2, h1, if_true, if_false, Bool.false_eq_true] <;>
    rw [spLtb_iff] <;> (try dsimp only) <;> omega

theorem spInc_inj {p q : search_position_t} (s : Nat) (h : spInc p s = spInc q s) :
    p = q := by
  unfold spInc spSetIndex spIndex at h
  cases p; cases q
  by_cases h2 : (s == 2) = true <;> by_cases h1 : (s == 1) = true <;>
    simp only [h2, h1, if_true, if_false, Bool.false_eq_true] at h <;>
    simp only [search_position_t.mk.injEq] at h ⊢ <;> omega

theorem spLtb_spInc_upper {ipos q : search_position_t} {s : Nat}
    (hq : spLtb q (spSetIndex ipos s INDEX_END) = true)
    (hb : spIndex q s + 1 < INDEX_END) :
    spLtb (spInc q s) (spSetIndex ipos s INDEX_END) = true := by
  unfold spInc spSetIndex spIndex at *
  by_cases h2 : (s == 2) = true <;> by_cases h1 : (s == 1) = true <;>
    simp only [h2, h1, if_true, if_false, Bool.false_eq_true] at hq hb ⊢ <;>
    rw [spLtb_iff] at hq ⊢ <;> (try dsimp only at hq ⊢) <;> omega

theorem spLtb_self_upper {ipos : search_position_t} {s : Nat}
    (hb : spIndex ipos s < INDEX_END) :
    spLtb ipos (spSetIndex ipos s INDEX_END) = true := by
  unfold spSetIndex spIndex at *
  by_cases h2 : (s == 2) = true <;> by_cases h1 : (s == 1) = true <;>
    simp only [h2, h1, if_true, if_false, Bool.false_eq_true] at hb ⊢ <;>
    rw [spLtb_iff] <;> (try dsimp only) <;> omega

theorem pmMG_fold {α : Type} :
    ∀ (fl : List (search_position_t × α)) (a : search_position_t × α),
      ∃ e, fl.foldl (fun acc e =>
          match acc with
          | none => some e
          | some a => if spLtb e.1 a.1 then some e else some a) (some a) = some e
        ∧ (e ∈ fl ∨ e = a) ∧ spLeb e.1 a.1 = true
        ∧ (∀ x ∈ fl, spLeb e.1 x.1 = true) := by
  intro fl
  induction fl with
  | nil =>
    intro a
    exact ⟨a, rfl, Or.inr rfl, spLeb_refl a.1, fun x hx => absurd hx (by simp)⟩
  | cons b bs ih =>
    intro a
    rw [List.foldl_cons]
    by_cases hlt : spLtb b.1 a.1 = true
    · simp only [hlt, if_true]
      rcases ih b with ⟨e, he, hmem, hle, hall⟩
      refine ⟨e, he, ?_, ?_, ?_⟩
      · rcases hmem with h | h
        · exact Or.inl (List.mem_cons_of_mem b h)
        · exact Or.inl (h ▸ List.mem_cons_self b bs)
      · exact spLeb_trans hle (spLeb_of_spLtb hlt)
      · intro x hx
        rcases List.mem_cons.mp hx with h | h
        · exact h ▸ hle
        · exact hall x h
    · simp only [hlt, if_false, Bool.false_eq_true]
      rcases ih a with ⟨e, he, hmem, hle, hall⟩
      refine ⟨e, he, ?_, hle, ?_⟩
      · rcases hmem with h | h
        · exact Or.inl (List.mem_cons_of_mem b h)
        · exact Or.inr h
      · intro x hx
        rcases List.mem_cons.mp hx with h | h
        · exact h ▸ spLeb_trans hle (spLeb_of_not_spLtb hlt)
        · exact hall x h

theorem pmMinGreater_eq_some {α : Type} (l : List (search_position_t × α))
    (p : search_position_t) (k : search_position_t) (v : α)
    (hmem : (k, v) ∈ l) (hgt : spLtb p k = true)
    (hmin : ∀ e ∈ l, spLtb p e.1 = true → spLeb k e.1 = true)
    (huniq : ∀ e ∈ l, e.1 = k → e.2 = v) :
    pmMinGreater l p = some (k, v) := by
  unfold pmMinGreater
  have hkf : (k, v) ∈ l.filter (fun e => spLtb p e.1) :=
    List.mem_filter.mpr ⟨hmem, hgt⟩
  rcases hfl : l.filter (fun e => spLtb p e.1) with _ | ⟨b, bs⟩
  · rw [hfl] at hkf
    exact absurd hkf (by simp)
  · rw [hfl, List.foldl_cons]
    show bs.foldl _ (some b) = some (k, v)
    rcases pmMG_fold bs b with ⟨e, he, hmemE, hleE, hallE⟩
    rw [he]
    have hefl : e ∈ l.filter (fun e => spLtb p e.1) := by
      rw [hfl]
      rcases hmemE with h | h
      · exact List.mem_cons_of_mem b h
      · exact h ▸ List.mem_cons_self b bs
    have heL : e ∈ l := (List.mem_filter.mp hefl).1
    have hegt : spLtb p e.1 = true := by
      have := (List.mem_filter.mp hefl).2
      simpa using this
    have hek : spLeb k e.1 = true := hmin e heL hegt
    have hke : spLeb e.1 k = true := by
      rw [hfl] at hkf
      rcases List.mem_cons.mp hkf with h | h
      · rw [show k = (b.1 : search_position_t) from congrArg Prod.fst h] at hek ⊢
        exact hleE
      · exact hallE _ h
    have hkey : e.1 = k := spLeb_antisymm hke hek
    have hval : e.2 = v := huniq e heL hkey
    rw [show e = (k, v) from Prod.ext hkey hval]

theorem pmErase_pmErase {α : Type} (l : List (search_position_t × α))
    (k : search_position_t) : pmErase (pmErase l k) k = pmErase l k := by
  unfold pmErase
  rw [List.filter_filter]
  congr 1
  funext e
  rw [Bool.and_self]

theorem mem_pmInsert_self {α : Type} (l : List (search_position_t × α))
    (k : search_position_t) (v : α) : (k, v) ∈ pmInsert l k v :=
  List.mem_cons_self _ _

theorem pmInsert_mem_keep {α : Type} {l : List (search_position_t × α)}
    {e : search_position_t × α} (k : search_position_t) (v : α)
    (he : e ∈ l) (hne : e.1 ≠ k) : e ∈ pmInsert l k v := by
  apply List.mem_cons_of_mem
  exact List.mem_filter.mpr ⟨he, by simpa [bne_iff_ne] using hne⟩

theorem tracked_fold_as_child (st : Nat) (iid : Nat) :
    ∀ (ml : List (search_position_t × Nat)) (w : World),
      (alGet w.internals iid).isSome →
      trackedChildrenOf (ml.foldl (fun w e => Node_as_child w e.2 (spInc e.1 st) iid) w) iid
        = ml.foldl (fun m e => pmInsert m (spInc e.1 st) e.2) (trackedChildrenOf w iid) := by
  intro ml
  induction ml with
  | nil => intro w _; rfl
  | cons a as ih =>
    intro w hs
    rw [List.foldl_cons, List.foldl_cons]
    rw [ih (Node_as_child w a.2 (spInc a.1 st) iid)
      (by rw [internals_isSome_as_child]; exact hs)]
    rw [as_child_tracked_parent w a.2 (spInc a.1 st) iid hs]

theorem foldl_pmInsert_mem_base {α : Type} (g : (search_position_t × α) → search_position_t) :
    ∀ (ml : List (search_position_t × α)) (m : List (search_position_t × α))
      (e : search_position_t × α), e ∈ m → (∀ x ∈ ml, g x ≠ e.1) →
      e ∈ ml.foldl (fun m x => pmInsert m (g x) x.2) m := by
  intro ml
  induction ml with
  | nil => intro m e he _; exact he
  | cons a as ih =>
    intro m e he hk
    rw [List.foldl_cons]
    exact ih _ e (pmInsert_mem_keep _ _ he
        (fun hc => hk a (List.mem_cons_self a as) hc.symm))
      (fun x hx => hk x (List.mem_cons_of_mem a hx))

theorem foldl_pmInsert_mem_elem {α : Type} (g : (search_position_t × α) → search_position_t) :
    ∀ (ml : List (search_position_t × α)) (m : List (search_position_t × α))
      (x : search_position_t × α), x ∈ ml →
      List.Pairwise (fun a b => g a ≠ g b) ml →
      (g x, x.2) ∈ ml.foldl (fun m x => pmInsert m (g x) x.2) m := by
  intro ml
  induction ml with
  | nil => intro m x hx; exact absurd hx (by simp)
  | cons a as ih =>
    intro m x hx hp
    rw [List.foldl_cons]
    rcases List.mem_cons.mp hx with h | h
    · subst h
      apply foldl_pmInsert_mem_base g as _ _ (mem_pmInsert_self _ _ _)
      intro y hy hc
      exact (List.pairwise_cons.mp hp).1 y hy hc.symm
    · exact ih _ x h (List.pairwise_cons.mp hp).2

theorem foldl_pmInsert_mem_conv {α : Type} (g : (search_position_t × α) → search_position_t) :
    ∀ (ml : List (search_position_t × α)) (m : List (search_position_t × α))
      (e : search_position_t × α),
      e ∈ ml.foldl (fun m x => pmInsert m (g x) x.2) m →
      (∃ x ∈ ml, e = (g x, x.2)) ∨ e ∈ m := by
  intro ml
  induction ml with
  | nil => intro m e he; exact Or.inr he
  | cons a as ih =>
    intro m e he
    rw [List.foldl_cons] at he
    rcases ih _ e he with h | h
    · rcases h with ⟨x, hx, hex⟩
      exact Or.inl ⟨x, List.mem_cons_of_mem a hx, hex⟩
    · rcases mem_pmInsert h with h1 | h1
      · exact Or.inl ⟨a, List.mem_cons_self a as, h1⟩
      · exact Or.inr h1

theorem trackedChildrenOf_of_internals {w w' : World} (n k : Nat)
    (f : InternalState → InternalState)
    (hl : w'.internals = alMod w.internals k f)
    (hf : ∀ s, (f s).tracked_child_nodes = s.tracked_child_nodes) :
    trackedChildrenOf w' n = trackedChildrenOf w n := by
  unfold trackedChildrenOf
  rw [hl, alGet_alMod]
  by_cases hk : n = k
  · rw [if_pos hk]
    cases alGet w.internals n with
    | none => rfl
    | some s => simp only [Option.map]; rw [hf]
  · rw [if_neg hk]

theorem internalEntriesOf_of_internals {w w' : World} (n k : Nat)
    (f : InternalState → InternalState)
    (hl : w'.internals = alMod w.internals k f)
    (hf : ∀ s, (f s).impl.entries = s.impl.entries) :
    internalEntriesOf w' n = internalEntriesOf w n := by
  unfold internalEntriesOf
  rw [hl, alGet_alMod]
  by_cases hk : n = k
  · rw [if_pos hk]
    cases alGet w.internals n with
    | none => rfl
    | some s => simp only [Option.map]; rw [hf]
  · rw [if_neg hk]

theorem setInternalTracked_tracked_self (w : World) (iid : Nat)
    (m : List (search_position_t × Nat)) (h : (alGet w.internals iid).isSome) :
    trackedChildrenOf (setInternalTracked w iid m) iid = m := by
  unfold setInternalTracked trackedChildrenOf
  simp only []
  rw [alGet_alMod, if_pos rfl]
  rcases Option.isSome_iff_exists.mp h with ⟨s, hs⟩
  rw [hs]
  rfl

theorem tracked_replaceAddr (w : World) (iid : Nat) (pos : search_position_t)
    (na n : Nat) :
    trackedChildrenOf (internalReplaceChildAddr w iid pos na) n
      = trackedChildrenOf w n :=
  trackedChildrenOf_of_internals n iid
    (fun s => { s with impl := { s.impl with
        entries := s.impl.entries.map
          (fun e => if e.1 == pos then (e.1, na) else e) } })
    rfl (fun _ => rfl)

theorem tracked_implInsertI (w : World) (iid : Nat) (a : Nat) (ev : EvalResult)
    (n : Nat) :
    trackedChildrenOf (internalImplInsert w iid a ev) n = trackedChildrenOf w n :=
  trackedChildrenOf_of_internals n iid
    (fun s => { s with impl := { s.impl with
        free := s.impl.free - ev.size,
        entries := stagedShiftInsert s.impl.entries ev.pos ev.stage a } })
    rfl (fun _ => rfl)

theorem internals_isSome_replaceAddr (w : World) (iid : Nat) (pos : search_position_t)
    (na n : Nat) :
    (alGet (internalReplaceChildAddr w iid pos na).internals n).isSome
      = (alGet w.internals n).isSome := by
  unfold internalReplaceChildAddr
  simp only []
  rw [alGet_alMod_isSome]

theorem internals_isSome_setTracked (w : World) (iid : Nat)
    (m : List (search_position_t × Nat)) (n : Nat) :
    (alGet (setInternalTracked w iid m).internals n).isSome
      = (alGet w.internals n).isSome := by
  unfold setInternalTracked
  simp only []
  rw [alGet_alMod_isSome]

theorem internals_isSome_implInsertI (w : World) (iid : Nat) (a : Nat)
    (ev : EvalResult) (n : Nat) :
    (alGet (internalImplInsert w iid a ev).internals n).isSome
      = (alGet w.internals n).isSome := by
  unfold internalImplInsert
  simp only []
  rw [alGet_alMod_isSome]

theorem tracked_acsReplace (w : World) (iid : Nat) (pos : search_position_t)
    (r : Nat) (h : (alGet w.internals iid).isSome) :
    trackedChildrenOf (acsReplace w iid pos r) iid
      = (pos, r) :: pmErase (trackedChildrenOf w iid) pos := by
  unfold acsReplace InternalNode_replace_track
  simp only []
  rw [as_child_tracked_parent _ _ _ _ (by
    rw [internals_isSome_setTracked, internals_isSome_replaceAddr]; exact h)]
  rw [setInternalTracked_tracked_self _ _ _ (by
    rw [internals_isSome_replaceAddr]; exact h)]
  rw [tracked_replaceAddr]
  unfold pmInsert
  rw [pmErase_pmErase]

theorem tracked_track_insert_run (w : World) (iid : Nat) (ipos : search_position_t)
    (st : Nat) (c : Nat) (h : (alGet w.internals iid).isSome) :
    trackedChildrenOf (InternalNode_track_insert w iid ipos st c) iid
      = pmInsert
          (((trackedChildrenOf w iid).filter
              (fun e => spLeb ipos e.1 && spLtb e.1 (stageUpper ipos st))).foldl
            (fun m e => pmInsert m (spInc e.1 st) e.2)
            ((trackedChildrenOf w iid).filter
              (fun e => !(spLeb ipos e.1 && spLtb e.1 (stageUpper ipos st)))))
          ipos c := by
  unfold InternalNode_track_insert
  simp only []
  have hs1 : (alGet (setInternalTracked w iid ((trackedChildrenOf w iid).filter
      (fun e => !(spLeb ipos e.1 && spLtb e.1 (stageUpper ipos st))))).internals iid).isSome := by
    rw [internals_isSome_setTracked]; exact h
  have hfold : ∀ (ms : List (search_position_t × Nat)) (ww : World),
      (alGet ww.internals iid).isSome →
      (alGet ((ms.foldl
        (fun w e => Node_as_child w e.2 (spInc e.1 st) iid) ww)).internals iid).isSome := by
    intro ms
    induction ms with
    | nil => intro ww hw; exact hw
    | cons x xs ih =>
      intro ww hw
      rw [List.foldl_cons]
      exact ih _ (by rw [internals_isSome_as_child]; exact hw)
  rw [as_child_tracked_parent _ _ _ _ (hfold _ _ hs1)]
  rw [tracked_fold_as_child st iid _ _ hs1]
  rw [setInternalTracked_tracked_self _ _ _ h]

theorem entries_as_child (w : World) (c : Nat) (p : search_position_t)
    (par n : Nat) :
    internalEntriesOf (Node_as_child w c p par) n = internalEntriesOf w n := by
  unfold Node_as_child
  simp only []
  rw [internalEntriesOf_of_internals n par
    (fun s => { s with tracked_child_nodes := pmInsert s.tracked_child_nodes p c })
    rfl (fun _ => rfl)]
  unfold setNodeParent
  exact internalEntriesOf_of_internals n c (fun s => { s with parent := some (p, par) })
    rfl (fun _ => rfl)

theorem entries_setInternalTracked (w : World) (iid : Nat)
    (m : List (search_position_t × Nat)) (n : Nat) :
    internalEntriesOf (setInternalTracked w iid m) n = internalEntriesOf w n :=
  internalEntriesOf_of_internals n iid (fun s => { s with tracked_child_nodes := m })
    rfl (fun _ => rfl)

theorem entries_track_insert (w : World) (iid : Nat) (ipos : search_position_t)
    (st : Nat) (c : Nat) (n : Nat) :
    internalEntriesOf (InternalNode_track_insert w iid ipos st c) n
      = internalEntriesOf w n := by
  unfold InternalNode_track_insert
  simp only []
  rw [entries_as_child]
  rw [show ∀ (ms : List (search_position_t × Nat)) (ww : World),
      internalEntriesOf (ms.foldl
        (fun w e => Node_as_child w e.2 (spInc e.1 st) iid) ww) n
        = internalEntriesOf ww n from ?_]
  · rw [entries_setInternalTracked]
  · intro ms
    induction ms with
    | nil => intro ww; rfl
    | cons x xs ih =>
      intro ww
      rw [List.foldl_cons, ih, entries_as_child]

theorem entries_replace_track (w : World) (iid : Nat) (pos : search_position_t)
    (c : Nat) (n : Nat) :
    internalEntriesOf (InternalNode_replace_track w iid pos c) n
      = internalEntriesOf w n := by
  unfold InternalNode_replace_track
  simp only []
  rw [entries_as_child, entries_setInternalTracked]

theorem entries_replaceAddr_self (w : World) (iid : Nat) (pos : search_position_t)
    (na : Nat) (h : (alGet w.internals iid).isSome) :
    internalEntriesOf (internalReplaceChildAddr w iid pos na) iid
      = (internalEntriesOf w iid).map (fun e => if e.1 == pos then (e.1, na) else e) := by
  unfold internalReplaceChildAddr internalEntriesOf
  simp only []
  rw [alGet_alMod, if_pos rfl]
  rcases Option.isSome_iff_exists.mp h with ⟨s, hs⟩
  rw [hs]
  rfl

theorem entries_acsReplace_self (w : World) (iid : Nat) (pos : search_position_t)
    (r : Nat) (h : (alGet w.internals iid).isSome) :
    internalEntriesOf (acsReplace w iid pos r) iid
      = (internalEntriesOf w iid).map
          (fun e => if e.1 == pos then (e.1, nodeAddr w r) else e) := by
  unfold acsReplace
  rw [entries_replace_track, entries_replaceAddr_self _ _ _ _ h]

theorem entries_implInsertI_self (w : World) (iid : Nat) (a : Nat)
    (ev : EvalResult) (h : (alGet w.internals iid).isSome) :
    internalEntriesOf (internalImplInsert w iid a ev) iid
      = stagedShiftInsert (internalEntriesOf w iid) ev.pos ev.stage a := by
  unfold internalImplInsert internalEntriesOf
  simp only []
  rw [alGet_alMod, if_pos rfl]
  rcases Option.isSome_iff_exists.mp h with ⟨s, hs⟩
  rw [hs]
  rfl

theorem pmGet_mapReplace {α : Type} (na : α) (pos : search_position_t) :
    ∀ (l : List (search_position_t × α)) (v : α), pmGet l pos = some v →
      pmGet (l.map (fun e => if e.1 == pos then (e.1, na) else e)) pos = some na := by
  intro l
  induction l with
  | nil => intro v hv; exact absurd hv (by simp [pmGet])
  | cons a as ih =>
    intro v hv
    by_cases hk : (a.1 == pos) = true
    · rw [List.map_cons]
      rw [if_pos hk]
      unfold pmGet
      rw [List.find?_cons_of_pos _ (by simpa using hk)]
    · rw [List.map_cons, if_neg hk]
      unfold pmGet at hv ⊢
      rw [List.find?_cons_of_neg _ (by simpa using hk)] at hv
      rw [List.find?_cons_of_neg _ (by simpa using hk)]
      exact ih v hv

/-- The position of the replaced right child after the separator insert of
apply_child_split: shifted by the insert stage when it falls in the insert
window, unchanged otherwise. -/
def posAfterC4 (ipos pos : search_position_t) (st : Nat) : search_position_t :=
  if spLeb ipos pos && spLtb pos (stageUpper ipos st) then spInc pos st else pos

theorem ne_of_spLtb {a b : search_position_t} (h : spLtb a b = true) : a ≠ b := by
  intro he
  rw [he, spLtb_irrefl] at h
  cases h

theorem band_mp {a b : Bool} (h : (a && b) = true) : a = true ∧ b = true := by
  simp_all

theorem band_mpr {a b : Bool} (h1 : a = true) (h2 : b = true) : (a && b) = true := by
  simp_all

theorem not_true_of_bnot {a : Bool} (h : (!a) = true) : ¬ a = true := by
  simp_all

theorem bnot_of_not_true {a : Bool} (h : ¬ a = true) : (!a) = true := by
  simp_all

theorem mem_pmErase_ne {α : Type} {l : List (search_position_t × α)}
    {k : search_position_t} {e : search_position_t × α} (h : e ∈ pmErase l k) :
    e.1 ≠ k := by
  have := (List.mem_filter.mp h).2
  simpa [bne_iff_ne] using this

theorem c4_successor (t0 : List (search_position_t × Nat)) (ipos pos : search_position_t)
    (st : Nat) (l r : Nat)
    (hevle : spLeb ipos pos = true)
    (hevE : spIndex ipos st < INDEX_END)
    (hposb : spIndex pos st + 1 < INDEX_END)
    (hnd : List.Pairwise (fun a b => a.1 ≠ b.1) t0)
    (hgap : ∀ e ∈ t0, spLeb ipos e.1 = true → spLtb e.1 pos = true → False) :
    pmMinGreater
      (pmInsert
        ((((pos, r) :: pmErase t0 pos).filter
            (fun e => spLeb ipos e.1 && spLtb e.1 (stageUpper ipos st))).foldl
          (fun m e => pmInsert m (spInc e.1 st) e.2)
          (((pos, r) :: pmErase t0 pos).filter
            (fun e => !(spLeb ipos e.1 && spLtb e.1 (stageUpper ipos st)))))
        ipos l)
      ipos
    = some (posAfterC4 ipos pos st, r) := by
  set up := stageUpper ipos st with hupdef
  set f : search_position_t × Nat → Bool :=
    fun e => spLeb ipos e.1 && spLtb e.1 up with hfdef
  set t1 : List (search_position_t × Nat) := (pos, r) :: pmErase t0 pos with ht1
  set moved := t1.filter f with hmoved
  set kept := t1.filter (fun e => !(f e)) with hkept
  have hLtUp : spLtb ipos up = true := spLtb_self_upper hevE
  -- facts about members of t1's tail
  have htail : ∀ x ∈ pmErase t0 pos, x ∈ t0 ∧ x.1 ≠ pos :=
    fun x hx => ⟨mem_pmErase hx, mem_pmErase_ne hx⟩
  have hgap2 : ∀ x ∈ pmErase t0 pos, spLeb ipos x.1 = true → spLtb pos x.1 = true := by
    intro x hx hle
    rcases htail x hx with ⟨hx0, hxne⟩
    have hnlt : ¬ spLtb x.1 pos = true := fun hc => hgap x hx0 hle hc
    exact spLtb_of_spLeb_ne (spLeb_of_not_spLtb hnlt) (fun hc => hxne hc.symm)
  -- pairwise key distinctness of moved
  have hnd1 : List.Pairwise (fun a b => (a : search_position_t × Nat).1 ≠ b.1) t1 := by
    rw [ht1]
    refine List.pairwise_cons.mpr ⟨?_, List.Pairwise.filter _ hnd⟩
    intro b hb
    exact fun hc => (mem_pmErase_ne hb) hc.symm
  have hndm : List.Pairwise (fun a b => (a : search_position_t × Nat).1 ≠ b.1) moved :=
    List.Pairwise.filter _ hnd1
  have hndg : List.Pairwise
      (fun a b => spInc (a : search_position_t × Nat).1 st ≠ spInc b.1 st) moved :=
    hndm.imp (fun hab hc => hab (spInc_inj st hc))
  by_cases hwin : (spLeb ipos pos && spLtb pos up) = true
  · -- the replaced child sits in the insert window and is shifted
    have hpa : posAfterC4 ipos pos st = spInc pos st := by
      unfold posAfterC4
      rw [← hupdef, if_pos hwin]
    rw [hpa]
    have hposltup : spLtb pos up = true := (band_mp hwin).2
    have hgtb : spLtb ipos (spInc pos st) = true :=
      spLeb_spLtb_trans hevle (spLtb_spInc_self pos st)
    have hpaUp : spLtb (spInc pos st) up = true := spLtb_spInc_upper hposltup hposb
    have hprmem : (pos, r) ∈ moved := by
      rw [hmoved]
      exact List.mem_filter.mpr ⟨ht1 ▸ List.mem_cons_self _ _, hwin⟩
    have hfold : ((spInc pos st, r) : search_position_t × Nat)
        ∈ moved.foldl (fun m e => pmInsert m (spInc e.1 st) e.2) kept :=
      foldl_pmInsert_mem_elem (fun e => spInc e.1 st) moved kept (pos, r) hprmem hndg
    apply pmMinGreater_eq_some
    · exact pmInsert_mem_keep _ _ hfold (fun hc => (ne_of_spLtb hgtb) hc.symm)
    · exact hgtb
    · -- minimality
      intro e he hlt
      rcases mem_pmInsert he with h | h
      · rw [show e.1 = ipos from congrArg Prod.fst h] at hlt
        rw [spLtb_irrefl] at hlt
        cases hlt
      · rcases foldl_pmInsert_mem_conv (fun e => spInc e.1 st) moved kept e h with h1 | h1
        · rcases h1 with ⟨x, hx, hex⟩
          rw [show e.1 = spInc x.1 st from congrArg Prod.fst hex]
          have hxt1 := (List.mem_filter.mp (hmoved ▸ hx)).1
          rcases List.mem_cons.mp (ht1 ▸ hxt1) with hh | hh
          · rw [show x.1 = pos from congrArg Prod.fst hh]
            exact spLeb_refl _
          · have hxw := (List.mem_filter.mp (hmoved ▸ hx)).2
            rw [hfdef] at hxw
            have hxle : spLeb ipos x.1 = true := (band_mp hxw).1
            have := hgap2 x hh hxle
            exact spLeb_of_spLtb (spInc_mono st this)
        · have henw := (List.mem_filter.mp (hkept ▸ h1)).2
          have hnf : ¬ f e = true := not_true_of_bnot henw
          have hele : spLeb ipos e.1 = true := spLeb_of_spLtb hlt
          have hnlt : ¬ spLtb e.1 up = true := by
            intro hc
            apply hnf
            rw [hfdef]
            exact band_mpr hele hc
          have hupe : spLeb up e.1 = true := spLeb_of_not_spLtb hnlt
          exact spLeb_trans (spLeb_of_spLtb hpaUp) hupe
    · -- key uniqueness
      intro e he hk
      rcases mem_pmInsert he with h | h
      · rw [show e.1 = ipos from congrArg Prod.fst h] at hk
        exact absurd hk (ne_of_spLtb hgtb)
      · rcases foldl_pmInsert_mem_conv (fun e => spInc e.1 st) moved kept e h with h1 | h1
        · rcases h1 with ⟨x, hx, hex⟩
          have hxk : spInc x.1 st = spInc pos st := by
            rw [show e.1 = spInc x.1 st from congrArg Prod.fst hex] at hk
            exact hk
          have hxpos : x.1 = pos := spInc_inj st hxk
          have hxt1 := (List.mem_filter.mp (hmoved ▸ hx)).1
          rcases List.mem_cons.mp (ht1 ▸ hxt1) with hh | hh
          · rw [hex]
            show x.2 = r
            rw [hh]
          · exact absurd hxpos (htail x hh).2
        · have henw := (List.mem_filter.mp (hkept ▸ h1)).2
          have hnf : ¬ f e = true := not_true_of_bnot henw
          exfalso
          apply hnf
          rw [hfdef]
          apply band_mpr
          · rw [hk]
            exact spLeb_of_spLtb hgtb
          · rw [hk]
            exact hpaUp
  · -- the replaced child stays at pos
    have hpa : posAfterC4 ipos pos st = pos := by
      unfold posAfterC4
      rw [← hupdef, if_neg hwin]
    rw [hpa]
    have hposne : ipos ≠ pos := by
      intro hc
      apply hwin
      rw [← hc]
      exact band_mpr (spLeb_refl _) hLtUp
    have hgtb : spLtb ipos pos = true := spLtb_of_spLeb_ne hevle hposne
    have hnltup : ¬ spLtb pos up = true := by
      intro hc
      exact hwin (band_mpr hevle hc)
    have huppos : spLeb up pos = true := spLeb_of_not_spLtb hnltup
    have hnof : ∀ x ∈ t1, ¬ f x = true := by
      intro x hx hfx
      rw [hfdef] at hfx
      rcases List.mem_cons.mp (ht1 ▸ hx) with hh | hh
      · apply hwin
        rw [hh] at hfx
        exact hfx
      · have hxle := (band_mp hfx).1
        have hxlt := (band_mp hfx).2
        have h5 := hgap2 x hh hxle
        have h6 : spLtb pos pos = true :=
          spLtb_spLeb_trans h5 (spLeb_trans (spLeb_of_spLtb hxlt) huppos)
        rw [spLtb_irrefl] at h6
        cases h6
    have hmovede : moved = [] := by
      rw [hmoved]
      exact List.filter_eq_nil_iff.mpr hnof
    have hkepte : kept = t1 := by
      rw [hkept]
      apply List.filter_eq_self.mpr
      intro a ha
      exact bnot_of_not_true (hnof a ha)
    rw [hmovede, hkepte]
    rw [List.foldl_nil]
    apply pmMinGreater_eq_some
    · exact pmInsert_mem_keep _ _ (ht1 ▸ List.mem_cons_self _ _)
        (fun hc => hposne hc.symm)
    · exact hgtb
    · intro e he hlt
      rcases mem_pmInsert he with h | h
      · rw [show e.1 = ipos from congrArg Prod.fst h] at hlt
        rw [spLtb_irrefl] at hlt
        cases hlt
      · rcases List.mem_cons.mp (ht1 ▸ h) with hh | hh
        · rw [show e.1 = pos from congrArg Prod.fst hh]
          exact spLeb_refl _
        · have hnltp : ¬ spLtb e.1 pos = true := fun hc =>
            hgap e (htail e hh).1 (spLeb_of_spLtb hlt) hc
          have := spLeb_of_not_spLtb hnltp
          exact this
    · intro e he hk
      rcases mem_pmInsert he with h | h
      · rw [show e.1 = ipos from congrArg Prod.fst h] at hk
        exact absurd hk (ne_of_spLtb hgtb)
      · rcases List.mem_cons.mp (ht1 ▸ h) with hh | hh
        · show e.2 = r
          rw [hh]
        · exact absurd hk (htail e hh).2

/-- C4: apply_child_split on an internal node with sufficient free space
replaces the on-extent child address and the tracked child at `pos` by the
right child; the separator (the left child's largest key, whose insert
position the evaluate contract places at or below `pos`) is installed at
the insert position with the left child registered there in the tracking
map; and in the resulting tracking map the entry immediately after the
left child's new position is the right child (at its stage-shifted
position when the insert window covers `pos`). -/
theorem claim_C4 (fuel : Nat) (w : World) (iid : Nat) (pos : search_position_t)
    (l r : Nat) (orc : Oracles) (free : Nat)
    (hiid : (alGet w.internals iid).isSome = true)
    (hfree : internalFree (acsReplace w iid pos r) iid = some free)
    (hle : (orc.evalI iid pos).size ≤ free)
    (hent : pmGet (internalEntriesOf w iid) pos = some (nodeAddr w l))
    (htr : pmGet (trackedChildrenOf w iid) pos = some l)
    (hevle : spLeb (orc.evalI iid pos).pos pos = true)
    (hevE : spIndex (orc.evalI iid pos).pos (orc.evalI iid pos).stage < INDEX_END)
    (hposb : spIndex pos (orc.evalI iid pos).stage + 1 < INDEX_END)
    (hnd : List.Pairwise (fun a b => a.1 ≠ b.1) (trackedChildrenOf w iid))
    (hgap : ∀ e ∈ trackedChildrenOf w iid, spLeb (orc.evalI iid pos).pos e.1 = true →
      spLtb e.1 pos = true → False) :
    pmGet (internalEntriesOf (acsReplace w iid pos r) iid) pos = some (nodeAddr w r)
    ∧ pmGet (trackedChildrenOf (acsReplace w iid pos r) iid) pos = some r
    ∧ pmGet (internalEntriesOf
          (InternalNode_apply_child_split (fuel + 1) w iid pos l r orc).1 iid)
        (orc.evalI iid pos).pos = some (nodeAddr w l)
    ∧ pmGet (trackedChildrenOf
          (InternalNode_apply_child_split (fuel + 1) w iid pos l r orc).1 iid)
        (orc.evalI iid pos).pos = some l
    ∧ pmMinGreater (trackedChildrenOf
          (InternalNode_apply_child_split (fuel + 1) w iid pos l r orc).1 iid)
        (orc.evalI iid pos).pos
      = some (posAfterC4 (orc.evalI iid pos).pos pos (orc.evalI iid pos).stage, r) := by
  have hrun := acs_inplace_run fuel w iid pos l r orc free hfree hle
  have hW : (InternalNode_apply_child_split (fuel + 1) w iid pos l r orc).1
      = acsInPlace (acsReplace w iid pos r) iid (nodeAddr w l) l (orc.evalI iid pos) := by
    rw [hrun]
  have hs2 : (alGet (acsReplace w iid pos r).internals iid).isSome = true := by
    rw [internals_isSome_acsReplace]
    exact hiid
  have hs3 : (alGet (internalImplInsert (acsReplace w iid pos r) iid (nodeAddr w l)
      (orc.evalI iid pos)).internals iid).isSome = true := by
    rw [internals_isSome_implInsertI]
    exact hs2
  have htrackedW : trackedChildrenOf (acsInPlace (acsReplace w iid pos r) iid
        (nodeAddr w l) l (orc.evalI iid pos)) iid
      = pmInsert
          ((((pos, r) :: pmErase (trackedChildrenOf w iid) pos).filter
              (fun e => spLeb (orc.evalI iid pos).pos e.1
                && spLtb e.1 (stageUpper (orc.evalI iid pos).pos (orc.evalI iid pos).stage))).foldl
            (fun m e => pmInsert m (spInc e.1 (orc.evalI iid pos).stage) e.2)
            (((pos, r) :: pmErase (trackedChildrenOf w iid) pos).filter
              (fun e => !(spLeb (orc.evalI iid pos).pos e.1
                && spLtb e.1 (stageUpper (orc.evalI iid pos).pos (orc.evalI iid pos).stage)))))
          (orc.evalI iid pos).pos l := by
    unfold acsInPlace
    rw [tracked_track_insert_run _ _ _ _ _ hs3]
    rw [tracked_implInsertI, tracked_acsReplace _ _ _ _ hiid]
  refine ⟨?_, ?_, ?_, ?_, ?_⟩
  · rw [entries_acsReplace_self _ _ _ _ hiid]
    exact pmGet_mapReplace _ _ _ _ hent
  · rw [tracked_acsReplace _ _ _ _ hiid]
    exact pmGet_cons_self _ _ _
  · rw [hW]
    unfold acsInPlace
    rw [entries_track_insert, entries_implInsertI_self _ _ _ _ hs2]
    unfold stagedShiftInsert
    simp only []
    exact pmGet_cons_self _ _ _
  · rw [hW, htrackedW]
    exact pmGet_pmInsert_self _ _ _
  · rw [hW, htrackedW]
    exact c4_successor (trackedChildrenOf w iid) (orc.evalI iid pos).pos pos
      (orc.evalI iid pos).stage l r hevle hevE hposb hnd hgap

theorem claim_C4_witness :
    pmGet (internalEntriesOf (acsReplace wACS2 1 spBegin 2) 1) spBegin
      = some (nodeAddr wACS2 2)
    ∧ pmGet (trackedChildrenOf (acsReplace wACS2 1 spBegin 2) 1) spBegin = some 2
    ∧ pmGet (internalEntriesOf
          (InternalNode_apply_child_split (0 + 1) wACS2 1 spBegin 0 2 trivOracles).1 1)
        (trivOracles.evalI 1 spBegin).pos = some (nodeAddr wACS2 0)
    ∧ pmGet (trackedChildrenOf
          (InternalNode_apply_child_split (0 + 1) wACS2 1 spBegin 0 2 trivOracles).1 1)
        (trivOracles.evalI 1 spBegin).pos = some 0
    ∧ pmMinGreater (trackedChildrenOf
          (InternalNode_apply_child_split (0 + 1) wACS2 1 spBegin 0 2 trivOracles).1 1)
        (trivOracles.evalI 1 spBegin).pos
      = some (posAfterC4 (trivOracles.evalI 1 spBegin).pos spBegin
          (trivOracles.evalI 1 spBegin).stage, 2) :=
  claim_C4 0 wACS2 1 spBegin 0 2 trivOracles 50 (by decide) (by decide) (by decide)
    (by decide) (by decide) (by decide) (by decide) (by decide) (by decide) (by decide)
